import Mathlib

/-!
Verification of the veris database core against its natural-language
specification.

The development shallowly embeds the relevant Rust sources:

* the order-preserving key encoding (src/crates/veris-db/src/encoding.rs,
  KeycodeSerializer and KeycodeDeserializer);
* the Bitcask storage log and its recovery loop
  (src/crates/veris-db/src/storage/bitcask.rs);
* the MVCC transaction layer (src/crates/veris-db/src/storage/mvcc.rs);
* the catalog-level local transaction (src/crates/veris-db/src/engine/local.rs);
* the value domain (src/crates/veris-db/src/types/value.rs), the aggregate
  accumulators (src/crates/veris-db/src/exec/aggregate.rs) and the nested-loop
  joiner (src/crates/veris-db/src/exec/join.rs, src/crates/veris-db/src/exec/plan.rs).

Machine bytes are modelled as natural numbers (well-formedness predicates
record the bound 256 where it matters), i64 values as integers with explicit
range side conditions, and f64 values by their 64-bit IEEE-754 bit pattern.
-/

namespace Veris

/-! ## Orderings and byte-lexicographic comparison -/

/-- Three-way comparison on naturals, written out so that its case analysis is
explicit in proofs. -/
def natCmp (a b : Nat) : Ordering :=
  if a < b then .lt else if a = b then .eq else .gt

theorem natCmp_self (a : Nat) : natCmp a a = .eq := by
  simp [natCmp]

theorem natCmp_eq_iff {a b : Nat} : natCmp a b = .eq ↔ a = b := by
  unfold natCmp
  split <;> [skip; split] <;> simp_all <;> omega

theorem natCmp_lt_iff {a b : Nat} : natCmp a b = .lt ↔ a < b := by
  unfold natCmp
  split <;> [skip; split] <;> simp_all

theorem natCmp_gt_iff {a b : Nat} : natCmp a b = .gt ↔ b < a := by
  unfold natCmp
  split <;> [skip; split] <;> simp_all <;> omega

theorem natCmp_swap (a b : Nat) : natCmp b a = (natCmp a b).swap := by
  unfold natCmp
  split_ifs <;> first | rfl | (exfalso; omega)

@[simp] theorem Ordering_eq_then (b : Ordering) : Ordering.eq.then b = b := rfl

@[simp] theorem Ordering_lt_then (b : Ordering) : Ordering.lt.then b = .lt := rfl

@[simp] theorem Ordering_gt_then (b : Ordering) : Ordering.gt.then b = .gt := rfl

theorem Ordering_then_eq (a : Ordering) : a.then .eq = a := by
  cases a <;> rfl

theorem Ordering_then_assoc (a b c : Ordering) :
    (a.then b).then c = a.then (b.then c) := by
  cases a <;> rfl

theorem Ordering_then_eq_lt {a b : Ordering} :
    a.then b = .lt ↔ a = .lt ∨ (a = .eq ∧ b = .lt) := by
  cases a <;> simp [Ordering.then]

theorem Ordering_then_eq_eq {a b : Ordering} :
    a.then b = .eq ↔ a = .eq ∧ b = .eq := by
  cases a <;> simp [Ordering.then]

/-- Byte-lexicographic three-way comparison of byte strings; this is the
ordering in which the BTreeMap key directory and all storage scans see the
encoded keys. A strict prefix compares below its extensions. -/
def lexCmp : List Nat → List Nat → Ordering
  | [], [] => .eq
  | [], _ :: _ => .lt
  | _ :: _, [] => .gt
  | a :: as, b :: bs => (natCmp a b).then (lexCmp as bs)

theorem lexCmp_self (a : List Nat) : lexCmp a a = .eq := by
  induction a with
  | nil => rfl
  | cons x xs ih => simp [lexCmp, natCmp_self, ih]

theorem lexCmp_eq_iff {a b : List Nat} : lexCmp a b = .eq ↔ a = b := by
  induction a generalizing b with
  | nil => cases b <;> simp [lexCmp]
  | cons x xs ih =>
    cases b with
    | nil => simp [lexCmp]
    | cons y ys =>
      simp [lexCmp, Ordering_then_eq_eq, natCmp_eq_iff, ih]

theorem lexCmp_swap (a b : List Nat) : lexCmp b a = (lexCmp a b).swap := by
  induction a generalizing b with
  | nil => cases b <;> rfl
  | cons x xs ih =>
    cases b with
    | nil => rfl
    | cons y ys =>
      simp only [lexCmp]
      rw [ih ys, natCmp_swap x y]
      cases natCmp x y <;> rfl

theorem lexCmp_trans_lt {a b c : List Nat} (hab : lexCmp a b = .lt)
    (hbc : lexCmp b c = .lt) : lexCmp a c = .lt := by
  induction a generalizing b c with
  | nil =>
    cases b with
    | nil => exact absurd hab (by simp [lexCmp])
    | cons y ys => cases c <;> simp_all [lexCmp]
  | cons x xs ih =>
    cases b with
    | nil => simp [lexCmp] at hab
    | cons y ys =>
      cases c with
      | nil => simp [lexCmp] at hbc
      | cons z zs =>
        simp only [lexCmp, Ordering_then_eq_lt] at hab hbc ⊢
        rcases hab with h1 | ⟨h1, h1r⟩ <;> rcases hbc with h2 | ⟨h2, h2r⟩
        · exact Or.inl (natCmp_lt_iff.mpr
            (lt_trans (natCmp_lt_iff.mp h1) (natCmp_lt_iff.mp h2)))
        · exact Or.inl (by rw [← natCmp_eq_iff.mp h2]; exact h1)
        · exact Or.inl (by rw [natCmp_eq_iff.mp h1]; exact h2)
        · exact Or.inr ⟨by rw [natCmp_eq_iff.mp h1]; exact h2, ih h1r h2r⟩

theorem lexCmp_append_congr {xs ys : List Nat} (h : xs.length = ys.length)
    (s t : List Nat) :
    lexCmp (xs ++ s) (ys ++ t) = (lexCmp xs ys).then (lexCmp s t) := by
  induction xs generalizing ys with
  | nil =>
    cases ys with
    | nil => simp [lexCmp]
    | cons y ys => simp at h
  | cons x xs ih =>
    cases ys with
    | nil => simp at h
    | cons y ys =>
      simp only [List.length_cons, Nat.add_right_cancel_iff] at h
      simp only [List.cons_append, lexCmp, List.append_eq]
      rw [ih h, Ordering_then_assoc]

/-! ## Big-endian fixed-width byte encoding

Models Rust to_be_bytes and from_be_bytes as used by the key serializer for
u64 and i64 fields, and by the Bitcask log for record headers. -/

/-- The w-byte big-endian encoding of n (low 8w bits of n). -/
def beBytes : Nat → Nat → List Nat
  | 0, _ => []
  | w + 1, n => (n / 256 ^ w % 256) :: beBytes w n

/-- Reassemble a big-endian byte string into a natural number, as
from_be_bytes does. -/
def fromBE (bs : List Nat) : Nat :=
  bs.foldl (fun acc b => acc * 256 + b) 0

@[simp] theorem beBytes_length (w n : Nat) : (beBytes w n).length = w := by
  induction w generalizing n with
  | zero => rfl
  | succ w ih => simp [beBytes, ih]

theorem beBytes_mod (w n : Nat) : beBytes w (n % 256 ^ w) = beBytes w n := by
  induction w generalizing n with
  | zero => rfl
  | succ w ih =>
    simp only [beBytes, List.cons.injEq]
    refine ⟨?_, ?_⟩
    · have : (256 : Nat) ^ (w + 1) = 256 ^ w * 256 := by ring
      rw [this, Nat.mod_mul_right_div_self, Nat.mod_mod_of_dvd]
      exact ⟨1, by ring⟩
    · calc beBytes w (n % 256 ^ (w + 1))
          = beBytes w (n % 256 ^ (w + 1) % 256 ^ w) := (ih _).symm
        _ = beBytes w (n % 256 ^ w) := by
            rw [Nat.mod_mod_of_dvd _ (by exact ⟨256, by ring⟩)]
        _ = beBytes w n := ih n

theorem fromBE_foldl (w n acc : Nat) :
    (beBytes w n).foldl (fun a b => a * 256 + b) acc =
      acc * 256 ^ w + n % 256 ^ w := by
  induction w generalizing acc with
  | zero => simp [beBytes, fromBE, Nat.mod_one]
  | succ w ih =>
    simp only [beBytes, List.foldl_cons, ih]
    have hsplit : n % 256 ^ (w + 1) = n % 256 ^ w + 256 ^ w * (n / 256 ^ w % 256) := by
      have : (256 : Nat) ^ (w + 1) = 256 ^ w * 256 := by ring
      rw [this, Nat.mod_mul]
    rw [hsplit]; ring

/-- Round trip of the big-endian byte encoding. -/
theorem fromBE_beBytes {w n : Nat} (h : n < 256 ^ w) : fromBE (beBytes w n) = n := by
  unfold fromBE
  rw [fromBE_foldl]
  simp [Nat.mod_eq_of_lt h]

theorem natCmp_div_mod (B n m : Nat) (hB : 0 < B) :
    (natCmp (n / B) (m / B)).then (natCmp (n % B) (m % B)) = natCmp n m := by
  have e1 := Nat.div_add_mod n B
  have e2 := Nat.div_add_mod m B
  have h3 : n % B < B := Nat.mod_lt _ hB
  have h4 : m % B < B := Nat.mod_lt _ hB
  rcases Nat.lt_trichotomy (n / B) (m / B) with h | h | h
  · have hstep : B * (n / B) + B ≤ B * (m / B) := by
      calc B * (n / B) + B = B * (n / B + 1) := by ring
        _ ≤ B * (m / B) := Nat.mul_le_mul_left B h
    rw [natCmp_lt_iff.mpr h, Ordering_lt_then, natCmp_lt_iff.mpr (by omega)]
  · rw [natCmp_eq_iff.mpr h, Ordering_eq_then]
    rw [h] at e1
    unfold natCmp
    split_ifs <;> first | rfl | (exfalso; omega)
  · have hstep : B * (m / B) + B ≤ B * (n / B) := by
      calc B * (m / B) + B = B * (m / B + 1) := by ring
        _ ≤ B * (n / B) := Nat.mul_le_mul_left B h
    rw [natCmp_gt_iff.mpr h, Ordering_gt_then, Eq.comm, natCmp_gt_iff.mpr (by omega)]

/-- Big-endian byte strings of equal width compare exactly as the encoded
numbers: this is why version numbers and u64 key fields sort numerically. -/
theorem beBytes_lexCmp {w n m : Nat} (hn : n < 256 ^ w) (hm : m < 256 ^ w) :
    lexCmp (beBytes w n) (beBytes w m) = natCmp n m := by
  induction w generalizing n m with
  | zero =>
    interval_cases n
    interval_cases m
    rfl
  | succ w ih =>
    simp only [beBytes, lexCmp]
    have hpow : (0 : Nat) < 256 ^ w := Nat.pos_pow_of_pos w (by norm_num)
    have hn2 : n / 256 ^ w < 256 := by
      rw [Nat.div_lt_iff_lt_mul hpow]
      calc n < 256 ^ (w + 1) := hn
        _ = 256 * 256 ^ w := by ring
    have hm2 : m / 256 ^ w < 256 := by
      rw [Nat.div_lt_iff_lt_mul hpow]
      calc m < 256 ^ (w + 1) := hm
        _ = 256 * 256 ^ w := by ring
    rw [Nat.mod_eq_of_lt hn2, Nat.mod_eq_of_lt hm2]
    rw [← beBytes_mod w n, ← beBytes_mod w m,
      ih (Nat.mod_lt _ hpow) (Nat.mod_lt _ hpow)]
    exact natCmp_div_mod (256 ^ w) n m hpow

/-! ## Escaped byte-string field encoding

Models KeycodeSerializer.serialize_bytes: every 0x00 data byte is doubled to
0x00 0xff and the field is terminated by 0x00 0x00; and the matching
KeycodeDeserializer.decode_next_byte_slice loop. -/

/-- The escaped body of a byte string (without the terminator). -/
def escBody : List Nat → List Nat
  | [] => []
  | b :: bs => (if b = 0 then [0, 255] else [b]) ++ escBody bs

/-- Full field encoding: escaped body followed by the 0x00 0x00 terminator. -/
def escBytes (bs : List Nat) : List Nat :=
  escBody bs ++ [0, 0]

/-- Decode an escaped byte-string field off the front of the input, returning
the decoded bytes and the unconsumed remainder; none models the Serialization
error on an invalid escape sequence or unexpected end of input. -/
def unescape : List Nat → Option (List Nat × List Nat)
  | [] => none
  | b :: rest =>
    if b = 0 then
      match rest with
      | 0 :: r => some ([], r)
      | 255 :: r => (unescape r).map fun p => (0 :: p.1, p.2)
      | _ => none
    else
      (unescape rest).map fun p => (b :: p.1, p.2)

/-- Round trip of the escaped field encoding, with remainder. -/
theorem unescape_escBytes (bs r : List Nat) :
    unescape (escBytes bs ++ r) = some (bs, r) := by
  induction bs with
  | nil => simp [escBytes, escBody, unescape]
  | cons b tl ih =>
    by_cases hb : b = 0
    · subst hb
      have hL : escBytes (0 :: tl) ++ r = 0 :: 255 :: (escBytes tl ++ r) := by
        simp [escBytes, escBody]
      rw [hL, unescape.eq_def]
      simp [ih]
    · have hL : escBytes (b :: tl) ++ r = b :: (escBytes tl ++ r) := by
        simp [escBytes, escBody, hb]
      rw [hL, unescape.eq_def]
      simp [hb, ih]

theorem escBody_lexCmp (a : List Nat) : ∀ (b s t : List Nat),
    lexCmp (escBody a ++ 0 :: 0 :: s) (escBody b ++ 0 :: 0 :: t) =
      (lexCmp a b).then (lexCmp s t) := by
  induction a with
  | nil =>
    intro b s t
    cases b with
    | nil => simp [escBody, lexCmp, natCmp_self]
    | cons y ys =>
      by_cases hy : y = 0
      · subst hy
        simp [escBody, lexCmp, natCmp_self,
          show natCmp 0 255 = Ordering.lt from by decide]
      · have hy0 : natCmp 0 y = .lt := natCmp_lt_iff.mpr (Nat.pos_of_ne_zero hy)
        simp [escBody, if_neg hy, lexCmp, hy0]
  | cons x xs ih =>
    intro b s t
    cases b with
    | nil =>
      by_cases hx : x = 0
      · subst hx
        simp [escBody, lexCmp, natCmp_self,
          show natCmp 255 0 = Ordering.gt from by decide]
      · have hx0 : natCmp x 0 = .gt := natCmp_gt_iff.mpr (Nat.pos_of_ne_zero hx)
        simp [escBody, if_neg hx, lexCmp, hx0]
    | cons y ys =>
      by_cases hx : x = 0 <;> by_cases hy : y = 0
      · subst hx; subst hy
        simp only [escBody, if_pos rfl, List.cons_append, List.nil_append,
          List.append_eq, lexCmp, natCmp_self, Ordering_eq_then, List.append_assoc]
        rw [ih ys s t]
      · subst hx
        have hlt : natCmp 0 y = .lt := natCmp_lt_iff.mpr (Nat.pos_of_ne_zero hy)
        simp [escBody, if_neg hy, lexCmp, natCmp_self, hlt]
      · subst hy
        have hgt : natCmp x 0 = .gt := natCmp_gt_iff.mpr (Nat.pos_of_ne_zero hx)
        simp [escBody, if_neg hx, lexCmp, natCmp_self, hgt]
      · simp only [escBody, if_neg hx, if_neg hy, List.cons_append,
          List.nil_append, lexCmp, List.append_assoc]
        rw [ih ys s t, ← Ordering_then_assoc]

/-- Order-preservation of the escaped field encoding, stated with arbitrary
suffixes: a composite key comparison is decided inside the field exactly when
the field contents differ, and continues on the suffixes otherwise. -/
theorem escBytes_lexCmp (a b s t : List Nat) :
    lexCmp (escBytes a ++ s) (escBytes b ++ t) = (lexCmp a b).then (lexCmp s t) := by
  have h1 : escBytes a ++ s = escBody a ++ 0 :: 0 :: s := by
    simp [escBytes]
  have h2 : escBytes b ++ t = escBody b ++ 0 :: 0 :: t := by
    simp [escBytes]
  rw [h1, h2, escBody_lexCmp]

/-- Without suffixes: field encodings compare exactly as their contents. -/
theorem escBytes_lexCmp_nil (a b : List Nat) :
    lexCmp (escBytes a) (escBytes b) = lexCmp a b := by
  have h := escBytes_lexCmp a b [] []
  simpa [show lexCmp [] [] = Ordering.eq from rfl, Ordering_then_eq] using h

theorem escBytes_injective {a b : List Nat} (h : escBytes a = escBytes b) :
    a = b := by
  have := escBytes_lexCmp_nil a b
  rw [h, lexCmp_self] at this
  exact (lexCmp_eq_iff.mp this.symm)

/-! ## Fixed-width primitive key encodings

Models KeycodeSerializer.serialize_i64 (big-endian, sign bit flipped),
serialize_u64 (plain big-endian) and serialize_f64 (invert all bits when the
sign bit is set, otherwise flip the sign bit), together with the matching
deserializer branches. -/

/-- Flip the top bit of the first byte, as bytes[0] ^= 1 << 7 does. -/
def flipTopByte : List Nat → List Nat
  | [] => []
  | b0 :: rest => (b0 ^^^ 128) :: rest

/-- Two's-complement bit pattern of an i64 value. -/
def i64Bits (v : Int) : Nat := (v % (2 ^ 64 : Int)).toNat

/-- Serialize an i64 key field: big-endian bytes of the two's-complement
pattern with the top bit of the first byte flipped. -/
def serI64 (v : Int) : List Nat := flipTopByte (beBytes 8 (i64Bits v))

/-- Serialize a u64 key field: big-endian bytes. -/
def serU64 (n : Nat) : List Nat := beBytes 8 n

/-- Serialize an f64 key field from its IEEE-754 bit pattern: when the sign
bit is set every byte is inverted, otherwise the sign bit is flipped. -/
def serF64 (bits : Nat) : List Nat :=
  if 2 ^ 63 ≤ bits then (beBytes 8 bits).map (fun b => b ^^^ 255)
  else flipTopByte (beBytes 8 bits)

/-- The shifted order key realized by the i64 encoding. -/
def i64Key (v : Int) : Nat := (v + 2 ^ 63).toNat

/-- The IEEE-754 total-order value of an f64 bit pattern (the order computed
by Rust f64::total_cmp): nonnegative patterns in increasing order above all
sign-negative patterns, which are reversed. -/
def f64TotalVal (bits : Nat) : Int :=
  if bits < 2 ^ 63 then (bits : Int) else (2 ^ 63 - 1 : Int) - bits

/-- The order key realized by the f64 encoding. -/
def f64Key (bits : Nat) : Nat :=
  if bits < 2 ^ 63 then bits + 2 ^ 63 else 2 ^ 64 - 1 - bits

/-- Three-way comparison on integers. -/
def intCmp (a b : Int) : Ordering :=
  if a < b then .lt else if a = b then .eq else .gt

/-- Three-way comparison on booleans, false below true. -/
def boolCmp (a b : Bool) : Ordering :=
  match a, b with
  | false, false => .eq
  | false, true => .lt
  | true, false => .gt
  | true, true => .eq

set_option maxRecDepth 4096 in
theorem byteXor128 : ∀ b < 256, b ^^^ 128 = if b < 128 then b + 128 else b - 128 := by
  decide

set_option maxRecDepth 4096 in
theorem byteXor255 : ∀ b < 256, b ^^^ 255 = 255 - b := by
  decide

theorem beBytes_digit_lt {w n b : Nat} (h : b ∈ beBytes w n) : b < 256 := by
  induction w generalizing n with
  | zero => simp [beBytes] at h
  | succ w ih =>
    simp only [beBytes, List.mem_cons] at h
    rcases h with h | h
    · subst h; exact Nat.mod_lt _ (by norm_num)
    · exact ih h

/-- Decompose a big-endian encoding into a top digit and the remainder. -/
theorem beBytes_compose {w q r : Nat} (hq : q < 256) (hr : r < 256 ^ w) :
    beBytes (w + 1) (q * 256 ^ w + r) = q :: beBytes w r := by
  simp only [beBytes, List.cons.injEq]
  refine ⟨?_, ?_⟩
  · rw [Nat.mul_comm q (256 ^ w), Nat.mul_add_div (Nat.pos_pow_of_pos w (by norm_num)),
      Nat.div_eq_of_lt hr, Nat.add_zero, Nat.mod_eq_of_lt hq]
  · rw [← beBytes_mod w (q * 256 ^ w + r), Nat.mul_comm q, Nat.mul_add_mod,
      Nat.mod_eq_of_lt hr]

theorem beBytes_split (w n : Nat) :
    beBytes (w + 1) n = (n / 256 ^ w % 256) :: beBytes w (n % 256 ^ w) := by
  simp [beBytes, beBytes_mod]

/-- Flipping the top bit of an 8-byte big-endian string adds or subtracts the
top of the key space: this is the sign-bit trick of the i64 encoding. -/
theorem flipTopByte_beBytes {n : Nat} (h : n < 2 ^ 64) :
    flipTopByte (beBytes 8 n) =
      beBytes 8 (if n < 2 ^ 63 then n + 2 ^ 63 else n - 2 ^ 63) := by
  have hB : (256 : Nat) ^ 7 = 2 ^ 56 := by norm_num
  have hd : n / 2 ^ 56 < 256 := by
    rw [Nat.div_lt_iff_lt_mul (by norm_num)]
    calc n < 2 ^ 64 := h
      _ = 256 * 2 ^ 56 := by norm_num
  have hsplit : beBytes 8 n = (n / 2 ^ 56) :: beBytes 7 (n % 2 ^ 56) := by
    have := beBytes_split 7 n
    rw [hB] at this
    rw [this, Nat.mod_eq_of_lt hd]
  by_cases hn : n < 2 ^ 63
  · have hd2 : n / 2 ^ 56 < 128 := by
      rw [Nat.div_lt_iff_lt_mul (by norm_num)]
      calc n < 2 ^ 63 := hn
        _ = 128 * 2 ^ 56 := by norm_num
    have hx : n / 2 ^ 56 ^^^ 128 = n / 2 ^ 56 + 128 := by
      rw [byteXor128 _ hd, if_pos hd2]
    have htgt : beBytes 8 (n + 2 ^ 63) =
        (n / 2 ^ 56 + 128) :: beBytes 7 (n % 2 ^ 56) := by
      have hcomp := beBytes_compose (w := 7) (q := n / 2 ^ 56 + 128)
        (r := n % 2 ^ 56) (by omega) (by rw [hB]; exact Nat.mod_lt _ (by norm_num))
      rw [hB] at hcomp
      have harith : (n / 2 ^ 56 + 128) * 2 ^ 56 + n % 2 ^ 56 = n + 2 ^ 63 := by
        have := Nat.div_add_mod n (2 ^ 56)
        have hexp : (n / 2 ^ 56 + 128) * 2 ^ 56 = 2 ^ 56 * (n / 2 ^ 56) + 2 ^ 63 := by
          ring
        omega
      rw [harith] at hcomp
      exact hcomp
    rw [if_pos hn, hsplit, flipTopByte, hx, htgt]
  · have hd2 : 128 ≤ n / 2 ^ 56 := by
      have : (2 : Nat) ^ 63 / 2 ^ 56 ≤ n / 2 ^ 56 :=
        Nat.div_le_div_right (by omega)
      simpa using this
    have hx : n / 2 ^ 56 ^^^ 128 = n / 2 ^ 56 - 128 := by
      rw [byteXor128 _ hd, if_neg (Nat.not_lt.mpr hd2)]
    have htgt : beBytes 8 (n - 2 ^ 63) =
        (n / 2 ^ 56 - 128) :: beBytes 7 (n % 2 ^ 56) := by
      have hcomp := beBytes_compose (w := 7) (q := n / 2 ^ 56 - 128)
        (r := n % 2 ^ 56) (by omega) (by rw [hB]; exact Nat.mod_lt _ (by norm_num))
      rw [hB] at hcomp
      have harith : (n / 2 ^ 56 - 128) * 2 ^ 56 + n % 2 ^ 56 = n - 2 ^ 63 := by
        have := Nat.div_add_mod n (2 ^ 56)
        have hexp : (n / 2 ^ 56 - 128) * 2 ^ 56 + 2 ^ 63 =
            2 ^ 56 * (n / 2 ^ 56) := by
          have h128 : (n / 2 ^ 56 - 128) + 128 = n / 2 ^ 56 := by omega
          calc (n / 2 ^ 56 - 128) * 2 ^ 56 + 2 ^ 63
              = ((n / 2 ^ 56 - 128) + 128) * 2 ^ 56 := by ring
            _ = 2 ^ 56 * (n / 2 ^ 56) := by rw [h128]; ring
        omega
      rw [harith] at hcomp
      exact hcomp
    rw [if_neg hn, hsplit, flipTopByte, hx, htgt]

theorem complArith (B q r : Nat) (hB : 0 < B) (hq : q < 256) (hr : r < B) :
    256 * B - 1 - (B * q + r) = (255 - q) * B + (B - 1 - r) := by
  have hsum : B * q + (255 - q) * B = 255 * B := by
    have h255 : q + (255 - q) = 255 := by omega
    calc B * q + (255 - q) * B = (q + (255 - q)) * B := by ring
      _ = 255 * B := by rw [h255]
  omega

/-- Inverting every byte of a w-byte big-endian string complements the encoded
number: this realizes the reversed order of negative floats. -/
theorem mapNot_beBytes {w n : Nat} (h : n < 256 ^ w) :
    (beBytes w n).map (fun b => b ^^^ 255) = beBytes w (256 ^ w - 1 - n) := by
  induction w generalizing n with
  | zero => simp [beBytes]
  | succ w ih =>
    have hpow : (0 : Nat) < 256 ^ w := Nat.pos_pow_of_pos w (by norm_num)
    have hd : n / 256 ^ w < 256 := by
      rw [Nat.div_lt_iff_lt_mul hpow]
      calc n < 256 ^ (w + 1) := h
        _ = 256 * 256 ^ w := by ring
    have hr : n % 256 ^ w < 256 ^ w := Nat.mod_lt _ hpow
    rw [beBytes_split w n, List.map_cons,
      byteXor255 _ (by rw [Nat.mod_eq_of_lt hd]; exact hd), ih hr]
    have he := Nat.div_add_mod n (256 ^ w)
    have hp : (256 : Nat) ^ (w + 1) = 256 * 256 ^ w := by ring
    have harith : 256 ^ (w + 1) - 1 - n =
        (255 - n / 256 ^ w) * 256 ^ w + (256 ^ w - 1 - n % 256 ^ w) := by
      have key := complArith (256 ^ w) (n / 256 ^ w) (n % 256 ^ w) hpow hd hr
      rw [he] at key
      rw [hp]
      exact key
    have hq2 : 255 - n / 256 ^ w < 256 := Nat.lt_succ_of_le (Nat.sub_le _ _)
    have hr2 : 256 ^ w - 1 - n % 256 ^ w < 256 ^ w :=
      Nat.lt_of_le_of_lt (Nat.sub_le _ _) (by omega)
    rw [harith, beBytes_compose hq2 hr2, Nat.mod_eq_of_lt hd]

/-- The i64 serialization is the big-endian encoding of the shifted key. -/
theorem serI64_eq_key {v : Int} (h1 : -(2 ^ 63) ≤ v) (h2 : v < 2 ^ 63) :
    serI64 v = beBytes 8 (i64Key v) := by
  unfold serI64 i64Key
  have hbits : i64Bits v < 2 ^ 64 := by
    unfold i64Bits
    omega
  rw [flipTopByte_beBytes hbits]
  congr 1
  unfold i64Bits
  split_ifs with hc
  · omega
  · omega

/-- The f64 serialization is the big-endian encoding of the total-order key. -/
theorem serF64_eq_key {bits : Nat} (h : bits < 2 ^ 64) :
    serF64 bits = beBytes 8 (f64Key bits) := by
  unfold serF64 f64Key
  have h8 : (256 : Nat) ^ 8 = 2 ^ 64 := by norm_num
  by_cases hs : 2 ^ 63 ≤ bits
  · rw [if_pos hs, if_neg (by omega)]
    have hmap := mapNot_beBytes (w := 8) (n := bits) (by rw [h8]; exact h)
    rw [hmap]
    congr 1
  · rw [if_neg hs, if_pos (by omega), flipTopByte_beBytes h, if_pos (by omega)]

theorem intCmp_self (a : Int) : intCmp a a = .eq := by
  simp [intCmp]

theorem i64Key_cmp {a b : Int} (ha1 : -(2 ^ 63) ≤ a) (ha2 : a < 2 ^ 63)
    (hb1 : -(2 ^ 63) ≤ b) (hb2 : b < 2 ^ 63) :
    natCmp (i64Key a) (i64Key b) = intCmp a b := by
  unfold natCmp intCmp i64Key
  split_ifs <;> first | rfl | (exfalso; omega)

theorem f64Key_cmp {a b : Nat} (ha : a < 2 ^ 64) (hb : b < 2 ^ 64) :
    natCmp (f64Key a) (f64Key b) = intCmp (f64TotalVal a) (f64TotalVal b) := by
  unfold natCmp intCmp f64Key f64TotalVal
  split_ifs <;> first | rfl | (exfalso; omega)

theorem i64Key_lt (v : Int) (h1 : -(2 ^ 63) ≤ v) (h2 : v < 2 ^ 63) :
    i64Key v < 2 ^ 64 := by
  unfold i64Key
  omega

theorem f64Key_lt (bits : Nat) (h : bits < 2 ^ 64) : f64Key bits < 2 ^ 64 := by
  unfold f64Key
  split_ifs <;> omega

/-! ## Primitive deserializers

Models KeycodeDeserializer.take_bytes and the deserialize_bool, i64, u64 and
f64 branches; none stands for the Serialization error. -/

/-- Take exactly n bytes off the front, as take_bytes does. -/
def takeExact (n : Nat) (bs : List Nat) : Option (List Nat × List Nat) :=
  if n ≤ bs.length then some (bs.take n, bs.drop n) else none

/-- Deserialize a bool byte: 0x00 is false, 0x01 is true, anything else a
Serialization error. -/
def deserBool : List Nat → Option (Bool × List Nat)
  | 0 :: r => some (false, r)
  | 1 :: r => some (true, r)
  | _ => none

def deserU64 (bs : List Nat) : Option (Nat × List Nat) :=
  (takeExact 8 bs).map fun p => (fromBE p.1, p.2)

/-- Interpret a 64-bit pattern as a two's-complement i64 value. -/
def asI64 (bits : Nat) : Int :=
  if bits < 2 ^ 63 then (bits : Int) else (bits : Int) - 2 ^ 64

def deserI64 (bs : List Nat) : Option (Int × List Nat) :=
  (takeExact 8 bs).map fun p => (asI64 (fromBE (flipTopByte p.1)), p.2)

/-- Deserialize an f64 bit pattern: when the stored top bit is clear the field
held a negative float and every byte is inverted back, otherwise the sign bit
is flipped back. -/
def deserF64 (bs : List Nat) : Option (Nat × List Nat) :=
  (takeExact 8 bs).map fun p =>
    (if p.1.headI < 128 then fromBE (p.1.map (fun b => b ^^^ 255))
     else fromBE (flipTopByte p.1), p.2)

theorem takeExact_append {xs r : List Nat} {n : Nat} (h : xs.length = n) :
    takeExact n (xs ++ r) = some (xs, r) := by
  subst h
  unfold takeExact
  rw [if_pos (by simp), List.take_left, List.drop_left]

theorem deserU64_ser {n : Nat} (h : n < 2 ^ 64) (r : List Nat) :
    deserU64 (serU64 n ++ r) = some (n, r) := by
  unfold deserU64 serU64
  rw [takeExact_append (beBytes_length 8 n)]
  simp [fromBE_beBytes (show n < 256 ^ 8 by norm_num; omega)]

theorem flipTopByte_length (bs : List Nat) : (flipTopByte bs).length = bs.length := by
  cases bs <;> simp [flipTopByte]

theorem flipTopByte_involutive (bs : List Nat) : flipTopByte (flipTopByte bs) = bs := by
  cases bs with
  | nil => rfl
  | cons b0 rest =>
    simp [flipTopByte, Nat.xor_assoc]

theorem deserI64_ser {v : Int} (h1 : -(2 ^ 63) ≤ v) (h2 : v < 2 ^ 63)
    (r : List Nat) : deserI64 (serI64 v ++ r) = some (v, r) := by
  unfold deserI64 serI64
  rw [takeExact_append (by rw [flipTopByte_length, beBytes_length])]
  simp only [Option.map_some', flipTopByte_involutive]
  have hbits : i64Bits v < 2 ^ 64 := by
    unfold i64Bits
    omega
  rw [fromBE_beBytes (show i64Bits v < 256 ^ 8 by norm_num; omega)]
  have hveq : asI64 (i64Bits v) = v := by
    rw [show i64Bits v = (v % (2 ^ 64 : Int)).toNat from rfl]
    unfold asI64
    split_ifs with hc <;> omega
  rw [hveq]

theorem deserF64_ser {bits : Nat} (h : bits < 2 ^ 64) (r : List Nat) :
    deserF64 (serF64 bits ++ r) = some (bits, r) := by
  have h8 : bits < 256 ^ 8 := by norm_num; omega
  have hd : bits / 2 ^ 56 < 256 := by
    rw [Nat.div_lt_iff_lt_mul (by norm_num)]
    calc bits < 2 ^ 64 := h
      _ = 256 * 2 ^ 56 := by norm_num
  have hsplit : beBytes 8 bits = (bits / 2 ^ 56) :: beBytes 7 (bits % 2 ^ 56) := by
    have := beBytes_split 7 bits
    rw [show (256 : Nat) ^ 7 = 2 ^ 56 by norm_num] at this
    rw [this, Nat.mod_eq_of_lt hd]
  unfold deserF64 serF64
  by_cases hs : 2 ^ 63 ≤ bits
  · rw [if_pos hs]
    rw [takeExact_append (by simp)]
    simp only [Option.map_some']
    rw [hsplit, List.map_cons, List.headI_cons]
    have hxlt : bits / 2 ^ 56 ^^^ 255 < 128 := by
      have hd128 : 128 ≤ bits / 2 ^ 56 := by
        have hh : (2 : Nat) ^ 63 / 2 ^ 56 ≤ bits / 2 ^ 56 := Nat.div_le_div_right hs
        simpa using hh
      rw [byteXor255 _ hd]
      omega
    rw [if_pos hxlt]
    have hinv : (((bits / 2 ^ 56) ^^^ 255) :: List.map (fun b => b ^^^ 255)
        (beBytes 7 (bits % 2 ^ 56))).map (fun b => b ^^^ 255) =
        beBytes 8 bits := by
      rw [List.map_cons, List.map_map, hsplit]
      congr 1
      · rw [Nat.xor_assoc]
        simp
      · have hcomp : ((fun b => b ^^^ 255) ∘ fun (b : Nat) => b ^^^ 255) =
            fun (b : Nat) => b ^^^ 255 ^^^ 255 := rfl
        rw [hcomp]
        simp [Nat.xor_assoc]
    rw [hinv, fromBE_beBytes h8]
  · rw [if_neg hs]
    rw [takeExact_append (by rw [flipTopByte_length, beBytes_length])]
    simp only [Option.map_some']
    rw [hsplit]
    simp only [flipTopByte, List.headI_cons]
    have hd128 : bits / 2 ^ 56 < 128 := by
      rw [Nat.div_lt_iff_lt_mul (by norm_num)]
      calc bits < 2 ^ 63 := by omega
        _ = 128 * 2 ^ 56 := by norm_num
    have hxge : ¬(bits / 2 ^ 56 ^^^ 128 < 128) := by
      rw [byteXor128 _ hd, if_pos hd128]
      omega
    rw [if_neg hxge, Nat.xor_assoc]
    have hxz : (128 : Nat) ^^^ 128 = 0 := by decide
    rw [hxz, Nat.xor_zero, ← hsplit, fromBE_beBytes h8]

/-! ## Composite keys

The keycode scheme serializes composite keys by concatenating field encodings
with no length prefix: sequences, tuples and structs concatenate their fields;
an enum value is a one-byte variant tag followed by the fields of that
variant; decoding relies on the static schema. KeyVal is the space of
encodable key values built from the claimed primitives (bool, i64, u64, f64,
byte string), KeyTy the static schema it is decoded against. -/

mutual
inductive KeyVal : Type where
  | vBool : Bool → KeyVal
  | vI64 : Int → KeyVal
  | vU64 : Nat → KeyVal
  | vF64 : Nat → KeyVal
  | vBytes : List Nat → KeyVal
  | vSeq : KeyValList → KeyVal
  | vTag : Nat → KeyValList → KeyVal
  deriving DecidableEq
inductive KeyValList : Type where
  | nil : KeyValList
  | cons : KeyVal → KeyValList → KeyValList
  deriving DecidableEq
end

mutual
inductive KeyTy : Type where
  | tBool : KeyTy
  | tI64 : KeyTy
  | tU64 : KeyTy
  | tF64 : KeyTy
  | tBytes : KeyTy
  | tSeq : KeyTyList → KeyTy
  | tTag : KeyTyVariants → KeyTy
  deriving DecidableEq
inductive KeyTyList : Type where
  | nil : KeyTyList
  | cons : KeyTy → KeyTyList → KeyTyList
  deriving DecidableEq
inductive KeyTyVariants : Type where
  | nil : KeyTyVariants
  | cons : KeyTyList → KeyTyVariants → KeyTyVariants
  deriving DecidableEq
end

/-- Field types of the variant with the given tag, none when the tag is out of
range (the deserializer fails on an invalid variant index). -/
def varGet : KeyTyVariants → Nat → Option KeyTyList
  | .nil, _ => none
  | .cons ts _, 0 => some ts
  | .cons _ vs, n + 1 => varGet vs n

mutual
/-- Encode a key value, as KeycodeSerializer does: primitives by their field
encodings, a sequence by concatenation, an enum by its tag byte followed by
the concatenated fields. -/
def encodeKV : KeyVal → List Nat
  | .vBool b => [if b then 1 else 0]
  | .vI64 v => serI64 v
  | .vU64 n => serU64 n
  | .vF64 bits => serF64 bits
  | .vBytes bs => escBytes bs
  | .vSeq l => encodeKVL l
  | .vTag t l => t :: encodeKVL l
def encodeKVL : KeyValList → List Nat
  | .nil => []
  | .cons v l => encodeKV v ++ encodeKVL l
end

mutual
/-- Well-typedness of a key value against a schema, with the machine-level
range side conditions under which the Rust encoders are faithful. -/
def wtKV : KeyVal → KeyTy → Bool
  | .vBool _, .tBool => true
  | .vI64 v, .tI64 => decide (-(2 ^ 63) ≤ v) && decide (v < 2 ^ 63)
  | .vU64 n, .tU64 => decide (n < 2 ^ 64)
  | .vF64 bits, .tF64 => decide (bits < 2 ^ 64)
  | .vBytes bs, .tBytes => bs.all (fun b => decide (b < 256))
  | .vSeq l, .tSeq ts => wtKVL l ts
  | .vTag t l, .tTag vs =>
    decide (t < 256) && (match varGet vs t with
      | some ts => wtKVL l ts
      | none => false)
  | _, _ => false
def wtKVL : KeyValList → KeyTyList → Bool
  | .nil, .nil => true
  | .cons v l, .cons t ts => wtKV v t && wtKVL l ts
  | _, _ => false
end

mutual
/-- The logical ordering of same-typed key values: primitives by their natural
orders (f64 by IEEE-754 total order), sequences lexicographically by field,
enums by variant tag and then by field. -/
def kcmpV : KeyVal → KeyVal → Ordering
  | .vBool a, .vBool b => boolCmp a b
  | .vI64 a, .vI64 b => intCmp a b
  | .vU64 a, .vU64 b => natCmp a b
  | .vF64 a, .vF64 b => intCmp (f64TotalVal a) (f64TotalVal b)
  | .vBytes a, .vBytes b => lexCmp a b
  | .vSeq a, .vSeq b => kcmpL a b
  | .vTag s a, .vTag t b => (natCmp s t).then (kcmpL a b)
  | _, _ => .eq
def kcmpL : KeyValList → KeyValList → Ordering
  | .nil, .nil => .eq
  | .nil, .cons _ _ => .lt
  | .cons _ _, .nil => .gt
  | .cons a as, .cons b bs => (kcmpV a b).then (kcmpL as bs)
end

theorem varGet_sizeOf : ∀ (t : Nat) (vs : KeyTyVariants) (ts : KeyTyList),
    varGet vs t = some ts → sizeOf ts < sizeOf vs := by
  intro t
  induction t with
  | zero =>
    intro vs ts h
    cases vs with
    | nil => simp [varGet] at h
    | cons hd tl =>
      simp [varGet] at h
      subst h
      simp
      omega
  | succ n ih =>
    intro vs ts h
    cases vs with
    | nil => simp [varGet] at h
    | cons hd tl =>
      have := ih tl ts (by simpa [varGet] using h)
      simp
      omega

mutual
/-- Decode a key value of the given type off the front of the input, as
KeycodeDeserializer does against the static schema; none is the
Serialization error. -/
def decodeKV : KeyTy → List Nat → Option (KeyVal × List Nat)
  | .tBool, bs => (deserBool bs).map fun p => (.vBool p.1, p.2)
  | .tI64, bs => (deserI64 bs).map fun p => (.vI64 p.1, p.2)
  | .tU64, bs => (deserU64 bs).map fun p => (.vU64 p.1, p.2)
  | .tF64, bs => (deserF64 bs).map fun p => (.vF64 p.1, p.2)
  | .tBytes, bs => (unescape bs).map fun p => (.vBytes p.1, p.2)
  | .tSeq ts, bs => (decodeKVL ts bs).map fun p => (.vSeq p.1, p.2)
  | .tTag vs, bs =>
    match bs with
    | t :: r =>
      match hv : varGet vs t with
      | some ts => (decodeKVL ts r).map fun p => (.vTag t p.1, p.2)
      | none => none
    | [] => none
termination_by t bs => sizeOf t
decreasing_by
  all_goals simp_wf
  all_goals try omega
  have := varGet_sizeOf _ _ _ hv
  omega
def decodeKVL : KeyTyList → List Nat → Option (KeyValList × List Nat)
  | .nil, bs => some (.nil, bs)
  | .cons t ts, bs =>
    (decodeKV t bs).bind fun p =>
      (decodeKVL ts p.2).map fun q => (.cons p.1 q.1, q.2)
termination_by ts bs => sizeOf ts
decreasing_by
  all_goals simp_wf
  all_goals omega
end

mutual
/-- Round trip with remainder: decoding a well-typed value's encoding against
its type returns the value and leaves the suffix untouched. -/
theorem decode_encodeKV : ∀ (v : KeyVal) (t : KeyTy), wtKV v t = true →
    ∀ r, decodeKV t (encodeKV v ++ r) = some (v, r) := by
  intro v t h r
  cases v with
  | vBool b =>
    cases t <;> simp [wtKV] at h
    cases b <;> simp [encodeKV, decodeKV, deserBool]
  | vI64 n =>
    cases t <;> simp [wtKV] at h
    simp only [encodeKV, decodeKV]
    rw [deserI64_ser h.1 h.2]
    rfl
  | vU64 n =>
    cases t <;> simp [wtKV] at h
    simp only [encodeKV, decodeKV]
    rw [deserU64_ser h]
    rfl
  | vF64 bits =>
    cases t <;> simp [wtKV] at h
    simp only [encodeKV, decodeKV]
    rw [deserF64_ser h]
    rfl
  | vBytes bs =>
    cases t <;> simp [wtKV] at h
    simp only [encodeKV, decodeKV]
    rw [unescape_escBytes]
    rfl
  | vSeq l =>
    cases t with
    | tSeq ts =>
      simp only [encodeKV, decodeKV]
      rw [decode_encodeKVL l ts (by simpa [wtKV] using h) r]
      rfl
    | tBool => simp [wtKV] at h
    | tI64 => simp [wtKV] at h
    | tU64 => simp [wtKV] at h
    | tF64 => simp [wtKV] at h
    | tBytes => simp [wtKV] at h
    | tTag vs => simp [wtKV] at h
  | vTag tg l =>
    cases t with
    | tTag vs =>
      cases hvg : varGet vs tg with
      | none => simp [wtKV, hvg] at h
      | some ts =>
        have hwl : wtKVL l ts = true := by
          simp [wtKV, hvg] at h
          exact h.2
        simp only [encodeKV, List.cons_append, decodeKV]
        split
        all_goals rename_i hv2
        all_goals rw [hvg] at hv2
        · injection hv2 with hts
          subst hts
          rw [decode_encodeKVL l ts hwl r]
          rfl
        · exact absurd hv2 (by simp)
    | tBool => simp [wtKV] at h
    | tI64 => simp [wtKV] at h
    | tU64 => simp [wtKV] at h
    | tF64 => simp [wtKV] at h
    | tBytes => simp [wtKV] at h
    | tSeq ts => simp [wtKV] at h
theorem decode_encodeKVL : ∀ (l : KeyValList) (ts : KeyTyList),
    wtKVL l ts = true → ∀ r, decodeKVL ts (encodeKVL l ++ r) = some (l, r) := by
  intro l ts h r
  cases l with
  | nil =>
    cases ts with
    | nil => simp [encodeKVL, decodeKVL]
    | cons t ts0 => simp [wtKVL] at h
  | cons v l0 =>
    cases ts with
    | nil => simp [wtKVL] at h
    | cons t ts0 =>
      have h1 : wtKV v t = true := by
        simp [wtKVL] at h
        exact h.1
      have h2 : wtKVL l0 ts0 = true := by
        simp [wtKVL] at h
        exact h.2
      simp only [encodeKVL, List.append_assoc, decodeKVL]
      rw [decode_encodeKV v t h1 (encodeKVL l0 ++ r)]
      simp only [Option.some_bind]
      rw [decode_encodeKVL l0 ts0 h2 r]
      rfl
end

mutual
/-- Order-preservation with suffixes: the byte comparison of two same-typed
encoded values, each followed by arbitrary suffixes, is decided by the logical
comparison of the values and falls through to the suffixes on equality. -/
theorem cmp_encodeKV : ∀ (a b : KeyVal) (t : KeyTy), wtKV a t = true →
    wtKV b t = true → ∀ s u,
    lexCmp (encodeKV a ++ s) (encodeKV b ++ u) = (kcmpV a b).then (lexCmp s u) := by
  intro a b t h1 h2 s u
  cases a with
  | vBool x =>
    cases t <;> simp [wtKV] at h1
    cases b <;> simp [wtKV] at h2
    rename_i y
    cases x <;> cases y <;>
      simp [encodeKV, kcmpV, boolCmp, lexCmp, natCmp]
  | vI64 x =>
    cases t <;> simp [wtKV] at h1
    cases b <;> simp [wtKV] at h2
    rename_i y
    simp only [encodeKV, kcmpV]
    rw [serI64_eq_key h1.1 h1.2, serI64_eq_key h2.1 h2.2,
      lexCmp_append_congr (by simp) s u,
      beBytes_lexCmp (i64Key_lt x h1.1 h1.2) (i64Key_lt y h2.1 h2.2),
      i64Key_cmp h1.1 h1.2 h2.1 h2.2]
  | vU64 x =>
    cases t <;> simp [wtKV] at h1
    cases b <;> simp [wtKV] at h2
    rename_i y
    simp only [encodeKV, kcmpV, serU64]
    rw [lexCmp_append_congr (by simp) s u,
      beBytes_lexCmp (show x < 256 ^ 8 by norm_num; omega)
        (show y < 256 ^ 8 by norm_num; omega)]
  | vF64 x =>
    cases t <;> simp [wtKV] at h1
    cases b <;> simp [wtKV] at h2
    rename_i y
    simp only [encodeKV, kcmpV]
    rw [serF64_eq_key h1, serF64_eq_key h2,
      lexCmp_append_congr (by simp) s u,
      beBytes_lexCmp (show f64Key x < 256 ^ 8 by
          have := f64Key_lt x h1
          norm_num
          omega)
        (show f64Key y < 256 ^ 8 by
          have := f64Key_lt y h2
          norm_num
          omega),
      f64Key_cmp h1 h2]
  | vBytes xs =>
    cases t <;> simp [wtKV] at h1
    cases b <;> simp [wtKV] at h2
    rename_i ys
    simp only [encodeKV, kcmpV]
    rw [escBytes_lexCmp]
  | vSeq la =>
    cases t with
    | tSeq ts =>
      cases b <;> simp [wtKV] at h2
      rename_i lb
      simp only [encodeKV, kcmpV]
      exact cmp_encodeKVL la lb ts (by simpa [wtKV] using h1) h2 s u
    | tBool => simp [wtKV] at h1
    | tI64 => simp [wtKV] at h1
    | tU64 => simp [wtKV] at h1
    | tF64 => simp [wtKV] at h1
    | tBytes => simp [wtKV] at h1
    | tTag vs => simp [wtKV] at h1
  | vTag t1 l1 =>
    cases t with
    | tTag vs =>
      cases b <;> simp [wtKV] at h2
      rename_i t2 l2
      simp [wtKV] at h1
      simp only [encodeKV, List.cons_append, lexCmp, kcmpV]
      cases hnc : natCmp t1 t2 with
      | lt => rfl
      | gt => rfl
      | eq =>
        have ht : t1 = t2 := natCmp_eq_iff.mp hnc
        subst ht
        cases hv1 : varGet vs t1 with
        | none =>
          rw [hv1] at h1
          simp at h1
        | some ts =>
          rw [hv1] at h1 h2
          simp at h1 h2
          simp only [Ordering_eq_then, List.append_eq]
          rw [cmp_encodeKVL l1 l2 ts h1.2 h2.2 s u]
    | tBool => simp [wtKV] at h1
    | tI64 => simp [wtKV] at h1
    | tU64 => simp [wtKV] at h1
    | tF64 => simp [wtKV] at h1
    | tBytes => simp [wtKV] at h1
    | tSeq ts => simp [wtKV] at h1
theorem cmp_encodeKVL : ∀ (la lb : KeyValList) (ts : KeyTyList),
    wtKVL la ts = true → wtKVL lb ts = true → ∀ s u,
    lexCmp (encodeKVL la ++ s) (encodeKVL lb ++ u) =
      (kcmpL la lb).then (lexCmp s u) := by
  intro la lb ts h1 h2 s u
  cases la with
  | nil =>
    cases ts with
    | nil =>
      cases lb with
      | nil => simp [encodeKVL, kcmpL]
      | cons b lb0 => simp [wtKVL] at h2
    | cons t ts0 => simp [wtKVL] at h1
  | cons a la0 =>
    cases ts with
    | nil => simp [wtKVL] at h1
    | cons t ts0 =>
      cases lb with
      | nil => simp [wtKVL] at h2
      | cons b lb0 =>
        simp [wtKVL] at h1 h2
        simp only [encodeKVL, List.append_assoc, kcmpL]
        rw [cmp_encodeKV a b t h1.1 h2.1 (encodeKVL la0 ++ s) (encodeKVL lb0 ++ u),
          cmp_encodeKVL la0 lb0 ts0 h1.2 h2.2 s u, Ordering_then_assoc]
end

/-- C3: the key encoding is a strictly monotone injection with a left
inverse: for every encodable key value (bool, i64, u64, f64, byte string, and
enum/tuple keys composed of these, within the machine ranges the Rust types
impose), decoding the encoding against the value's type returns the value,
and for two same-typed keys ordered a below b in the type's logical order,
encode(a) is strictly below encode(b) in byte-lexicographic order. -/
theorem keycode_roundtrip_and_monotone :
    (∀ (v : KeyVal) (t : KeyTy), wtKV v t = true →
      decodeKV t (encodeKV v) = some (v, [])) ∧
    (∀ (a b : KeyVal) (t : KeyTy), wtKV a t = true → wtKV b t = true →
      kcmpV a b = .lt → lexCmp (encodeKV a) (encodeKV b) = .lt) := by
  constructor
  · intro v t h
    have hr := decode_encodeKV v t h []
    simpa using hr
  · intro a b t h1 h2 hlt
    have hc := cmp_encodeKV a b t h1 h2 [] []
    rw [List.append_nil, List.append_nil, hlt] at hc
    simpa using hc

/-- Witness for C3 at concrete inputs: an enum key with an i64 and a byte
string field round-trips, and i64 keys encode in order. -/
theorem keycode_roundtrip_and_monotone_witness :
    decodeKV
        (KeyTy.tTag (.cons (.cons .tBool .nil)
          (.cons (.cons .tI64 (.cons .tBytes .nil)) .nil)))
        (encodeKV (KeyVal.vTag 1
          (.cons (.vI64 (-5)) (.cons (.vBytes [0, 255, 7]) .nil)))) =
      some (KeyVal.vTag 1
        (.cons (.vI64 (-5)) (.cons (.vBytes [0, 255, 7]) .nil)), []) ∧
    lexCmp (encodeKV (KeyVal.vI64 (-3))) (encodeKV (KeyVal.vI64 5)) = .lt :=
  ⟨keycode_roundtrip_and_monotone.1
      (KeyVal.vTag 1 (.cons (.vI64 (-5)) (.cons (.vBytes [0, 255, 7]) .nil)))
      (KeyTy.tTag (.cons (.cons .tBool .nil)
        (.cons (.cons .tI64 (.cons .tBytes .nil)) .nil)))
      (by decide),
    keycode_roundtrip_and_monotone.2 (KeyVal.vI64 (-3)) (KeyVal.vI64 5)
      KeyTy.tI64 (by decide) (by decide) (by decide)⟩

/-! ## MVCC layer

Models src/crates/veris-db/src/storage/mvcc.rs. The storage engine under the
MVCC layer is a byte-keyed ordered map; since every key the MVCC code stores
is a keycode-encoded mvcc Key, the engine is modelled as an association list
of decoded keys ordered by the byte order of their encodings (mkeyCmp), which
by the encoding lemmas above is exactly the order the BTreeMap sees. Stored
values are modelled at the decoded level of their self-describing bincode
payload encodings (which round-trip): the u64 under NextVersion, the version
set under ActiveTransactionSnapshot, the Option payload under Version keys
and the empty marker value. -/

/-- Decoded mvcc keys, mirroring enum Key in storage/mvcc.rs. -/
inductive MKey : Type where
  | nextVersion : MKey
  | activeTransaction : Nat → MKey
  | activeTransactionSnapshot : Nat → MKey
  | transactionWrite : Nat → List Nat → MKey
  | version : List Nat → Nat → MKey
  | unversioned : List Nat → MKey
  deriving DecidableEq

/-- Keycode encoding of an mvcc key: variant tag byte, then big-endian
versions and escape-terminated byte strings in field order. -/
def mkeyEncode : MKey → List Nat
  | .nextVersion => [0]
  | .activeTransaction v => 1 :: beBytes 8 v
  | .activeTransactionSnapshot v => 2 :: beBytes 8 v
  | .transactionWrite v k => 3 :: (beBytes 8 v ++ escBytes k)
  | .version k v => 4 :: (escBytes k ++ beBytes 8 v)
  | .unversioned k => 5 :: escBytes k

/-- The byte order of encoded mvcc keys: the order of the underlying store. -/
def mkeyCmp (a b : MKey) : Ordering := lexCmp (mkeyEncode a) (mkeyEncode b)

/-- Decoded engine values (images of the bincode value encodings). -/
inductive EVal : Type where
  | num : Nat → EVal
  | verSet : List Nat → EVal
  | payload : Option (List Nat) → EVal
  | unit : EVal
  deriving DecidableEq

/-- The modelled storage engine: entries in ascending encoded-key order. -/
abbrev Engine := List (MKey × EVal)

def engGet : Engine → MKey → Option EVal
  | [], _ => none
  | e :: rest, k => if e.1 = k then some e.2 else engGet rest k

/-- Sorted insert-or-replace, as BTreeMap insert behaves. -/
def engSet : Engine → MKey → EVal → Engine
  | [], k, v => [(k, v)]
  | e :: rest, k, v =>
    match mkeyCmp k e.1 with
    | .lt => (k, v) :: e :: rest
    | .eq => (k, v) :: rest
    | .gt => e :: engSet rest k v

/-- Inclusive-range scan: the entries whose encoded key lies between the two
encoded bounds, in store order. -/
def engScan (st : Engine) (lo hi : List Nat) : Engine :=
  st.filter fun e =>
    decide (lexCmp lo (mkeyEncode e.1) ≠ .gt) &&
      decide (lexCmp (mkeyEncode e.1) hi ≠ .gt)

/-- Upper bound of key_prefix_range: increment the last non-0xff byte and
drop the trailing 0xff bytes; none when the prefix is all 0xff. -/
def pfxUpper (p : List Nat) : Option (List Nat) :=
  match p.reverse.dropWhile (fun b => b = 255) with
  | [] => none
  | b :: rest => some (((b + 1) :: rest).reverse)

/-- Prefix scan via key_prefix_range bounds. -/
def engScanPfx (st : Engine) (p : List Nat) : Engine :=
  st.filter fun e =>
    decide (lexCmp p (mkeyEncode e.1) ≠ .gt) &&
      (match pfxUpper p with
       | none => true
       | some up => decide (lexCmp (mkeyEncode e.1) up = .lt))

/-- Transaction state, mirroring MvccTransactionState: version, read-only
flag and the set of transactions active at begin (ascending). -/
structure TxnState : Type where
  version : Nat
  read_only : Bool
  active_txns : List Nat
  deriving DecidableEq

/-- Mirrors MvccTransactionState::is_version_visible: a version is visible
iff it is not in the active set and is at most (strictly below, when
read-only) the transaction's own version. -/
def is_version_visible (s : TxnState) (version : Nat) : Bool :=
  if s.active_txns.contains version then false
  else if s.read_only then decide (version < s.version)
  else decide (version ≤ s.version)

inductive MvccErr : Type where
  | transactionReadOnly : MvccErr
  | outOfOrder : MvccErr
  | invalidEngineState : MvccErr
  | serializationError : MvccErr
  deriving DecidableEq

/-- The version at the low end of the write-conflict scan: the smallest
active transaction, or this transaction's version + 1 when none is
active. -/
def conflictScanLo (txn : TxnState) : Nat :=
  (txn.active_txns.min?).getD (txn.version + 1)

/-- Mirrors MvccTransaction::write_version: reject read-only transactions;
scan Version(key, min(active) or version+1) ..= Version(key, u64::MAX); if
the last record exists at an invisible version fail OutOfOrder; otherwise
record the write-set marker and the new version record. -/
def write_version (st : Engine) (txn : TxnState) (key : List Nat)
    (value : Option (List Nat)) : Except MvccErr Engine :=
  if txn.read_only then .error .transactionReadOnly
  else
    let lo := mkeyEncode (.version key (conflictScanLo txn))
    let hi := mkeyEncode (.version key (2 ^ 64 - 1))
    let check : Except MvccErr Unit :=
      match (engScan st lo hi).getLast? with
      | some e =>
        match e.1 with
        | .version _ w =>
          if is_version_visible txn w then .ok () else .error .outOfOrder
        | _ => .error .invalidEngineState
      | none => .ok ()
    check.map fun _ =>
      engSet (engSet st (.transactionWrite txn.version key) .unit)
        (.version key txn.version) (.payload value)

/-- MvccTransaction::set. -/
def mvcc_set (st : Engine) (txn : TxnState) (key value : List Nat) :
    Except MvccErr Engine :=
  write_version st txn key (some value)

/-- MvccTransaction::delete. -/
def mvcc_delete (st : Engine) (txn : TxnState) (key : List Nat) :
    Except MvccErr Engine :=
  write_version st txn key none

/-- The reverse walk of MvccTransaction::get over the scanned version
records: return the payload of the first visible record. -/
def getScan (txn : TxnState) : Engine → Except MvccErr (Option (List Nat))
  | [] => .ok none
  | e :: rest =>
    match e.1 with
    | .version _ w =>
      if is_version_visible txn w then
        match e.2 with
        | .payload p => .ok p
        | _ => .error .serializationError
      else getScan txn rest
    | _ => .error .invalidEngineState

/-- Mirrors MvccTransaction::get: scan Version(key, 0) ..= Version(key,
version) in reverse and return the payload of the most recent visible
record. -/
def mvcc_get (st : Engine) (txn : TxnState) (key : List Nat) :
    Except MvccErr (Option (List Nat)) :=
  getScan txn
    ((engScan st (mkeyEncode (.version key 0))
      (mkeyEncode (.version key txn.version))).reverse)

/-- Mirrors Mvcc::begin: read and bump NextVersion (default 1), snapshot the
active transactions, record the snapshot when non-empty, mark this
transaction active. -/
def mvcc_begin (st : Engine) : Except MvccErr (TxnState × Engine) := do
  let version ←
    match engGet st .nextVersion with
    | some (.num v) => Except.ok v
    | none => Except.ok 1
    | some _ => Except.error .serializationError
  let st := engSet st .nextVersion (.num (version + 1))
  let active := (engScanPfx st [1]).filterMap fun e =>
    match e.1 with
    | .activeTransaction v => some v
    | _ => none
  let st :=
    if active.isEmpty then st
    else engSet st (.activeTransactionSnapshot version) (.verSet active)
  let st := engSet st (.activeTransaction version) .unit
  .ok ({ version := version, read_only := false, active_txns := active }, st)

/-- Machine-range well-formedness of a stored key: version fields are u64
values. -/
def mkeyWF : MKey → Bool
  | .nextVersion => true
  | .activeTransaction v => decide (v < 2 ^ 64)
  | .activeTransactionSnapshot v => decide (v < 2 ^ 64)
  | .transactionWrite v _ => decide (v < 2 ^ 64)
  | .version _ v => decide (v < 2 ^ 64)
  | .unversioned _ => true

/-- A stored entry is well formed when its key is and a Version key holds an
Option payload (what write_version stores under it). -/
def entryWF (e : MKey × EVal) : Bool :=
  mkeyWF e.1 &&
    (match e.1, e.2 with
     | .version _ _, .payload _ => true
     | .version _ _, _ => false
     | _, _ => true)

/-- Engine well-formedness: entries strictly ascending in encoded-key order
(as in a BTreeMap keyed by the encodings) and entrywise well formed. -/
def EngWF (st : Engine) : Prop :=
  st.Pairwise (fun a b => mkeyCmp a.1 b.1 = .lt) ∧ ∀ e ∈ st, entryWF e = true

/-- Transaction-state well-formedness: the version and the active set are
u64 values (with room for the version+1 scan bound). -/
def TxnWF (txn : TxnState) : Prop :=
  txn.version < 2 ^ 64 - 1 ∧ ∀ w ∈ txn.active_txns, w < 2 ^ 64

theorem mkeyCmp_version {k k2 : List Nat} {w w2 : Nat} (hw : w < 2 ^ 64)
    (hw2 : w2 < 2 ^ 64) :
    mkeyCmp (.version k w) (.version k2 w2) = (lexCmp k k2).then (natCmp w w2) := by
  unfold mkeyCmp mkeyEncode
  simp only [lexCmp, natCmp_self, Ordering_eq_then]
  rw [escBytes_lexCmp k k2 (beBytes 8 w) (beBytes 8 w2)]
  congr 1
  exact beBytes_lexCmp (show w < 256 ^ 8 by norm_num; omega)
    (show w2 < 256 ^ 8 by norm_num; omega)

/-- An entry passes the write_version scan filter exactly when it is a
Version record of the scanned user key with version at least the bound. -/
def isVerAtLeast (k : List Nat) (lo : Nat) (e : MKey × EVal) : Bool :=
  match e.1 with
  | .version k2 w => decide (k2 = k) && decide (lo ≤ w)
  | _ => false

theorem version_range_mem (k : List Nat) (lo : Nat) (hlo : lo < 2 ^ 64)
    (e : MKey × EVal) (he : mkeyWF e.1 = true) :
    (decide (lexCmp (mkeyEncode (.version k lo)) (mkeyEncode e.1) ≠ .gt) &&
      decide (lexCmp (mkeyEncode e.1)
        (mkeyEncode (.version k (2 ^ 64 - 1))) ≠ .gt)) = isVerAtLeast k lo e := by
  rcases e with ⟨key, val⟩
  cases key with
  | nextVersion =>
    simp [mkeyEncode, isVerAtLeast, lexCmp, natCmp, escBytes, escBody]
  | activeTransaction v =>
    simp [mkeyEncode, isVerAtLeast, lexCmp, natCmp, escBytes, escBody]
  | activeTransactionSnapshot v =>
    simp [mkeyEncode, isVerAtLeast, lexCmp, natCmp, escBytes, escBody]
  | transactionWrite v kk =>
    simp [mkeyEncode, isVerAtLeast, lexCmp, natCmp, escBytes, escBody]
  | unversioned kk =>
    simp [mkeyEncode, isVerAtLeast, lexCmp, natCmp, escBytes, escBody]
  | version k2 w =>
    have hw : w < 2 ^ 64 := by simpa [mkeyWF] using he
    have h1 : lexCmp (mkeyEncode (.version k lo)) (mkeyEncode (.version k2 w)) =
        (lexCmp k k2).then (natCmp lo w) := mkeyCmp_version hlo hw
    have h2 : lexCmp (mkeyEncode (.version k2 w))
        (mkeyEncode (.version k (2 ^ 64 - 1))) =
        (lexCmp k2 k).then (natCmp w (2 ^ 64 - 1)) :=
      mkeyCmp_version hw (by omega)
    rw [h1, h2]
    simp only [isVerAtLeast]
    cases hkk : lexCmp k k2 with
    | lt =>
      have hk2 : lexCmp k2 k = .gt := by
        rw [lexCmp_swap, hkk]
        rfl
      have hne : ¬(k2 = k) := by
        intro hx
        subst hx
        rw [lexCmp_self] at hkk
        cases hkk
      simp [hk2, hne]
    | gt =>
      have hne : ¬(k2 = k) := by
        intro hx
        subst hx
        rw [lexCmp_self] at hkk
        cases hkk
      simp [hne]
    | eq =>
      have hkeq : k = k2 := lexCmp_eq_iff.mp hkk
      subst hkeq
      rw [lexCmp_self]
      simp only [Ordering_eq_then]
      have hle : natCmp w (2 ^ 64 - 1) ≠ .gt := by
        rw [Ne, natCmp_gt_iff]
        omega
      by_cases hlow : lo ≤ w
      · have : natCmp lo w ≠ .gt := by
          rw [Ne, natCmp_gt_iff]
          omega
        simp [this, hlow]
        rw [natCmp_gt_iff]
        omega
      · have : natCmp lo w = .gt := natCmp_gt_iff.mpr (by omega)
        simp [this, hlow]

/-- Spec-side description of the write conflict window: the versions w of all
Version(k, w) records in the store with w at least the scan bound. -/
def versionsAtLeast (st : Engine) (k : List Nat) (lo : Nat) : List Nat :=
  st.filterMap fun e =>
    match e.1 with
    | .version k2 w => if k2 = k ∧ lo ≤ w then some w else none
    | _ => none

/-- Maximum of a list of naturals (0 on the empty list). -/
def maxN (l : List Nat) : Nat := l.foldl max 0

/-- The version carried by a Version entry (0 on other entries). -/
def entryVer (e : MKey × EVal) : Nat :=
  match e.1 with
  | .version _ w => w
  | _ => 0

theorem engScan_filter {st : Engine} {k : List Nat} {lo : Nat}
    (hlo : lo < 2 ^ 64) (hwf : ∀ e ∈ st, entryWF e = true) :
    engScan st (mkeyEncode (.version k lo))
      (mkeyEncode (.version k (2 ^ 64 - 1))) = st.filter (isVerAtLeast k lo) := by
  unfold engScan
  apply List.filter_congr
  intro e he
  have hek : mkeyWF e.1 = true := by
    have h := hwf e he
    unfold entryWF at h
    rw [Bool.and_eq_true] at h
    exact h.1
  exact version_range_mem k lo hlo e hek

theorem map_filter_versionsAtLeast (k : List Nat) (lo : Nat) : ∀ st : Engine,
    (st.filter (isVerAtLeast k lo)).map entryVer = versionsAtLeast st k lo := by
  intro st
  induction st with
  | nil => rfl
  | cons e rest ih =>
    rcases e with ⟨key, val⟩
    cases key with
    | version k2 w =>
      by_cases hc : k2 = k ∧ lo ≤ w
      · have hb : isVerAtLeast k lo (MKey.version k2 w, val) = true := by
          simp [isVerAtLeast, hc.1, hc.2]
        have hf : List.filter (isVerAtLeast k lo) ((MKey.version k2 w, val) :: rest) =
            (MKey.version k2 w, val) :: List.filter (isVerAtLeast k lo) rest := by
          simp [List.filter_cons, hb]
        rw [hf, List.map_cons, ih]
        unfold versionsAtLeast
        rw [List.filterMap_cons]
        simp [hc, entryVer]
      · have hb : isVerAtLeast k lo (MKey.version k2 w, val) = false := by
          simp only [isVerAtLeast]
          rcases Decidable.not_and_iff_or_not.mp hc with hx | hx <;> simp [hx]
        have hf : List.filter (isVerAtLeast k lo) ((MKey.version k2 w, val) :: rest) =
            List.filter (isVerAtLeast k lo) rest := by
          simp [List.filter_cons, hb]
        rw [hf, ih]
        unfold versionsAtLeast
        rw [List.filterMap_cons]
        simp [hc]
    | nextVersion =>
      have hf : List.filter (isVerAtLeast k lo) ((MKey.nextVersion, val) :: rest) =
          List.filter (isVerAtLeast k lo) rest := by
        simp [List.filter_cons, show isVerAtLeast k lo (MKey.nextVersion, val) = false
          from rfl]
      rw [hf, ih]
      unfold versionsAtLeast
      rw [List.filterMap_cons]
    | activeTransaction v =>
      have hf : List.filter (isVerAtLeast k lo)
          ((MKey.activeTransaction v, val) :: rest) =
          List.filter (isVerAtLeast k lo) rest := by
        simp [List.filter_cons,
          show isVerAtLeast k lo (MKey.activeTransaction v, val) = false from rfl]
      rw [hf, ih]
      unfold versionsAtLeast
      rw [List.filterMap_cons]
    | activeTransactionSnapshot v =>
      have hf : List.filter (isVerAtLeast k lo)
          ((MKey.activeTransactionSnapshot v, val) :: rest) =
          List.filter (isVerAtLeast k lo) rest := by
        simp [List.filter_cons,
          show isVerAtLeast k lo (MKey.activeTransactionSnapshot v, val) = false
            from rfl]
      rw [hf, ih]
      unfold versionsAtLeast
      rw [List.filterMap_cons]
    | transactionWrite v kk =>
      have hf : List.filter (isVerAtLeast k lo)
          ((MKey.transactionWrite v kk, val) :: rest) =
          List.filter (isVerAtLeast k lo) rest := by
        simp [List.filter_cons,
          show isVerAtLeast k lo (MKey.transactionWrite v kk, val) = false from rfl]
      rw [hf, ih]
      unfold versionsAtLeast
      rw [List.filterMap_cons]
    | unversioned kk =>
      have hf : List.filter (isVerAtLeast k lo)
          ((MKey.unversioned kk, val) :: rest) =
          List.filter (isVerAtLeast k lo) rest := by
        simp [List.filter_cons,
          show isVerAtLeast k lo (MKey.unversioned kk, val) = false from rfl]
      rw [hf, ih]
      unfold versionsAtLeast
      rw [List.filterMap_cons]

theorem foldl_max_eq (l : List Nat) : ∀ a : Nat,
    List.foldl max a l = max a (List.foldl max 0 l) := by
  induction l with
  | nil => intro a; simp
  | cons x t ih =>
    intro a
    simp only [List.foldl_cons]
    rw [ih (max a x), ih (max 0 x)]
    omega

theorem maxN_cons (x : Nat) (l : List Nat) : maxN (x :: l) = max x (maxN l) := by
  unfold maxN
  simp only [List.foldl_cons]
  rw [foldl_max_eq]
  omega

theorem getLast?_eq_maxN : ∀ l : List Nat, l.Pairwise (· < ·) → l ≠ [] →
    l.getLast? = some (maxN l) := by
  intro l
  induction l with
  | nil => intro _ h; exact absurd rfl h
  | cons x t ih =>
    intro hp _
    cases t with
    | nil => simp [maxN]
    | cons y t2 =>
      have hp2 := (List.pairwise_cons.mp hp).2
      have hmem := (List.pairwise_cons.mp hp).1
      have hxy : x < y := hmem y (by simp)
      rw [List.getLast?_cons_cons, ih hp2 (by simp), maxN_cons x (y :: t2),
        maxN_cons y t2]
      congr 1
      omega

theorem mem_of_last {α : Type} {l : List α} {a : α} (h : l.getLast? = some a) :
    a ∈ l := by
  rcases l with _ | ⟨x, t⟩
  · simp at h
  · rw [List.getLast?_eq_getLast _ (by simp)] at h
    injection h with h2
    rw [h2.symm]
    exact List.getLast_mem _

theorem mem_versionsAtLeast {st : Engine} {k : List Nat} {lo u : Nat}
    (h : u ∈ versionsAtLeast st k lo) :
    lo ≤ u ∧ ∃ e ∈ st, e.1 = MKey.version k u := by
  unfold versionsAtLeast at h
  rcases List.mem_filterMap.mp h with ⟨e, he, hf⟩
  rcases e with ⟨key, val⟩
  cases key with
  | version k2 w =>
    change (if k2 = k ∧ lo ≤ w then some w else none) = some u at hf
    by_cases hc : k2 = k ∧ lo ≤ w
    · rw [if_pos hc] at hf
      injection hf with hw
      exact ⟨hw ▸ hc.2, ⟨(MKey.version k2 w, val), he, by simp [hc.1, hw]⟩⟩
    · rw [if_neg hc] at hf
      exact Option.noConfusion hf
  | nextVersion => exact Option.noConfusion hf
  | activeTransaction v => exact Option.noConfusion hf
  | activeTransactionSnapshot v => exact Option.noConfusion hf
  | transactionWrite v kk => exact Option.noConfusion hf
  | unversioned kk => exact Option.noConfusion hf

theorem versionsAtLeast_pairwise (k : List Nat) (lo : Nat) : ∀ st : Engine,
    EngWF st → (versionsAtLeast st k lo).Pairwise (· < ·) := by
  intro st
  induction st with
  | nil => intro _; simp [versionsAtLeast]
  | cons e rest ih =>
    intro hwf
    have hp := hwf.1
    have hrest : EngWF rest :=
      ⟨(List.pairwise_cons.mp hp).2, fun x hx => hwf.2 x (List.mem_cons_of_mem e hx)⟩
    have hlt := (List.pairwise_cons.mp hp).1
    rcases e with ⟨key, val⟩
    cases key with
    | version k2 w =>
      by_cases hc : k2 = k ∧ lo ≤ w
      · have hv : versionsAtLeast ((MKey.version k2 w, val) :: rest) k lo =
            w :: versionsAtLeast rest k lo := by
          unfold versionsAtLeast
          rw [List.filterMap_cons]
          simp [hc]
        rw [hv]
        refine List.pairwise_cons.mpr ⟨?_, ih hrest⟩
        intro u hu
        rcases mem_versionsAtLeast hu with ⟨hlou, e2, he2, hver⟩
        have hcmp : mkeyCmp (MKey.version k2 w) (MKey.version k u) = .lt := by
          rw [← hver]
          exact hlt e2 he2
        have hw64 : w < 2 ^ 64 := by
          have h := hwf.2 (MKey.version k2 w, val) (by simp)
          unfold entryWF at h
          rw [Bool.and_eq_true] at h
          have h1 : mkeyWF (MKey.version k2 w) = true := h.1
          unfold mkeyWF at h1
          exact of_decide_eq_true h1
        have hu64 : u < 2 ^ 64 := by
          have h := hwf.2 e2 (List.mem_cons_of_mem _ he2)
          unfold entryWF at h
          rw [Bool.and_eq_true] at h
          have h1 := h.1
          rw [hver] at h1
          unfold mkeyWF at h1
          exact of_decide_eq_true h1
        rw [mkeyCmp_version hw64 hu64, hc.1, lexCmp_self] at hcmp
        simp only [Ordering_eq_then] at hcmp
        exact natCmp_lt_iff.mp hcmp
      · have hv : versionsAtLeast ((MKey.version k2 w, val) :: rest) k lo =
            versionsAtLeast rest k lo := by
          unfold versionsAtLeast
          rw [List.filterMap_cons]
          simp [hc]
        rw [hv]
        exact ih hrest
    | nextVersion =>
      have hv : versionsAtLeast ((MKey.nextVersion, val) :: rest) k lo =
          versionsAtLeast rest k lo := by
        unfold versionsAtLeast
        rw [List.filterMap_cons]
      rw [hv]
      exact ih hrest
    | activeTransaction v =>
      have hv : versionsAtLeast ((MKey.activeTransaction v, val) :: rest) k lo =
          versionsAtLeast rest k lo := by
        unfold versionsAtLeast
        rw [List.filterMap_cons]
      rw [hv]
      exact ih hrest
    | activeTransactionSnapshot v =>
      have hv : versionsAtLeast ((MKey.activeTransactionSnapshot v, val) :: rest)
          k lo = versionsAtLeast rest k lo := by
        unfold versionsAtLeast
        rw [List.filterMap_cons]
      rw [hv]
      exact ih hrest
    | transactionWrite v kk =>
      have hv : versionsAtLeast ((MKey.transactionWrite v kk, val) :: rest) k lo =
          versionsAtLeast rest k lo := by
        unfold versionsAtLeast
        rw [List.filterMap_cons]
      rw [hv]
      exact ih hrest
    | unversioned kk =>
      have hv : versionsAtLeast ((MKey.unversioned kk, val) :: rest) k lo =
          versionsAtLeast rest k lo := by
        unfold versionsAtLeast
        rw [List.filterMap_cons]
      rw [hv]
      exact ih hrest

/-- The spec-side write-write conflict condition: some Version(k, w) record
with w at least the scan bound exists, and the latest such w (the maximum,
as the records are in ascending version order) is not visible. -/
def OutOfOrderCond (st : Engine) (txn : TxnState) (key : List Nat) : Prop :=
  versionsAtLeast st key (conflictScanLo txn) ≠ [] ∧
    is_version_visible txn (maxN (versionsAtLeast st key (conflictScanLo txn))) = false

theorem write_version_out_of_order {st : Engine} {txn : TxnState}
    {key : List Nat} (value : Option (List Nat)) (hwf : EngWF st)
    (htx : TxnWF txn) (hro : txn.read_only = false) :
    write_version st txn key value = .error .outOfOrder ↔
      OutOfOrderCond st txn key := by
  have hlo : conflictScanLo txn < 2 ^ 64 := by
    unfold conflictScanLo
    cases hm : txn.active_txns.min? with
    | none =>
      simp only [Option.getD]
      have := htx.1
      omega
    | some m =>
      simp only [Option.getD]
      exact htx.2 m (List.min?_mem (fun a b => min_choice a b) hm)
  have hscan : engScan st (mkeyEncode (.version key (conflictScanLo txn)))
      (mkeyEncode (.version key (2 ^ 64 - 1))) =
      st.filter (isVerAtLeast key (conflictScanLo txn)) :=
    engScan_filter hlo hwf.2
  unfold write_version
  rw [if_neg (by simp [hro])]
  simp only [hscan]
  cases hlast : (st.filter (isVerAtLeast key (conflictScanLo txn))).getLast? with
  | none =>
    constructor
    · intro h
      exact absurd h (by simp [Except.map])
    · intro hcond
      exfalso
      have hnil : st.filter (isVerAtLeast key (conflictScanLo txn)) = [] :=
        List.getLast?_eq_none_iff.mp hlast
      have hvnil : versionsAtLeast st key (conflictScanLo txn) = [] := by
        rw [← map_filter_versionsAtLeast, hnil]
        rfl
      exact hcond.1 hvnil
  | some e =>
    have hmem := mem_of_last hlast
    have hiv : isVerAtLeast key (conflictScanLo txn) e = true :=
      (List.mem_filter.mp hmem).2
    rcases e with ⟨ekey, ev⟩
    cases ekey with
    | nextVersion => exact absurd hiv (by simp [isVerAtLeast])
    | activeTransaction v => exact absurd hiv (by simp [isVerAtLeast])
    | activeTransactionSnapshot v => exact absurd hiv (by simp [isVerAtLeast])
    | transactionWrite v kk => exact absurd hiv (by simp [isVerAtLeast])
    | unversioned kk => exact absurd hiv (by simp [isVerAtLeast])
    | version k2 w =>
      have hk2 : k2 = key ∧ conflictScanLo txn ≤ w := by
        change (decide (k2 = key) && decide (conflictScanLo txn ≤ w)) = true at hiv
        rw [Bool.and_eq_true] at hiv
        exact ⟨of_decide_eq_true hiv.1, of_decide_eq_true hiv.2⟩
      rcases hk2 with ⟨hk2, hlow⟩
      subst hk2
      have hvl : (versionsAtLeast st k2 (conflictScanLo txn)).getLast? = some w := by
        rw [← map_filter_versionsAtLeast, List.getLast?_map, hlast]
        rfl
      have hne : versionsAtLeast st k2 (conflictScanLo txn) ≠ [] := by
        intro hh
        rw [hh] at hvl
        exact Option.noConfusion hvl
      have hpw := versionsAtLeast_pairwise k2 (conflictScanLo txn) st hwf
      have hmax : maxN (versionsAtLeast st k2 (conflictScanLo txn)) = w := by
        have h2 := getLast?_eq_maxN _ hpw hne
        rw [h2] at hvl
        injection hvl
      cases hb : is_version_visible txn w with
      | false =>
        constructor
        · intro _
          refine ⟨hne, ?_⟩
          rw [hmax]
          exact hb
        · intro _
          simp [Except.map, hb]
      | true =>
        constructor
        · intro h
          exfalso
          simp [Except.map, hb] at h
        · intro hcond
          exfalso
          have h2 := hcond.2
          rw [hmax, hb] at h2
          exact absurd h2 (by simp)

/-- The states of the concrete two-writer scenario: T1 and T2 begin
concurrently, T1 writes key 107 first. -/
def egT1 : TxnState := ⟨1, false, []⟩

def egT2 : TxnState := ⟨2, false, [1]⟩

def egST1 : Engine :=
  [(MKey.nextVersion, EVal.num 2), (MKey.activeTransaction 1, EVal.unit)]

def egST2 : Engine :=
  [(MKey.nextVersion, EVal.num 3), (MKey.activeTransaction 1, EVal.unit),
   (MKey.activeTransaction 2, EVal.unit),
   (MKey.activeTransactionSnapshot 2, EVal.verSet [1])]

def egST3 : Engine :=
  egST2 ++ [(MKey.transactionWrite 1 [107], EVal.unit),
            (MKey.version [107] 1, EVal.payload (some [1]))]

/-- C1: for every writable transaction, set and delete fail with OutOfOrder
exactly when the conflict scan from Version(key, min(active) or version+1)
to Version(key, u64 max) finds records and the latest found version is not
visible; and when two concurrent transactions write the same key, the
second writer fails with OutOfOrder and the store holds no Version and no
TransactionWrite record at the failed writer's version. -/
theorem mvcc_write_conflict :
    (∀ (st : Engine) (txn : TxnState) (key value : List Nat),
      EngWF st → TxnWF txn → txn.read_only = false →
      (mvcc_set st txn key value = .error .outOfOrder ↔ OutOfOrderCond st txn key)) ∧
    (∀ (st : Engine) (txn : TxnState) (key : List Nat),
      EngWF st → TxnWF txn → txn.read_only = false →
      (mvcc_delete st txn key = .error .outOfOrder ↔ OutOfOrderCond st txn key)) ∧
    (mvcc_begin [] = .ok (egT1, egST1) ∧
      mvcc_begin egST1 = .ok (egT2, egST2) ∧
      egT1.version < egT2.version ∧
      mvcc_set egST2 egT1 [107] [1] = .ok egST3 ∧
      mvcc_set egST3 egT2 [107] [2] = .error .outOfOrder ∧
      MKey.version [107] egT2.version ∉ egST3.map Prod.fst ∧
      MKey.transactionWrite egT2.version [107] ∉ egST3.map Prod.fst) := by
  refine ⟨?_, ?_, ?_, ?_, ?_, ?_, ?_, ?_, ?_⟩
  · intro st txn key value hwf htx hro
    exact write_version_out_of_order (some value) hwf htx hro
  · intro st txn key hwf htx hro
    exact write_version_out_of_order none hwf htx hro
  · rfl
  · rfl
  · decide
  · rfl
  · rfl
  · decide
  · decide

/-- An entry passes the get scan filter exactly when it is a Version record
of the key with version at most the transaction's version. -/
def isVerUpTo (k : List Nat) (hi : Nat) (e : MKey × EVal) : Bool :=
  match e.1 with
  | .version k2 w => decide (k2 = k) && decide (w ≤ hi)
  | _ => false

theorem version_range_mem_upto (k : List Nat) (hi : Nat) (hhi : hi < 2 ^ 64)
    (e : MKey × EVal) (he : mkeyWF e.1 = true) :
    (decide (lexCmp (mkeyEncode (.version k 0)) (mkeyEncode e.1) ≠ .gt) &&
      decide (lexCmp (mkeyEncode e.1)
        (mkeyEncode (.version k hi)) ≠ .gt)) = isVerUpTo k hi e := by
  rcases e with ⟨key, val⟩
  cases key with
  | nextVersion =>
    simp [mkeyEncode, isVerUpTo, lexCmp, natCmp, escBytes, escBody]
  | activeTransaction v =>
    simp [mkeyEncode, isVerUpTo, lexCmp, natCmp, escBytes, escBody]
  | activeTransactionSnapshot v =>
    simp [mkeyEncode, isVerUpTo, lexCmp, natCmp, escBytes, escBody]
  | transactionWrite v kk =>
    simp [mkeyEncode, isVerUpTo, lexCmp, natCmp, escBytes, escBody]
  | unversioned kk =>
    simp [mkeyEncode, isVerUpTo, lexCmp, natCmp, escBytes, escBody]
  | version k2 w =>
    have hw : w < 2 ^ 64 := by simpa [mkeyWF] using he
    have h1 : lexCmp (mkeyEncode (.version k 0)) (mkeyEncode (.version k2 w)) =
        (lexCmp k k2).then (natCmp 0 w) := mkeyCmp_version (by positivity) hw
    have h2 : lexCmp (mkeyEncode (.version k2 w)) (mkeyEncode (.version k hi)) =
        (lexCmp k2 k).then (natCmp w hi) := mkeyCmp_version hw hhi
    rw [h1, h2]
    simp only [isVerUpTo]
    cases hkk : lexCmp k k2 with
    | lt =>
      have hk2 : lexCmp k2 k = .gt := by
        rw [lexCmp_swap, hkk]
        rfl
      have hne : ¬(k2 = k) := by
        intro hx
        subst hx
        rw [lexCmp_self] at hkk
        cases hkk
      simp [hk2, hne]
    | gt =>
      have hne : ¬(k2 = k) := by
        intro hx
        subst hx
        rw [lexCmp_self] at hkk
        cases hkk
      simp [hne]
    | eq =>
      have hkeq : k = k2 := lexCmp_eq_iff.mp hkk
      subst hkeq
      rw [lexCmp_self]
      simp only [Ordering_eq_then]
      have h0 : natCmp 0 w ≠ .gt := by
        rw [Ne, natCmp_gt_iff]
        omega
      by_cases hle : w ≤ hi
      · have : natCmp w hi ≠ .gt := by
          rw [Ne, natCmp_gt_iff]
          omega
        simp [h0, this, hle]
      · have : natCmp w hi = .gt := natCmp_gt_iff.mpr (by omega)
        simp [h0, this, hle]

theorem engScan_filter_upto {st : Engine} {k : List Nat} {hi : Nat}
    (hhi : hi < 2 ^ 64) (hwf : ∀ e ∈ st, entryWF e = true) :
    engScan st (mkeyEncode (.version k 0))
      (mkeyEncode (.version k hi)) = st.filter (isVerUpTo k hi) := by
  unfold engScan
  apply List.filter_congr
  intro e he
  have hek : mkeyWF e.1 = true := by
    have h := hwf e he
    unfold entryWF at h
    rw [Bool.and_eq_true] at h
    exact h.1
  exact version_range_mem_upto k hi hhi e hek

/-- Spec-side description of the get scan window: the versions w of all
Version(k, w) records in the store with w at most the transaction
version. -/
def versionsUpTo (st : Engine) (k : List Nat) (hi : Nat) : List Nat :=
  st.filterMap fun e =>
    match e.1 with
    | .version k2 w => if k2 = k ∧ w ≤ hi then some w else none
    | _ => none

theorem map_filter_versionsUpTo (k : List Nat) (hi : Nat) : ∀ st : Engine,
    (st.filter (isVerUpTo k hi)).map entryVer = versionsUpTo st k hi := by
  intro st
  induction st with
  | nil => rfl
  | cons e rest ih =>
    rcases e with ⟨key, val⟩
    cases key with
    | version k2 w =>
      by_cases hc : k2 = k ∧ w ≤ hi
      · have hb : isVerUpTo k hi (MKey.version k2 w, val) = true := by
          simp [isVerUpTo, hc.1, hc.2]
        have hf : List.filter (isVerUpTo k hi) ((MKey.version k2 w, val) :: rest) =
            (MKey.version k2 w, val) :: List.filter (isVerUpTo k hi) rest := by
          simp [List.filter_cons, hb]
        rw [hf, List.map_cons, ih]
        unfold versionsUpTo
        rw [List.filterMap_cons]
        simp [hc, entryVer]
      · have hb : isVerUpTo k hi (MKey.version k2 w, val) = false := by
          simp only [isVerUpTo]
          rcases Decidable.not_and_iff_or_not.mp hc with hx | hx <;> simp [hx]
        have hf : List.filter (isVerUpTo k hi) ((MKey.version k2 w, val) :: rest) =
            List.filter (isVerUpTo k hi) rest := by
          simp [List.filter_cons, hb]
        rw [hf, ih]
        unfold versionsUpTo
        rw [List.filterMap_cons]
        simp [hc]
    | nextVersion =>
      have hf : List.filter (isVerUpTo k hi) ((MKey.nextVersion, val) :: rest) =
          List.filter (isVerUpTo k hi) rest := by
        simp [List.filter_cons, show isVerUpTo k hi (MKey.nextVersion, val) = false
          from rfl]
      rw [hf, ih]
      unfold versionsUpTo
      rw [List.filterMap_cons]
    | activeTransaction v =>
      have hf : List.filter (isVerUpTo k hi)
          ((MKey.activeTransaction v, val) :: rest) =
          List.filter (isVerUpTo k hi) rest := by
        simp [List.filter_cons,
          show isVerUpTo k hi (MKey.activeTransaction v, val) = false from rfl]
      rw [hf, ih]
      unfold versionsUpTo
      rw [List.filterMap_cons]
    | activeTransactionSnapshot v =>
      have hf : List.filter (isVerUpTo k hi)
          ((MKey.activeTransactionSnapshot v, val) :: rest) =
          List.filter (isVerUpTo k hi) rest := by
        simp [List.filter_cons,
          show isVerUpTo k hi (MKey.activeTransactionSnapshot v, val) = false
            from rfl]
      rw [hf, ih]
      unfold versionsUpTo
      rw [List.filterMap_cons]
    | transactionWrite v kk =>
      have hf : List.filter (isVerUpTo k hi)
          ((MKey.transactionWrite v kk, val) :: rest) =
          List.filter (isVerUpTo k hi) rest := by
        simp [List.filter_cons,
          show isVerUpTo k hi (MKey.transactionWrite v kk, val) = false from rfl]
      rw [hf, ih]
      unfold versionsUpTo
      rw [List.filterMap_cons]
    | unversioned kk =>
      have hf : List.filter (isVerUpTo k hi)
          ((MKey.unversioned kk, val) :: rest) =
          List.filter (isVerUpTo k hi) rest := by
        simp [List.filter_cons,
          show isVerUpTo k hi (MKey.unversioned kk, val) = false from rfl]
      rw [hf, ih]
      unfold versionsUpTo
      rw [List.filterMap_cons]

theorem mem_versionsUpTo {st : Engine} {k : List Nat} {hi u : Nat}
    (h : u ∈ versionsUpTo st k hi) :
    u ≤ hi ∧ ∃ e ∈ st, e.1 = MKey.version k u := by
  unfold versionsUpTo at h
  rcases List.mem_filterMap.mp h with ⟨e, he, hf⟩
  rcases e with ⟨key, val⟩
  cases key with
  | version k2 w =>
    change (if k2 = k ∧ w ≤ hi then some w else none) = some u at hf
    by_cases hc : k2 = k ∧ w ≤ hi
    · rw [if_pos hc] at hf
      injection hf with hw
      exact ⟨hw ▸ hc.2, ⟨(MKey.version k2 w, val), he, by simp [hc.1, hw]⟩⟩
    · rw [if_neg hc] at hf
      exact Option.noConfusion hf
  | nextVersion => exact Option.noConfusion hf
  | activeTransaction v => exact Option.noConfusion hf
  | activeTransactionSnapshot v => exact Option.noConfusion hf
  | transactionWrite v kk => exact Option.noConfusion hf
  | unversioned kk => exact Option.noConfusion hf

theorem versionsUpTo_pairwise (k : List Nat) (hi : Nat) : ∀ st : Engine,
    EngWF st → (versionsUpTo st k hi).Pairwise (· < ·) := by
  intro st
  induction st with
  | nil => intro _; simp [versionsUpTo]
  | cons e rest ih =>
    intro hwf
    have hp := hwf.1
    have hrest : EngWF rest :=
      ⟨(List.pairwise_cons.mp hp).2, fun x hx => hwf.2 x (List.mem_cons_of_mem e hx)⟩
    have hlt := (List.pairwise_cons.mp hp).1
    rcases e with ⟨key, val⟩
    cases key with
    | version k2 w =>
      by_cases hc : k2 = k ∧ w ≤ hi
      · have hv : versionsUpTo ((MKey.version k2 w, val) :: rest) k hi =
            w :: versionsUpTo rest k hi := by
          unfold versionsUpTo
          rw [List.filterMap_cons]
          simp [hc]
        rw [hv]
        refine List.pairwise_cons.mpr ⟨?_, ih hrest⟩
        intro u hu
        rcases mem_versionsUpTo hu with ⟨hhiu, e2, he2, hver⟩
        have hcmp : mkeyCmp (MKey.version k2 w) (MKey.version k u) = .lt := by
          rw [← hver]
          exact hlt e2 he2
        have hw64 : w < 2 ^ 64 := by
          have h := hwf.2 (MKey.version k2 w, val) (by simp)
          unfold entryWF at h
          rw [Bool.and_eq_true] at h
          have h1 : mkeyWF (MKey.version k2 w) = true := h.1
          unfold mkeyWF at h1
          exact of_decide_eq_true h1
        have hu64 : u < 2 ^ 64 := by
          have h := hwf.2 e2 (List.mem_cons_of_mem _ he2)
          unfold entryWF at h
          rw [Bool.and_eq_true] at h
          have h1 := h.1
          rw [hver] at h1
          unfold mkeyWF at h1
          exact of_decide_eq_true h1
        rw [mkeyCmp_version hw64 hu64, hc.1, lexCmp_self] at hcmp
        simp only [Ordering_eq_then] at hcmp
        exact natCmp_lt_iff.mp hcmp
      · have hv : versionsUpTo ((MKey.version k2 w, val) :: rest) k hi =
            versionsUpTo rest k hi := by
          unfold versionsUpTo
          rw [List.filterMap_cons]
          simp [hc]
        rw [hv]
        exact ih hrest
    | nextVersion =>
      have hv : versionsUpTo ((MKey.nextVersion, val) :: rest) k hi =
          versionsUpTo rest k hi := by
        unfold versionsUpTo
        rw [List.filterMap_cons]
      rw [hv]
      exact ih hrest
    | activeTransaction v =>
      have hv : versionsUpTo ((MKey.activeTransaction v, val) :: rest) k hi =
          versionsUpTo rest k hi := by
        unfold versionsUpTo
        rw [List.filterMap_cons]
      rw [hv]
      exact ih hrest
    | activeTransactionSnapshot v =>
      have hv : versionsUpTo ((MKey.activeTransactionSnapshot v, val) :: rest)
          k hi = versionsUpTo rest k hi := by
        unfold versionsUpTo
        rw [List.filterMap_cons]
      rw [hv]
      exact ih hrest
    | transactionWrite v kk =>
      have hv : versionsUpTo ((MKey.transactionWrite v kk, val) :: rest) k hi =
          versionsUpTo rest k hi := by
        unfold versionsUpTo
        rw [List.filterMap_cons]
      rw [hv]
      exact ih hrest
    | unversioned kk =>
      have hv : versionsUpTo ((MKey.unversioned kk, val) :: rest) k hi =
          versionsUpTo rest k hi := by
        unfold versionsUpTo
        rw [List.filterMap_cons]
      rw [hv]
      exact ih hrest

/-- The payload stored in an entry (none on non-payload values). -/
def payloadOf (e : MKey × EVal) : Option (List Nat) :=
  match e.2 with
  | .payload p => p
  | _ => none

theorem find?_filter_head {α : Type} (p : α → Bool) : ∀ l : List α,
    l.find? p = (l.filter p).head? := by
  intro l
  induction l with
  | nil => rfl
  | cons a t ih =>
    cases h : p a with
    | true =>
      rw [List.find?_cons_of_pos _ h, List.filter_cons, if_pos h]
      rfl
    | false =>
      rw [List.find?_cons_of_neg _ (by simp [h]), List.filter_cons,
        if_neg (by simp [h])]
      exact ih

theorem mkeyCmp_self (a : MKey) : mkeyCmp a a = .eq := by
  unfold mkeyCmp
  exact lexCmp_self _

theorem engGet_of_mem : ∀ st : Engine,
    st.Pairwise (fun a b => mkeyCmp a.1 b.1 = .lt) →
    ∀ e ∈ st, engGet st e.1 = some e.2 := by
  intro st
  induction st with
  | nil => intro _ e he; cases he
  | cons a rest ih =>
    intro hp e he
    rcases List.mem_cons.mp he with rfl | hm
    · unfold engGet
      rw [if_pos rfl]
    · have hne : ¬(a.1 = e.1) := by
        intro hx
        have h2 := (List.pairwise_cons.mp hp).1 e hm
        rw [hx] at h2
        rw [mkeyCmp_self] at h2
        cases h2
      unfold engGet
      rw [if_neg hne]
      exact ih (List.pairwise_cons.mp hp).2 e hm

theorem getScan_eq_find (txn : TxnState) (k : List Nat) : ∀ M : Engine,
    (∀ e ∈ M, (∃ w, e.1 = MKey.version k w) ∧ ∃ p, e.2 = EVal.payload p) →
    getScan txn M =
      .ok ((M.find? fun e => is_version_visible txn (entryVer e)).bind payloadOf) := by
  intro M
  induction M with
  | nil => intro _; rfl
  | cons e rest ih =>
    intro hyp
    rcases (hyp e (by simp)).1 with ⟨w, hw⟩
    rcases (hyp e (by simp)).2 with ⟨p, hp⟩
    rcases e with ⟨ekey, ev⟩
    simp only at hw hp
    subst hw
    subst hp
    have hgs : getScan txn ((MKey.version k w, EVal.payload p) :: rest) =
        if is_version_visible txn w then .ok p else getScan txn rest := rfl
    cases hb : is_version_visible txn w with
    | true =>
      rw [hgs, if_pos hb, List.find?_cons_of_pos _ (by exact hb)]
      simp [payloadOf]
    | false =>
      rw [hgs, if_neg (by simp [hb]),
        List.find?_cons_of_neg _ (by simp [entryVer, hb])]
      exact ih (fun x hx => hyp x (List.mem_cons_of_mem _ hx))

/-- The versions of the key visible to the transaction among the records the
get scan ranges over. -/
def visVers (st : Engine) (txn : TxnState) (k : List Nat) : List Nat :=
  (versionsUpTo st k txn.version).filter fun w => is_version_visible txn w

/-- C2: mvcc_get scans Version(key, 0) ..= Version(key, txn.version) in
reverse and returns the payload recorded at the most recent visible
version: when some version of the key in the window is visible, the result
is the Option payload stored at the greatest such version (None exactly on
a tombstone), and when no version is visible the result is None. -/
theorem mvcc_get_most_recent_visible (st : Engine) (txn : TxnState)
    (key : List Nat) (hwf : EngWF st) (hv : txn.version < 2 ^ 64) :
    (visVers st txn key = [] → mvcc_get st txn key = .ok none) ∧
    (visVers st txn key ≠ [] →
      ∃ p, engGet st (MKey.version key (maxN (visVers st txn key))) =
          some (EVal.payload p) ∧
        mvcc_get st txn key = .ok p) := by
  have hscan := @engScan_filter_upto st key txn.version hv hwf.2
  have hLhyp : ∀ e ∈ (st.filter (isVerUpTo key txn.version)).reverse,
      (∃ w, e.1 = MKey.version key w) ∧ ∃ p, e.2 = EVal.payload p := by
    intro e he
    rw [List.mem_reverse] at he
    have hmemst := (List.mem_filter.mp he).1
    have hfil := (List.mem_filter.mp he).2
    rcases e with ⟨ekey, ev⟩
    cases ekey with
    | version k2 w =>
      change (decide (k2 = key) && decide (w ≤ txn.version)) = true at hfil
      rw [Bool.and_eq_true] at hfil
      have hk2 := of_decide_eq_true hfil.1
      constructor
      · exact ⟨w, by rw [hk2]⟩
      · have hwfe := hwf.2 _ hmemst
        unfold entryWF at hwfe
        rw [Bool.and_eq_true] at hwfe
        have h2 := hwfe.2
        cases ev with
        | payload p => exact ⟨p, rfl⟩
        | num n => exact Bool.noConfusion h2
        | verSet l => exact Bool.noConfusion h2
        | unit => exact Bool.noConfusion h2
    | nextVersion => exact Bool.noConfusion hfil
    | activeTransaction v => exact Bool.noConfusion hfil
    | activeTransactionSnapshot v => exact Bool.noConfusion hfil
    | transactionWrite v kk => exact Bool.noConfusion hfil
    | unversioned kk => exact Bool.noConfusion hfil
  have hmain : mvcc_get st txn key =
      .ok ((((st.filter (isVerUpTo key txn.version)).filter
        fun e => is_version_visible txn (entryVer e)).getLast?).bind payloadOf) := by
    unfold mvcc_get
    rw [hscan, getScan_eq_find txn key _ hLhyp, find?_filter_head,
      List.filter_reverse, List.head?_reverse]
  have hmapV : ((st.filter (isVerUpTo key txn.version)).filter
      fun e => is_version_visible txn (entryVer e)).map entryVer =
      visVers st txn key := by
    unfold visVers
    rw [← map_filter_versionsUpTo key txn.version st, List.filter_map]
    rfl
  have hpwV : (visVers st txn key).Pairwise (· < ·) := by
    unfold visVers
    exact List.Pairwise.filter _ (versionsUpTo_pairwise key txn.version st hwf)
  constructor
  · intro hnil
    have hVnil : ((st.filter (isVerUpTo key txn.version)).filter
        fun e => is_version_visible txn (entryVer e)) = [] := by
      cases hVl : ((st.filter (isVerUpTo key txn.version)).filter
          fun e => is_version_visible txn (entryVer e)) with
      | nil => rfl
      | cons a t =>
        exfalso
        have h2 := hmapV
        rw [hVl, hnil] at h2
        exact List.noConfusion h2
    rw [hmain, hVnil]
    rfl
  · intro hne
    have hlastV := getLast?_eq_maxN _ hpwV hne
    have h2 : (((st.filter (isVerUpTo key txn.version)).filter
        fun e => is_version_visible txn (entryVer e)).map entryVer).getLast? =
        some (maxN (visVers st txn key)) := by
      rw [hmapV, hlastV]
    rw [List.getLast?_map] at h2
    cases hV : ((st.filter (isVerUpTo key txn.version)).filter
        fun e => is_version_visible txn (entryVer e)).getLast? with
    | none =>
      rw [hV] at h2
      exact Option.noConfusion h2
    | some e =>
      rw [hV] at h2
      injection h2 with h3
      have hmemV := mem_of_last hV
      have hmemL := (List.mem_filter.mp hmemV).1
      have hmemst := (List.mem_filter.mp hmemL).1
      have hprops := hLhyp e (by rw [List.mem_reverse]; exact hmemL)
      rcases hprops.1 with ⟨w, hw⟩
      rcases hprops.2 with ⟨p, hp⟩
      refine ⟨p, ?_, ?_⟩
      · have hget := engGet_of_mem st hwf.1 e hmemst
        rw [hw, hp] at hget
        have hev : entryVer e = w := by
          unfold entryVer
          rw [hw]
        rw [← h3, hev]
        exact hget
      · rw [hmain, hV]
        show Except.ok (payloadOf e) = Except.ok p
        unfold payloadOf
        rw [hp]

/-- A concrete three-version store for the get witness. -/
def egGetTxn : TxnState := ⟨3, false, []⟩

def egGetSt : Engine :=
  [(MKey.version [5] 1, EVal.payload (some [9])),
   (MKey.version [5] 3, EVal.payload (some [10])),
   (MKey.version [5] 4, EVal.payload none)]

theorem mvcc_get_most_recent_visible_witness :
    (EngWF egGetSt ∧ egGetTxn.version < 2 ^ 64) ∧
      ((visVers egGetSt egGetTxn [5] = [] →
          mvcc_get egGetSt egGetTxn [5] = .ok none) ∧
       (visVers egGetSt egGetTxn [5] ≠ [] →
         ∃ p, engGet egGetSt
             (MKey.version [5] (maxN (visVers egGetSt egGetTxn [5]))) =
             some (EVal.payload p) ∧
           mvcc_get egGetSt egGetTxn [5] = .ok p)) :=
  ⟨⟨⟨by decide, by decide⟩, by decide⟩,
    mvcc_get_most_recent_visible egGetSt egGetTxn [5] ⟨by decide, by decide⟩
      (by decide)⟩

theorem mvcc_write_conflict_witness :
    EngWF egST3 ∧ TxnWF egT2 ∧ egT2.read_only = false ∧
      (mvcc_set egST3 egT2 [107] [2] = .error .outOfOrder ↔
        OutOfOrderCond egST3 egT2 [107]) :=
  ⟨⟨by decide, by decide⟩, ⟨by decide, by decide⟩, rfl,
    mvcc_write_conflict.1 egST3 egT2 [107] [2] ⟨by decide, by decide⟩
      ⟨by decide, by decide⟩ rfl⟩

/-- IEEE-754 double helpers over 64-bit patterns: exponent field, fraction
field, NaN test, sign test, zero test, and negation (sign-bit flip). -/
def f64Exp (b : Nat) : Nat := b / 2 ^ 52 % 2 ^ 11

def f64Frac (b : Nat) : Nat := b % 2 ^ 52

def f64IsNan (b : Nat) : Bool := decide (f64Exp b = 2047) && decide (f64Frac b ≠ 0)

def f64SignNeg (b : Nat) : Bool := decide (2 ^ 63 ≤ b)

def f64IsZero (b : Nat) : Bool := decide (b % 2 ^ 63 = 0)

def f64Neg (b : Nat) : Nat := if b < 2 ^ 63 then b + 2 ^ 63 else b - 2 ^ 63

/-- IEEE-754 equality on bit patterns: NaN equals nothing, the two zeros are
equal, and other values are equal exactly on equal patterns. -/
def f64Eq (a b : Nat) : Bool :=
  if f64IsNan a || f64IsNan b then false
  else if f64IsZero a && f64IsZero b then true
  else decide (a = b)

/-- Conversion of an i64 to the bit pattern of the nearest double (ties to
even), as the Rust cast does. -/
def i64ToF64 (v : Int) : Nat :=
  if v = 0 then 0
  else
    let s : Nat := if v < 0 then 2 ^ 63 else 0
    let m : Nat := v.natAbs
    let e : Nat := Nat.log2 m
    if e ≤ 52 then s + (e + 1023) * 2 ^ 52 + (m * 2 ^ (52 - e) - 2 ^ 52)
    else
      let sh := e - 52
      let q := m / 2 ^ sh
      let r := m % 2 ^ sh
      let q2 := if 2 ^ (sh - 1) < r ∨ (r = 2 ^ (sh - 1) ∧ q % 2 = 1) then q + 1
        else q
      if q2 = 2 ^ 53 then s + (e + 1 + 1023) * 2 ^ 52
      else s + (e + 1023) * 2 ^ 52 + (q2 - 2 ^ 52)

/-- SQL values, from types/value.rs: floats are carried as their IEEE-754
bit patterns (Nat below 2^64), strings as byte lists, dates as a
(year, month, day) triple. -/
inductive Value : Type where
  | null : Value
  | boolean : Bool → Value
  | integer : Int → Value
  | float : Nat → Value
  | string : List Nat → Value
  | date : Int → Nat → Nat → Value
  deriving DecidableEq

/-- Mirrors impl PartialEq for Value: Integer and Float compare through the
i64-to-f64 cast, Float/Float adds the explicit NaN-equals-NaN clause, other
variants compare componentwise and cross-variant pairs are unequal. -/
def veq : Value → Value → Bool
  | .null, .null => true
  | .boolean a, .boolean b => a == b
  | .integer a, .integer b => a == b
  | .integer a, .float b => f64Eq (i64ToF64 a) b
  | .float a, .integer b => f64Eq a (i64ToF64 b)
  | .float a, .float b => f64Eq a b || (f64IsNan a && f64IsNan b)
  | .string a, .string b => a == b
  | .date y m d, .date y2 m2 d2 => y == y2 && m == m2 && d == d2
  | _, _ => false

/-- Mirrors impl Ord for Value: numeric variants compare through f64
total_cmp (modelled by f64TotalVal), then the variant order Null < Boolean
< Integer < Float < String < Date. -/
def vcmp : Value → Value → Ordering
  | .null, .null => .eq
  | .boolean a, .boolean b => boolCmp a b
  | .integer a, .integer b => intCmp a b
  | .integer a, .float b => intCmp (f64TotalVal (i64ToF64 a)) (f64TotalVal b)
  | .float a, .integer b => intCmp (f64TotalVal a) (f64TotalVal (i64ToF64 b))
  | .float a, .float b => intCmp (f64TotalVal a) (f64TotalVal b)
  | .string a, .string b => lexCmp a b
  | .date y m d, .date y2 m2 d2 =>
    (intCmp y y2).then ((natCmp m m2).then (natCmp d d2))
  | .null, _ => .lt
  | _, .null => .gt
  | .boolean _, _ => .lt
  | _, .boolean _ => .gt
  | .integer _, _ => .lt
  | _, .integer _ => .gt
  | .float _, _ => .lt
  | _, .float _ => .gt
  | .string _, _ => .lt
  | _, .string _ => .gt

/-- Mirrors impl Hash for Value as the stream of words fed to the hasher:
first the variant discriminant, then the payload, with a float hashed as
its bit pattern after negating a negative NaN or negative zero. -/
def hashTokens : Value → List Nat
  | .null => [0]
  | .boolean b => [1, cond b 1 0]
  | .integer v => [2, i64Bits v]
  | .float v =>
    [3, if (f64IsNan v || f64IsZero v) && f64SignNeg v then f64Neg v else v]
  | .string s => 4 :: s
  | .date y m d => [5, i64Bits y, m, d]

/-- The value errors these operations produce. -/
inductive ValErr : Type where
  | integerOverflow : ValErr
  | notYetSupported : ValErr
  deriving DecidableEq

/-- Mirrors Value::checked_add with the double addition abstracted as fAdd
over bit patterns: integer overflow is IntegerOverflow, mixed arguments go
through the i64-to-f64 cast, and unsupported pairs are errors. -/
def checkedAdd (fAdd : Nat → Nat → Nat) : Value → Value → Except ValErr Value
  | .integer a, .integer b =>
    if -2 ^ 63 ≤ a + b ∧ a + b < 2 ^ 63 then .ok (.integer (a + b))
    else .error .integerOverflow
  | .integer a, .float b => .ok (.float (fAdd (i64ToF64 a) b))
  | .float a, .integer b => .ok (.float (fAdd a (i64ToF64 b)))
  | .float a, .float b => .ok (.float (fAdd a b))
  | _, _ => .error .notYetSupported

/-- Mirrors Value::checked_div with the double division abstracted as fDiv
over bit patterns: i64::checked_div is None (reported as IntegerOverflow)
on division by zero or MIN / -1, and otherwise truncates toward zero. -/
def checkedDiv (fDiv : Nat → Nat → Nat) : Value → Value → Except ValErr Value
  | .integer a, .integer b =>
    if b = 0 ∨ (a = -2 ^ 63 ∧ b = -1) then .error .integerOverflow
    else .ok (.integer (Int.tdiv a b))
  | .integer a, .float b => .ok (.float (fDiv (i64ToF64 a) b))
  | .float a, .integer b => .ok (.float (fDiv a (i64ToF64 b)))
  | .float a, .float b => .ok (.float (fDiv a b))
  | _, _ => .error .notYetSupported

/-- SQL column types, from types/value.rs DataType. -/
inductive DataType : Type where
  | boolean : DataType
  | integer : DataType
  | float : DataType
  | string : Option Nat → DataType
  | date : DataType
  | decimal : Option Nat → Option Nat → DataType
  deriving DecidableEq

/-- Mirrors Value::is_compatible, with the string parsers (i64, f64, date)
and the float formatter abstracted as parameters: Null is compatible with
every type; otherwise the variant must match the type, with bounded string
lengths, decimal precision checks over the formatted float, and strings
accepted for numeric and date types when they parse. -/
def is_compatible (pI pF pD : List Nat → Bool) (fmt : Nat → List Nat) :
    Value → DataType → Bool
  | .null, _ => true
  | .boolean _, .boolean => true
  | .integer _, .integer => true
  | .float _, .float => true
  | .float f, .decimal precision scale =>
    (match precision with
     | some p =>
       match scale with
       | some sc =>
         if p < (fmt f).length then false
         else
           match (fmt f).findIdx? (fun b => b == 46) with
           | some dotPos => decide ((fmt f).length - dotPos - 1 ≤ sc)
           | none => true
       | none => decide ((fmt f).length ≤ p)
     | none => true)
  | .string s, .string length =>
    (match length with
     | none => true
     | some l => decide (s.length ≤ l))
  | .date _ _ _, .date => true
  | .string s, .integer => pI s
  | .string s, .float => pF s
  | .string s, .date => pD s
  | _, _ => false

/-- A foreign-key clause: the referenced table and columns. -/
structure ForeignKey where
  table : List Nat
  columns : List (List Nat)
  deriving DecidableEq

/-- A table column, from types/schema.rs. -/
structure Column where
  name : List Nat
  data_type : DataType
  nullable : Bool
  references : Option ForeignKey
  has_secondary_index : Bool
  deriving DecidableEq

/-- A table schema, from types/schema.rs. -/
structure Table where
  name : List Nat
  primary_key_index : Nat
  columns : List Column
  deriving DecidableEq

/-- Mirrors Table::validate_row: the row must have exactly one value per
column and each value must be compatible with its column's type. -/
def validate_row (pI pF pD : List Nat → Bool) (fmt : Nat → List Nat)
    (t : Table) (row : List Value) : Bool :=
  if row.length = t.columns.length then
    (row.zip t.columns).all fun pr => is_compatible pI pF pD fmt pr.1 pr.2.data_type
  else false

/-- C9: Value equality makes Integer 0 and Float +0.0 equal (the Integer is
cast to f64 and compared), but the Hash implementation feeds the variant
discriminant to the hasher first, so the two values hash differently:
hashing is not consistent with equality, refuting the claimed
consistency. -/
theorem value_hash_inconsistent_with_eq :
    veq (Value.integer 0) (Value.float 0) = true ∧
    hashTokens (Value.integer 0) ≠ hashTokens (Value.float 0) := by
  constructor
  · decide
  · decide

/-- C10: integer division by zero fails with IntegerOverflow (i64's
checked_div returns None there and the code maps every None to that error;
there is no dedicated division-by-zero error), and any other integer
division away from MIN / -1 truncates toward zero. -/
theorem checked_div_zero_and_truncation (fDiv : Nat → Nat → Nat) (a b : Int)
    (hb : b ≠ 0) (hmin : ¬(a = -2 ^ 63 ∧ b = -1)) :
    checkedDiv fDiv (.integer a) (.integer 0) = .error .integerOverflow ∧
    checkedDiv fDiv (.integer a) (.integer b) = .ok (.integer (Int.tdiv a b)) := by
  constructor
  · have h0 : checkedDiv fDiv (.integer a) (.integer 0) =
        if (0 : Int) = 0 ∨ (a = -2 ^ 63 ∧ (0 : Int) = -1) then
          .error .integerOverflow
        else .ok (.integer (Int.tdiv a 0)) := rfl
    rw [h0, if_pos (Or.inl rfl)]
  · have h1 : checkedDiv fDiv (.integer a) (.integer b) =
        if b = 0 ∨ (a = -2 ^ 63 ∧ b = -1) then .error .integerOverflow
        else .ok (.integer (Int.tdiv a b)) := rfl
    rw [h1, if_neg]
    intro h
    rcases h with h | h
    · exact hb h
    · exact hmin h

theorem checked_div_zero_and_truncation_witness :
    (2 : Int) ≠ 0 ∧ ¬((7 : Int) = -2 ^ 63 ∧ (2 : Int) = -1) ∧
    (checkedDiv (fun _ _ => 0) (.integer 7) (.integer 0) =
        .error .integerOverflow ∧
      checkedDiv (fun _ _ => 0) (.integer 7) (.integer 2) =
        .ok (.integer (Int.tdiv 7 2))) :=
  ⟨by decide, by decide,
    checked_div_zero_and_truncation (fun _ _ => 0) 7 2 (by decide) (by decide)⟩

/-- The aggregate accumulator, from exec/aggregate.rs. -/
inductive Acc : Type where
  | average : Int → Value → Acc
  | count : Int → Acc
  | max : Option Value → Acc
  | min : Option Value → Acc
  | sum : Option Value → Acc
  deriving DecidableEq

/-- Mirrors Accumulator::add_value: Null inputs are ignored; AVERAGE adds
into the running sum and bumps the count, COUNT counts, MIN and MAX keep
the smaller / larger value under Ord, SUM starts from Integer(0) plus the
first value. -/
def add_value (fAdd : Nat → Nat → Nat) (acc : Acc) (value : Value) :
    Except ValErr Acc :=
  if veq value .null then .ok acc
  else
    match acc with
    | .average count sum =>
      (checkedAdd fAdd sum value).map fun s2 => .average (count + 1) s2
    | .count c => .ok (.count (c + 1))
    | .max none => .ok (.max (some value))
    | .max (some m) => .ok (.max (some (if vcmp value m = .gt then value else m)))
    | .min none => .ok (.min (some value))
    | .min (some m) => .ok (.min (some (if vcmp value m = .lt then value else m)))
    | .sum none => (checkedAdd fAdd (.integer 0) value).map fun s => .sum (some s)
    | .sum (some s) => (checkedAdd fAdd s value).map fun s2 => .sum (some s2)

/-- Mirrors Accumulator::value: AVERAGE with a zero count is Null and
otherwise divides the sum by the count; COUNT yields the count; MIN, MAX
and SUM yield the held value, or Null when none was accumulated. -/
def accValue (fDiv : Nat → Nat → Nat) : Acc → Except ValErr Value
  | .average c s => if c = 0 then .ok .null else checkedDiv fDiv s (.integer c)
  | .count c => .ok (.integer c)
  | .max (some v) => .ok v
  | .min (some v) => .ok v
  | .sum (some v) => .ok v
  | .max none => .ok .null
  | .min none => .ok .null
  | .sum none => .ok .null

/-- Feeding a list of inputs into an accumulator, stopping at the first
error, as the executor's add_value loop does. -/
def aggRun (fAdd : Nat → Nat → Nat) (acc : Acc) : List Value → Except ValErr Acc
  | [] => .ok acc
  | v :: t =>
    match add_value fAdd acc v with
    | .ok a2 => aggRun fAdd a2 t
    | .error e => .error e

/-- The non-Null inputs, in order. -/
def nonNull (vs : List Value) : List Value := vs.filter fun v => !(veq v .null)

/-- The fold of the minimum (under Ord) over a list of values, Null when
empty. -/
def minFold : List Value → Value
  | [] => .null
  | h :: t => t.foldl (fun m v => if vcmp v m = .lt then v else m) h

/-- The fold of the maximum (under Ord) over a list of values, Null when
empty. -/
def maxFold : List Value → Value
  | [] => .null
  | h :: t => t.foldl (fun m v => if vcmp v m = .gt then v else m) h

/-- The fold of checked addition over a list of values, stopping at the
first error. -/
def sumFoldE (fAdd : Nat → Nat → Nat) : Value → List Value → Except ValErr Value
  | s, [] => .ok s
  | s, v :: t =>
    match checkedAdd fAdd s v with
    | .ok s2 => sumFoldE fAdd s2 t
    | .error e => .error e

theorem aggRun_cons_ok {fAdd : Nat → Nat → Nat} {acc : Acc} {v : Value}
    {a2 : Acc} {t : List Value} (h : add_value fAdd acc v = .ok a2) :
    aggRun fAdd acc (v :: t) = aggRun fAdd a2 t := by
  show (match add_value fAdd acc v with
    | .ok a3 => aggRun fAdd a3 t
    | .error e => (.error e : Except ValErr Acc)) = aggRun fAdd a2 t
  rw [h]

theorem aggRun_cons_err {fAdd : Nat → Nat → Nat} {acc : Acc} {v : Value}
    {e : ValErr} {t : List Value} (h : add_value fAdd acc v = .error e) :
    aggRun fAdd acc (v :: t) = .error e := by
  show (match add_value fAdd acc v with
    | .ok a3 => aggRun fAdd a3 t
    | .error e2 => (.error e2 : Except ValErr Acc)) = .error e
  rw [h]

theorem add_value_null {fAdd : Nat → Nat → Nat} {acc : Acc} {v : Value}
    (h : veq v .null = true) : add_value fAdd acc v = .ok acc := by
  unfold add_value
  rw [if_pos h]

theorem nonNull_cons_null {v : Value} {t : List Value} (h : veq v .null = true) :
    nonNull (v :: t) = nonNull t := by
  unfold nonNull
  rw [List.filter_cons]
  simp [h]

theorem nonNull_cons_val {v : Value} {t : List Value} (h : veq v .null = false) :
    nonNull (v :: t) = v :: nonNull t := by
  unfold nonNull
  rw [List.filter_cons]
  simp [h]

theorem add_value_count {fAdd : Nat → Nat → Nat} {v : Value} {n : Int}
    (h : veq v .null = false) :
    add_value fAdd (.count n) v = .ok (.count (n + 1)) := by
  unfold add_value
  rw [if_neg (by simp [h])]

theorem add_value_min_none {fAdd : Nat → Nat → Nat} {v : Value}
    (h : veq v .null = false) :
    add_value fAdd (.min none) v = .ok (.min (some v)) := by
  unfold add_value
  rw [if_neg (by simp [h])]

theorem add_value_min_some {fAdd : Nat → Nat → Nat} {v m : Value}
    (h : veq v .null = false) :
    add_value fAdd (.min (some m)) v =
      .ok (.min (some (if vcmp v m = .lt then v else m))) := by
  unfold add_value
  rw [if_neg (by simp [h])]

theorem add_value_max_none {fAdd : Nat → Nat → Nat} {v : Value}
    (h : veq v .null = false) :
    add_value fAdd (.max none) v = .ok (.max (some v)) := by
  unfold add_value
  rw [if_neg (by simp [h])]

theorem add_value_max_some {fAdd : Nat → Nat → Nat} {v m : Value}
    (h : veq v .null = false) :
    add_value fAdd (.max (some m)) v =
      .ok (.max (some (if vcmp v m = .gt then v else m))) := by
  unfold add_value
  rw [if_neg (by simp [h])]

theorem add_value_sum_none {fAdd : Nat → Nat → Nat} {v : Value}
    (h : veq v .null = false) :
    add_value fAdd (.sum none) v =
      (checkedAdd fAdd (.integer 0) v).map fun s => .sum (some s) := by
  unfold add_value
  rw [if_neg (by simp [h])]

theorem add_value_sum_some {fAdd : Nat → Nat → Nat} {v s : Value}
    (h : veq v .null = false) :
    add_value fAdd (.sum (some s)) v =
      (checkedAdd fAdd s v).map fun s2 => .sum (some s2) := by
  unfold add_value
  rw [if_neg (by simp [h])]

theorem add_value_avg {fAdd : Nat → Nat → Nat} {v s : Value} {c : Int}
    (h : veq v .null = false) :
    add_value fAdd (.average c s) v =
      (checkedAdd fAdd s v).map fun s2 => .average (c + 1) s2 := by
  unfold add_value
  rw [if_neg (by simp [h])]

theorem sumFoldE_cons_ok {fAdd : Nat → Nat → Nat} {s v s2 : Value}
    {t : List Value} (h : checkedAdd fAdd s v = .ok s2) :
    sumFoldE fAdd s (v :: t) = sumFoldE fAdd s2 t := by
  show (match checkedAdd fAdd s v with
    | .ok s3 => sumFoldE fAdd s3 t
    | .error e => (.error e : Except ValErr Value)) = _
  rw [h]

theorem sumFoldE_cons_err {fAdd : Nat → Nat → Nat} {s v : Value} {e : ValErr}
    {t : List Value} (h : checkedAdd fAdd s v = .error e) :
    sumFoldE fAdd s (v :: t) = .error e := by
  show (match checkedAdd fAdd s v with
    | .ok s3 => sumFoldE fAdd s3 t
    | .error e2 => (.error e2 : Except ValErr Value)) = _
  rw [h]

theorem aggRun_count (fAdd : Nat → Nat → Nat) : ∀ (vs : List Value) (n : Int),
    aggRun fAdd (.count n) vs =
      .ok (.count (n + ((nonNull vs).length : Int))) := by
  intro vs
  induction vs with
  | nil => intro n; simp [aggRun, nonNull]
  | cons v t ih =>
    intro n
    cases h : veq v .null with
    | true => rw [aggRun_cons_ok (add_value_null h), ih n, nonNull_cons_null h]
    | false =>
      rw [aggRun_cons_ok (add_value_count h), ih (n + 1), nonNull_cons_val h,
        show n + 1 + ((nonNull t).length : Int) =
          n + ((v :: nonNull t).length : Int) from by
            push_cast [List.length_cons]; ring]

theorem aggRun_min_some (fAdd : Nat → Nat → Nat) : ∀ (vs : List Value) (m : Value),
    aggRun fAdd (.min (some m)) vs =
      .ok (.min (some ((nonNull vs).foldl
        (fun m2 v => if vcmp v m2 = .lt then v else m2) m))) := by
  intro vs
  induction vs with
  | nil => intro m; simp [aggRun, nonNull]
  | cons v t ih =>
    intro m
    cases h : veq v .null with
    | true => rw [aggRun_cons_ok (add_value_null h), ih m, nonNull_cons_null h]
    | false =>
      rw [aggRun_cons_ok (add_value_min_some h), ih, nonNull_cons_val h,
        List.foldl_cons]

theorem aggRun_min_none (fAdd : Nat → Nat → Nat) : ∀ vs : List Value,
    aggRun fAdd (.min none) vs =
      .ok (.min (match nonNull vs with
        | [] => none
        | h :: t2 =>
          some (t2.foldl (fun m2 v => if vcmp v m2 = .lt then v else m2) h))) := by
  intro vs
  induction vs with
  | nil => rfl
  | cons v t ih =>
    cases h : veq v .null with
    | true => rw [aggRun_cons_ok (add_value_null h), ih, nonNull_cons_null h]
    | false =>
      rw [aggRun_cons_ok (add_value_min_none h), aggRun_min_some fAdd t v,
        nonNull_cons_val h]

theorem aggRun_max_some (fAdd : Nat → Nat → Nat) : ∀ (vs : List Value) (m : Value),
    aggRun fAdd (.max (some m)) vs =
      .ok (.max (some ((nonNull vs).foldl
        (fun m2 v => if vcmp v m2 = .gt then v else m2) m))) := by
  intro vs
  induction vs with
  | nil => intro m; simp [aggRun, nonNull]
  | cons v t ih =>
    intro m
    cases h : veq v .null with
    | true => rw [aggRun_cons_ok (add_value_null h), ih m, nonNull_cons_null h]
    | false =>
      rw [aggRun_cons_ok (add_value_max_some h), ih, nonNull_cons_val h,
        List.foldl_cons]

theorem aggRun_max_none (fAdd : Nat → Nat → Nat) : ∀ vs : List Value,
    aggRun fAdd (.max none) vs =
      .ok (.max (match nonNull vs with
        | [] => none
        | h :: t2 =>
          some (t2.foldl (fun m2 v => if vcmp v m2 = .gt then v else m2) h))) := by
  intro vs
  induction vs with
  | nil => rfl
  | cons v t ih =>
    cases h : veq v .null with
    | true => rw [aggRun_cons_ok (add_value_null h), ih, nonNull_cons_null h]
    | false =>
      rw [aggRun_cons_ok (add_value_max_none h), aggRun_max_some fAdd t v,
        nonNull_cons_val h]

theorem aggRun_sum_some (fAdd : Nat → Nat → Nat) : ∀ (vs : List Value) (s : Value),
    aggRun fAdd (.sum (some s)) vs =
      (sumFoldE fAdd s (nonNull vs)).map fun s2 => .sum (some s2) := by
  intro vs
  induction vs with
  | nil => intro s; simp [aggRun, nonNull, sumFoldE, Except.map]
  | cons v t ih =>
    intro s
    cases h : veq v .null with
    | true => rw [aggRun_cons_ok (add_value_null h), ih s, nonNull_cons_null h]
    | false =>
      cases hc : checkedAdd fAdd s v with
      | ok s2 =>
        have ha : add_value fAdd (.sum (some s)) v = .ok (.sum (some s2)) := by
          rw [add_value_sum_some h, hc]
          rfl
        rw [aggRun_cons_ok ha, ih s2, nonNull_cons_val h, sumFoldE_cons_ok hc]
      | error e =>
        have ha : add_value fAdd (.sum (some s)) v = .error e := by
          rw [add_value_sum_some h, hc]
          rfl
        rw [aggRun_cons_err ha, nonNull_cons_val h, sumFoldE_cons_err hc]
        rfl

theorem aggRun_sum_none (fAdd : Nat → Nat → Nat) : ∀ vs : List Value,
    aggRun fAdd (.sum none) vs =
      match nonNull vs with
      | [] => .ok (.sum none)
      | h :: t2 =>
        (sumFoldE fAdd (.integer 0) (h :: t2)).map fun s2 => .sum (some s2) := by
  intro vs
  induction vs with
  | nil => rfl
  | cons v t ih =>
    cases h : veq v .null with
    | true => rw [aggRun_cons_ok (add_value_null h), ih, nonNull_cons_null h]
    | false =>
      rw [nonNull_cons_val h]
      cases hc : checkedAdd fAdd (.integer 0) v with
      | ok s0 =>
        have ha : add_value fAdd (.sum none) v = .ok (.sum (some s0)) := by
          rw [add_value_sum_none h, hc]
          rfl
        rw [aggRun_cons_ok ha, aggRun_sum_some fAdd t s0]
        show (sumFoldE fAdd s0 (nonNull t)).map (fun s2 => Acc.sum (some s2)) =
          (sumFoldE fAdd (.integer 0) (v :: nonNull t)).map fun s2 =>
            Acc.sum (some s2)
        rw [sumFoldE_cons_ok hc]
      | error e =>
        have ha : add_value fAdd (.sum none) v = .error e := by
          rw [add_value_sum_none h, hc]
          rfl
        rw [aggRun_cons_err ha]
        show (.error e : Except ValErr Acc) =
          (sumFoldE fAdd (.integer 0) (v :: nonNull t)).map fun s2 =>
            Acc.sum (some s2)
        rw [sumFoldE_cons_err hc]
        rfl

theorem aggRun_avg (fAdd : Nat → Nat → Nat) :
    ∀ (vs : List Value) (c : Int) (s : Value),
    aggRun fAdd (.average c s) vs =
      (sumFoldE fAdd s (nonNull vs)).map fun s2 =>
        .average (c + ((nonNull vs).length : Int)) s2 := by
  intro vs
  induction vs with
  | nil => intro c s; simp [aggRun, nonNull, sumFoldE, Except.map]
  | cons v t ih =>
    intro c s
    cases h : veq v .null with
    | true => rw [aggRun_cons_ok (add_value_null h), ih, nonNull_cons_null h]
    | false =>
      cases hc : checkedAdd fAdd s v with
      | ok s2 =>
        have ha : add_value fAdd (.average c s) v = .ok (.average (c + 1) s2) := by
          rw [add_value_avg h, hc]
          rfl
        rw [aggRun_cons_ok ha, ih (c + 1) s2, nonNull_cons_val h,
          sumFoldE_cons_ok hc]
        congr 1
        funext s3
        congr 1
        push_cast [List.length_cons]
        ring
      | error e =>
        have ha : add_value fAdd (.average c s) v = .error e := by
          rw [add_value_avg h, hc]
          rfl
        rw [aggRun_cons_err ha, nonNull_cons_val h, sumFoldE_cons_err hc]
        rfl

/-- C8: feeding any multiset of inputs through an accumulator and
finalizing yields: COUNT = the number of non-Null inputs; MIN and MAX = the
fold of the smaller / larger value over the non-Null inputs and Null when
all inputs are Null; SUM = the checked-addition fold (from Integer 0) over
the non-Null inputs and Null when all are Null; AVG = that same sum divided
by the non-Null count, Null when all are Null. Holds for every
interpretation of double addition and division. -/
theorem accumulator_aggregate_semantics (fAdd fDiv : Nat → Nat → Nat)
    (vs : List Value) :
    ((aggRun fAdd (.count 0) vs).bind (accValue fDiv) =
      .ok (.integer ((nonNull vs).length : Int))) ∧
    ((aggRun fAdd (.min none) vs).bind (accValue fDiv) =
      .ok (minFold (nonNull vs))) ∧
    ((aggRun fAdd (.max none) vs).bind (accValue fDiv) =
      .ok (maxFold (nonNull vs))) ∧
    ((aggRun fAdd (.sum none) vs).bind (accValue fDiv) =
      match nonNull vs with
      | [] => .ok .null
      | h :: t => sumFoldE fAdd (.integer 0) (h :: t)) ∧
    ((aggRun fAdd (.average 0 (.integer 0)) vs).bind (accValue fDiv) =
      match nonNull vs with
      | [] => .ok .null
      | h :: t =>
        (sumFoldE fAdd (.integer 0) (h :: t)).bind fun s =>
          checkedDiv fDiv s (.integer ((h :: t).length : Int))) := by
  refine ⟨?_, ?_, ?_, ?_, ?_⟩
  · rw [aggRun_count fAdd vs 0]
    simp [Except.bind, accValue]
  · rw [aggRun_min_none fAdd vs]
    cases hns : nonNull vs with
    | nil => simp [Except.bind, accValue, minFold]
    | cons h2 t2 => simp [Except.bind, accValue, minFold]
  · rw [aggRun_max_none fAdd vs]
    cases hns : nonNull vs with
    | nil => simp [Except.bind, accValue, maxFold]
    | cons h2 t2 => simp [Except.bind, accValue, maxFold]
  · rw [aggRun_sum_none fAdd vs]
    cases hns : nonNull vs with
    | nil => simp [Except.bind, accValue]
    | cons h2 t2 =>
      show ((sumFoldE fAdd (.integer 0) (h2 :: t2)).map fun s2 =>
          Acc.sum (some s2)).bind (accValue fDiv) =
        sumFoldE fAdd (.integer 0) (h2 :: t2)
      cases hs : sumFoldE fAdd (.integer 0) (h2 :: t2) with
      | ok s => rfl
      | error e => rfl
  · rw [aggRun_avg fAdd vs 0 (.integer 0)]
    cases hns : nonNull vs with
    | nil => simp [sumFoldE, Except.map, Except.bind, accValue]
    | cons h2 t2 =>
      show ((sumFoldE fAdd (.integer 0) (h2 :: t2)).map fun s2 =>
          Acc.average (0 + (((h2 :: t2).length : Int))) s2).bind (accValue fDiv) =
        (sumFoldE fAdd (.integer 0) (h2 :: t2)).bind fun s =>
          checkedDiv fDiv s (.integer ((h2 :: t2).length : Int))
      cases hs : sumFoldE fAdd (.integer 0) (h2 :: t2) with
      | ok s =>
        show accValue fDiv (Acc.average (0 + ((h2 :: t2).length : Int)) s) =
          checkedDiv fDiv s (.integer ((h2 :: t2).length : Int))
        have hred : accValue fDiv (Acc.average (0 + ((h2 :: t2).length : Int)) s) =
            if (0 + ((h2 :: t2).length : Int)) = 0 then .ok .null
            else checkedDiv fDiv s (.integer (0 + ((h2 :: t2).length : Int))) := rfl
        rw [hred, if_neg (by push_cast [List.length_cons]; omega),
          show (0 : Int) + ((h2 :: t2).length : Int) =
            ((h2 :: t2).length : Int) from by ring]
      | error e => rfl

/-- Executor errors relevant to the joiner. -/
inductive ExecErr : Type where
  | invalidFilterResult : Value → ExecErr
  deriving DecidableEq

/-- The join operators Node::from_from handles (with an On or absent
constraint); predicates are abstracted by an identifier. -/
inductive JoinOp : Type where
  | join : JoinOp
  | left : JoinOp
  | crossJoin : JoinOp
  deriving DecidableEq

/-- Planner nodes, reduced to what from_from builds. -/
inductive PNode : Type where
  | scan : Nat → PNode
  | nestedLoopJoin : PNode → PNode → Option Nat → Bool → PNode
  deriving DecidableEq

/-- Mirrors the join handling in Node::from_from: every join operator arm
falls through to the same NestedLoopJoin construction with outer set to
false (a cross join carries no predicate). -/
def planJoin (node right : PNode) (op : JoinOp) (pr : Option Nat) : PNode :=
  match op with
  | .join => .nestedLoopJoin node right pr false
  | .left => .nestedLoopJoin node right pr false
  | .crossJoin => .nestedLoopJoin node right none false

/-- The NestedLoopJoiner state: remaining left rows, remaining right rows of
the current pass, the full right side, the right column count, the
right_matched flag, the predicate (abstracted as a row function), and the
outer flag. -/
structure JoinState where
  left : List (List Value)
  right : List (List Value)
  right_orig : List (List Value)
  right_cols : Nat
  right_matched : Bool
  predicate : Option (List Value → Value)
  outer : Bool

/-- Mirrors NestedLoopJoiner::try_next: while a left row remains, pull right
rows; with a predicate, a Boolean(true) result returns the combined row
(without touching right_matched), false or Null skips, anything else is an
error; without a predicate the combined row is returned and right_matched
is set. When the right side is exhausted, an outer joiner that saw no match
returns the left row padded with right_cols Nulls; otherwise the right side
is reset and the next left row is taken. -/
def tryNext (s : JoinState) : Except ExecErr (Option (List Value) × JoinState) :=
  match hl : s.left with
  | [] => .ok (none, s)
  | l :: lt =>
    match hr : s.right with
    | r :: rt =>
      let row := l ++ r
      match s.predicate with
      | some p =>
        match p row with
        | .boolean true => .ok (some row, { s with right := rt })
        | .boolean false => tryNext { s with right := rt }
        | .null => tryNext { s with right := rt }
        | v => .error (.invalidFilterResult v)
      | none => .ok (some row, { s with right := rt, right_matched := true })
    | [] =>
      if s.right_matched = false ∧ s.outer = true then
        .ok (some (l ++ List.replicate s.right_cols .null),
          { s with right_matched := true })
      else
        tryNext { s with left := lt, right := s.right_orig, right_matched := false }
termination_by (s.left.length, s.right.length)
decreasing_by
  all_goals simp_wf
  all_goals try rw [hl, hr]
  all_goals try rw [hl]
  all_goals first
    | (right; simp)
    | (left; simp)

/-- The always-true predicate used in the joiner counterexample. -/
def egP : List Value → Value := fun _ => Value.boolean true

def egJoin0 : JoinState :=
  ⟨[[.integer 1]], [[.integer 2]], [[.integer 2]], 1, false, some egP, true⟩

def egJoin1 : JoinState :=
  ⟨[[.integer 1]], [], [[.integer 2]], 1, false, some egP, true⟩

def egJoin2 : JoinState :=
  ⟨[[.integer 1]], [], [[.integer 2]], 1, true, some egP, true⟩

def egJoin3 : JoinState :=
  ⟨[[.integer 1]], [], [], 1, false, some egP, false⟩

def egJoin4 : JoinState :=
  ⟨[], [], [], 1, false, some egP, false⟩

/-- C7: the LEFT join path diverges from the claim twice. The planner's
from_from marks every join — including Left — with outer = false, so a
planned LEFT JOIN never emits a Null-padded row: with an empty right side
the joiner produces no row for the left row. And even with outer = true,
the joiner only sets right_matched on the predicate-free path, so after a
successful predicate match it still emits the Null-padded row for that left
row. -/
theorem left_join_divergence :
    (planJoin (.scan 0) (.scan 1) .left (some 0) =
      .nestedLoopJoin (.scan 0) (.scan 1) (some 0) false) ∧
    (tryNext egJoin3 = .ok (none, egJoin4)) ∧
    (tryNext egJoin0 =
      .ok (some [Value.integer 1, Value.integer 2], egJoin1)) ∧
    (tryNext egJoin1 =
      .ok (some [Value.integer 1, Value.null], egJoin2)) := by
  refine ⟨rfl, ?_, ?_, ?_⟩
  · have step1 : tryNext egJoin3 =
        tryNext ⟨[], [], [], 1, false, some egP, false⟩ := by
      rw [tryNext.eq_def]
      rfl
    have step2 : tryNext (⟨[], [], [], 1, false, some egP, false⟩ : JoinState) =
        .ok (none, egJoin4) := by
      rw [tryNext.eq_def]
      rfl
    rw [step1, step2]
  · rw [tryNext.eq_def]
    rfl
  · rw [tryNext.eq_def]
    rfl

/-- A key directory entry: the absolute payload offset and payload size of
the live record for a key, as in bitcask.rs Location. -/
structure Loc where
  offset : Nat
  size : Nat
  deriving DecidableEq

/-- A Bitcask operation: set writes a record with a payload, del writes a
tombstone record. -/
inductive BOp : Type where
  | set : List Nat → List Nat → BOp
  | del : List Nat → BOp
  deriving DecidableEq

/-- The log record written by write_entry: key length as big-endian u32,
value length as big-endian i32 (-1, all 0xFF, for a tombstone), key bytes,
then payload bytes. -/
def recordBytes : BOp → List Nat
  | .set k v => beBytes 4 k.length ++ beBytes 4 v.length ++ k ++ v
  | .del k => beBytes 4 k.length ++ [255, 255, 255, 255] ++ k

/-- The log file contents after a sequence of operations. -/
def logBytes (ops : List BOp) : List Nat := (ops.map recordBytes).flatten

/-- Insert-or-replace into the key directory, keyed by byte order (BTreeMap
insert). -/
def kdSet : List (List Nat × Loc) → List Nat → Loc → List (List Nat × Loc)
  | [], k, v => [(k, v)]
  | e :: rest, k, v =>
    match lexCmp k e.1 with
    | .lt => (k, v) :: e :: rest
    | .eq => (k, v) :: rest
    | .gt => e :: kdSet rest k v

/-- Remove a key from the key directory (BTreeMap remove). -/
def kdDel : List (List Nat × Loc) → List Nat → List (List Nat × Loc)
  | [], _ => []
  | e :: rest, k => if e.1 = k then rest else e :: kdDel rest k

/-- The in-process state after executing the operations: the file length
(write offset) and the key directory, as maintained by Bitcask::set and
Bitcask::delete. -/
def runOps : List BOp → Nat → List (List Nat × Loc) → Nat × List (List Nat × Loc)
  | [], off, kd => (off, kd)
  | .set k v :: rest, off, kd =>
    runOps rest (off + 8 + k.length + v.length)
      (kdSet kd k ⟨off + 8 + k.length, v.length⟩)
  | .del k :: rest, off, kd => runOps rest (off + 8 + k.length) (kdDel kd k)

/-- Mirrors Bitcask::rebuild_key_dir over the file bytes: while the offset
is below the file length, read the two length fields (error at EOF), read
the key (error at EOF), and either remove the key (negative value length)
or check that the declared payload lies within the file — failing with an
IO error when it extends past end-of-file — and record the key's
location. -/
def rebuildLoop (flen off : Nat) (rem : List Nat)
    (kd : List (List Nat × Loc)) : Except Unit (List (List Nat × Loc)) :=
  if off < flen then
    if h8 : 8 ≤ rem.length then
      let klen := fromBE (rem.take 4)
      let vzb := (rem.drop 4).take 4
      let rem3 := rem.drop 8
      if hk : klen ≤ rem3.length then
        let key := rem3.take klen
        let rem4 := rem3.drop klen
        if 128 ≤ vzb.headI then
          rebuildLoop flen (off + 8 + klen) rem4 (kdDel kd key)
        else
          let vlen := fromBE vzb
          if flen < off + 8 + klen + vlen then .error ()
          else
            rebuildLoop flen (off + 8 + klen + vlen) (rem4.drop vlen)
              (kdSet kd key ⟨off + 8 + klen, vlen⟩)
      else .error ()
    else .error ()
  else .ok kd
termination_by rem.length
decreasing_by
  all_goals simp_wf
  all_goals try simp only [List.length_drop]
  all_goals omega

/-- Recovery on open: rebuild the key directory from offset 0 over the
whole file. -/
def rebuild (file : List Nat) : Except Unit (List (List Nat × Loc)) :=
  rebuildLoop file.length 0 file []

/-- Machine-range side conditions: key lengths fit a u32 and value lengths
fit a non-negative i32. -/
def WFOp : BOp → Prop
  | .set k v => k.length < 2 ^ 32 ∧ v.length < 2 ^ 31
  | .del k => k.length < 2 ^ 32

instance (op : BOp) : Decidable (WFOp op) := by
  cases op with
  | set k v =>
    unfold WFOp
    infer_instance
  | del k =>
    unfold WFOp
    infer_instance

def WFOps (ops : List BOp) : Prop := ∀ op ∈ ops, WFOp op

instance (ops : List BOp) : Decidable (WFOps ops) := by
  unfold WFOps
  infer_instance

theorem take_len_append {xs r : List Nat} {n : Nat} (h : xs.length = n) :
    (xs ++ r).take n = xs := by
  subst h
  exact List.take_left xs r

theorem drop_len_append {xs r : List Nat} {n : Nat} (h : xs.length = n) :
    (xs ++ r).drop n = r := by
  subst h
  exact List.drop_left xs r

theorem beBytes4_headI (n : Nat) : (beBytes 4 n).headI = n / 256 ^ 3 % 256 := rfl

theorem rebuildLoop_stop {flen off : Nat} {rem : List Nat}
    {kd : List (List Nat × Loc)} (h : ¬off < flen) :
    rebuildLoop flen off rem kd = .ok kd := by
  conv_lhs => rw [rebuildLoop.eq_def]
  rw [if_neg h]

theorem rebuildLoop_set_step (flen off : Nat) (k v tail : List Nat)
    (kd : List (List Nat × Loc)) (hk : k.length < 2 ^ 32)
    (hv : v.length < 2 ^ 31) (hoff : off < flen)
    (hflen : off + 8 + k.length + v.length ≤ flen) :
    rebuildLoop flen off
      (beBytes 4 k.length ++ (beBytes 4 v.length ++ (k ++ (v ++ tail)))) kd =
      rebuildLoop flen (off + 8 + k.length + v.length) tail
        (kdSet kd k ⟨off + 8 + k.length, v.length⟩) := by
  have e3 : (beBytes 4 k.length ++
      (beBytes 4 v.length ++ (k ++ (v ++ tail)))).drop 8 = k ++ (v ++ tail) := by
    rw [← List.append_assoc]
    exact drop_len_append (by simp [beBytes_length])
  have hk256 : k.length < 256 ^ 4 := by
    have : (256 : Nat) ^ 4 = 2 ^ 32 := by norm_num
    omega
  have hv256 : v.length < 256 ^ 4 := by
    have : (256 : Nat) ^ 4 = 2 ^ 32 := by norm_num
    have : (2 : Nat) ^ 31 < 2 ^ 32 := by norm_num
    omega
  conv_lhs => rw [rebuildLoop.eq_def]
  rw [if_pos hoff]
  rw [dif_pos (by simp [beBytes_length]; omega)]
  simp only [take_len_append (beBytes_length 4 k.length),
    drop_len_append (beBytes_length 4 k.length),
    take_len_append (beBytes_length 4 v.length), e3,
    fromBE_beBytes hk256, fromBE_beBytes hv256]
  rw [dif_pos (by simp)]
  simp only [take_len_append (rfl : k.length = k.length),
    drop_len_append (rfl : k.length = k.length)]
  rw [if_neg (by rw [beBytes4_headI]; omega)]
  rw [if_neg (by omega)]
  simp only [fromBE_beBytes hv256,
    drop_len_append (rfl : v.length = v.length)]

theorem rebuildLoop_del_step (flen off : Nat) (k tail : List Nat)
    (kd : List (List Nat × Loc)) (hk : k.length < 2 ^ 32) (hoff : off < flen) :
    rebuildLoop flen off
      (beBytes 4 k.length ++ ([255, 255, 255, 255] ++ (k ++ tail))) kd =
      rebuildLoop flen (off + 8 + k.length) tail (kdDel kd k) := by
  have e3 : (beBytes 4 k.length ++
      ([255, 255, 255, 255] ++ (k ++ tail))).drop 8 = k ++ tail := by
    rw [← List.append_assoc]
    exact drop_len_append (by simp [beBytes_length])
  have hk256 : k.length < 256 ^ 4 := by
    have : (256 : Nat) ^ 4 = 2 ^ 32 := by norm_num
    omega
  conv_lhs => rw [rebuildLoop.eq_def]
  rw [if_pos hoff]
  rw [dif_pos (by simp [beBytes_length]; omega)]
  simp only [take_len_append (beBytes_length 4 k.length),
    drop_len_append (beBytes_length 4 k.length),
    take_len_append (rfl : ([255, 255, 255, 255] : List Nat).length = 4), e3,
    fromBE_beBytes hk256]
  rw [dif_pos (by simp)]
  simp only [take_len_append (rfl : k.length = k.length),
    drop_len_append (rfl : k.length = k.length)]
  rw [if_pos (by norm_num)]

theorem rebuildLoop_log : ∀ (ops : List BOp) (flen off : Nat)
    (kd : List (List Nat × Loc)), WFOps ops →
    flen = off + (logBytes ops).length →
    rebuildLoop flen off (logBytes ops) kd = .ok (runOps ops off kd).2 := by
  intro ops
  induction ops with
  | nil =>
    intro flen off kd _ hf
    have hf2 : flen = off := by simpa [logBytes] using hf
    rw [rebuildLoop_stop (by omega)]
    rfl
  | cons op rest ih =>
    intro flen off kd hwf hf
    have hwfr : WFOps rest := fun o ho => hwf o (List.mem_cons_of_mem _ ho)
    cases op with
    | set k v =>
      have hx : k.length < 2 ^ 32 ∧ v.length < 2 ^ 31 :=
        hwf (BOp.set k v) (by simp)
      have hk : k.length < 2 ^ 32 := hx.1
      have hv : v.length < 2 ^ 31 := hx.2
      have hrem : logBytes (BOp.set k v :: rest) =
          beBytes 4 k.length ++
            (beBytes 4 v.length ++ (k ++ (v ++ logBytes rest))) := by
        simp [logBytes, recordBytes, List.append_assoc]
      have hlen : (logBytes (BOp.set k v :: rest)).length =
          8 + k.length + v.length + (logBytes rest).length := by
        rw [hrem]
        simp [beBytes_length]
        omega
      rw [hrem,
        rebuildLoop_set_step flen off k v (logBytes rest) kd hk hv
          (by omega) (by omega),
        ih flen (off + 8 + k.length + v.length) _ hwfr (by omega)]
      rfl
    | del k =>
      have hk : k.length < 2 ^ 32 := hwf (BOp.del k) (by simp)
      have hrem : logBytes (BOp.del k :: rest) =
          beBytes 4 k.length ++ ([255, 255, 255, 255] ++ (k ++ logBytes rest)) := by
        simp [logBytes, recordBytes, List.append_assoc]
      have hlen : (logBytes (BOp.del k :: rest)).length =
          8 + k.length + (logBytes rest).length := by
        rw [hrem]
        simp [beBytes_length]
        omega
      rw [hrem,
        rebuildLoop_del_step flen off k (logBytes rest) kd hk (by omega),
        ih flen (off + 8 + k.length) _ hwfr (by omega)]
      rfl

theorem take_append_ge {xs r : List Nat} {n : Nat} (h : xs.length ≤ n) :
    (xs ++ r).take n = xs ++ r.take (n - xs.length) := by
  rw [List.take_append_eq_append_take, List.take_of_length_le h]

/-- A record whose header and key are within the file but whose declared
payload extends past end-of-file fails the recovery bound check, whatever
partial payload bytes w follow. -/
theorem rebuildLoop_set_trunc (flen off : Nat) (k v w : List Nat)
    (kd : List (List Nat × Loc)) (hk : k.length < 2 ^ 32)
    (hv : v.length < 2 ^ 31) (hoff : off < flen)
    (hhi : flen < off + 8 + k.length + v.length) :
    rebuildLoop flen off
      (beBytes 4 k.length ++ (beBytes 4 v.length ++ (k ++ w))) kd =
      .error () := by
  have e3 : (beBytes 4 k.length ++
      (beBytes 4 v.length ++ (k ++ w))).drop 8 = k ++ w := by
    rw [← List.append_assoc]
    exact drop_len_append (by simp [beBytes_length])
  have hk256 : k.length < 256 ^ 4 := by
    have : (256 : Nat) ^ 4 = 2 ^ 32 := by norm_num
    omega
  have hv256 : v.length < 256 ^ 4 := by
    have : (256 : Nat) ^ 4 = 2 ^ 32 := by norm_num
    have : (2 : Nat) ^ 31 < 2 ^ 32 := by norm_num
    omega
  conv_lhs => rw [rebuildLoop.eq_def]
  rw [if_pos hoff]
  rw [dif_pos (by simp [beBytes_length]; omega)]
  simp only [take_len_append (beBytes_length 4 k.length),
    drop_len_append (beBytes_length 4 k.length),
    take_len_append (beBytes_length 4 v.length), e3,
    fromBE_beBytes hk256, fromBE_beBytes hv256]
  rw [dif_pos (by simp)]
  simp only [take_len_append (rfl : k.length = k.length),
    drop_len_append (rfl : k.length = k.length)]
  rw [if_neg (by rw [beBytes4_headI]; omega)]
  rw [if_pos (by omega)]

/-- Recovery consumes the complete records of a log prefix exactly as
execution does, whatever bytes follow, as long as the prefix lies within
the file length. -/
theorem rebuildLoop_append : ∀ (ops : List BOp) (flen off : Nat)
    (kd : List (List Nat × Loc)) (rest : List Nat), WFOps ops →
    off + (logBytes ops).length ≤ flen →
    rebuildLoop flen off (logBytes ops ++ rest) kd =
      rebuildLoop flen (off + (logBytes ops).length) rest (runOps ops off kd).2 := by
  intro ops
  induction ops with
  | nil =>
    intro flen off kd rest _ hle
    rw [show logBytes [] = [] from rfl, List.nil_append, List.length_nil,
      Nat.add_zero]
    rfl
  | cons op t ih =>
    intro flen off kd rest hwf hle
    have hwfr : WFOps t := fun o ho => hwf o (List.mem_cons_of_mem _ ho)
    cases op with
    | set k v =>
      have hx : k.length < 2 ^ 32 ∧ v.length < 2 ^ 31 :=
        hwf (BOp.set k v) (by simp)
      have hrem : logBytes (BOp.set k v :: t) ++ rest =
          beBytes 4 k.length ++
            (beBytes 4 v.length ++ (k ++ (v ++ (logBytes t ++ rest)))) := by
        simp [logBytes, recordBytes, List.append_assoc]
      have hlen : (logBytes (BOp.set k v :: t)).length =
          8 + k.length + v.length + (logBytes t).length := by
        simp [logBytes, recordBytes, beBytes_length]
        omega
      rw [hrem,
        rebuildLoop_set_step flen off k v (logBytes t ++ rest) kd hx.1 hx.2
          (by omega) (by omega),
        ih flen (off + 8 + k.length + v.length) _ rest hwfr (by omega),
        show off + 8 + k.length + v.length + (logBytes t).length =
          off + (logBytes (BOp.set k v :: t)).length from by omega]
      rfl
    | del k =>
      have hk : k.length < 2 ^ 32 := hwf (BOp.del k) (by simp)
      have hrem : logBytes (BOp.del k :: t) ++ rest =
          beBytes 4 k.length ++
            ([255, 255, 255, 255] ++ (k ++ (logBytes t ++ rest))) := by
        simp [logBytes, recordBytes, List.append_assoc]
      have hlen : (logBytes (BOp.del k :: t)).length =
          8 + k.length + (logBytes t).length := by
        simp [logBytes, recordBytes, beBytes_length]
        omega
      rw [hrem,
        rebuildLoop_del_step flen off k (logBytes t ++ rest) kd hk (by omega),
        ih flen (off + 8 + k.length) _ rest hwfr (by omega),
        show off + 8 + k.length + (logBytes t).length =
          off + (logBytes (BOp.del k :: t)).length from by omega]
      rfl

/-- C4: recovery refines execution. Rebuilding the key directory from the
log written by any sequence of set and delete operations yields exactly the
in-process key directory; a cut of a longer log at the end of a prefix's
last complete record is exactly that prefix's log (so the same equality
applies at every such cut); and any cut that leaves a record's declared
payload extending past end-of-file makes recovery fail with an IO error
rather than silently truncate. -/
theorem bitcask_rebuild_refinement :
    (∀ ops : List BOp, WFOps ops →
      rebuild (logBytes ops) = .ok (runOps ops 0 []).2) ∧
    (∀ ops more : List BOp,
      (logBytes (ops ++ more)).take (logBytes ops).length = logBytes ops) ∧
    (∀ (ops : List BOp) (k v : List Nat) (c : Nat), WFOps ops →
      k.length < 2 ^ 32 → v.length < 2 ^ 31 →
      (logBytes ops).length + 8 + k.length ≤ c →
      c < (logBytes ops).length + 8 + k.length + v.length →
      rebuild ((logBytes (ops ++ [BOp.set k v])).take c) = .error ()) := by
  refine ⟨?_, ?_, ?_⟩
  · intro ops h
    unfold rebuild
    exact rebuildLoop_log ops _ 0 [] h (by omega)
  · intro ops more
    rw [show logBytes (ops ++ more) = logBytes ops ++ logBytes more from by
      simp [logBytes]]
    exact List.take_left _ _
  · intro ops k v c hops hk hv hlo hhi
    have hL : logBytes (ops ++ [BOp.set k v]) =
        logBytes ops ++
          (beBytes 4 k.length ++ (beBytes 4 v.length ++ (k ++ v))) := by
      simp [logBytes, recordBytes, List.append_assoc]
    have htake : (logBytes ops ++
        (beBytes 4 k.length ++ (beBytes 4 v.length ++ (k ++ v)))).take c =
        logBytes ops ++ (beBytes 4 k.length ++ (beBytes 4 v.length ++
          (k ++ v.take (c - (logBytes ops).length -
            (beBytes 4 k.length).length - (beBytes 4 v.length).length -
            k.length)))) := by
      rw [take_append_ge (by omega)]
      congr 1
      rw [take_append_ge (by rw [beBytes_length]; omega)]
      congr 1
      rw [take_append_ge (by rw [beBytes_length, beBytes_length]; omega)]
      congr 1
      rw [take_append_ge (by rw [beBytes_length, beBytes_length]; omega)]
    unfold rebuild
    rw [hL, htake]
    have hflen : (logBytes ops ++ (beBytes 4 k.length ++ (beBytes 4 v.length ++
        (k ++ v.take (c - (logBytes ops).length -
          (beBytes 4 k.length).length - (beBytes 4 v.length).length -
          k.length))))).length = c := by
      simp [beBytes_length, List.length_take]
      omega
    rw [hflen]
    rw [rebuildLoop_append ops c 0 [] _ hops (by omega)]
    exact rebuildLoop_set_trunc c _ k v _ _ hk hv (by omega) (by omega)

theorem bitcask_rebuild_refinement_witness :
    (WFOps [BOp.set [7] [1, 2, 3], BOp.del [7], BOp.set [5] [9]] ∧
      rebuild (logBytes [BOp.set [7] [1, 2, 3], BOp.del [7], BOp.set [5] [9]]) =
        .ok (runOps [BOp.set [7] [1, 2, 3], BOp.del [7], BOp.set [5] [9]]
          0 []).2) ∧
    (WFOps ([] : List BOp) ∧
      ([7] : List Nat).length < 2 ^ 32 ∧ ([1, 2, 3] : List Nat).length < 2 ^ 31 ∧
      (logBytes ([] : List BOp)).length + 8 + ([7] : List Nat).length ≤ 10 ∧
      10 < (logBytes ([] : List BOp)).length + 8 + ([7] : List Nat).length +
        ([1, 2, 3] : List Nat).length ∧
      rebuild ((logBytes (([] : List BOp) ++ [BOp.set [7] [1, 2, 3]])).take 10) =
        .error ()) :=
  ⟨⟨by decide, bitcask_rebuild_refinement.1 _ (by decide)⟩,
    ⟨by decide, by decide, by decide, by decide, by decide,
      bitcask_rebuild_refinement.2.2 [] [7] [1, 2, 3] 10 (by decide) (by decide)
        (by decide) (by decide) (by decide)⟩⟩

/-- Association-list get, modelling map lookup keyed by the (injectively)
encoded key bytes. -/
def alGet {α β : Type} [DecidableEq α] : List (α × β) → α → Option β
  | [], _ => none
  | e :: rest, k => if e.1 = k then some e.2 else alGet rest k

/-- Association-list insert-or-replace (map insert). -/
def alSet {α β : Type} [DecidableEq α] : List (α × β) → α → β → List (α × β)
  | [], k, v => [(k, v)]
  | e :: rest, k, v => if e.1 = k then (k, v) :: rest else e :: alSet rest k v

/-- Association-list removal (map remove; keys are unique in a map, so
filtering is removal). -/
def alDel {α β : Type} [DecidableEq α] (l : List (α × β)) (k : α) :
    List (α × β) :=
  l.filter fun e => !decide (e.1 = k)

/-- BTreeSet-of-Value membership: lookups compare with Ord. -/
def vsMem (s : List Value) (v : Value) : Bool := s.any fun x => vcmp x v = .eq

/-- BTreeSet insert: a no-op when an Ord-equal element is present. -/
def vsInsert (s : List Value) (v : Value) : List Value :=
  if vsMem s v then s else s ++ [v]

/-- BTreeSet remove: drops the Ord-equal element. -/
def vsRemove (s : List Value) (v : Value) : List Value :=
  s.filter fun x => !decide (vcmp x v = .eq)

/-- BTreeSet first(): the minimum under Ord. -/
def vsMin : List Value → Option Value
  | [] => none
  | v :: rest =>
    match vsMin rest with
    | none => some v
    | some m => some (if vcmp v m = .lt then v else m)

/-- The engine state visible to the local transaction, at the decoded
level: the catalog of tables, the row store keyed by (table name, primary
key), and the index store keyed by (table name, column name, value) holding
the set of primary keys with that value. -/
structure DbState where
  catalog : List Table
  rows : List ((List Nat × Value) × List Value)
  indexes : List ((List Nat × List Nat × Value) × List Value)

/-- Mirrors Catalog::get_table: the catalog entry with the given name. -/
def getTable (db : DbState) (n : List Nat) : Option Table :=
  db.catalog.find? fun t => t.name = n

/-- Mirrors LocalTransaction::get_row. -/
def get_row (db : DbState) (t : List Nat) (id : Value) : Option (List Value) :=
  alGet db.rows (t, id)

/-- Mirrors LocalTransaction::get_index (the empty set when absent). -/
def get_index (db : DbState) (t c : List Nat) (v : Value) : List Value :=
  (alGet db.indexes (t, c, v)).getD []

/-- Mirrors LocalTransaction::set_index: an empty set deletes the index
key. -/
def set_index (db : DbState) (t c : List Nat) (v : Value) (ids : List Value) :
    DbState :=
  if ids.isEmpty then { db with indexes := alDel db.indexes (t, c, v) }
  else { db with indexes := alSet db.indexes (t, c, v) ids }

/-- Mirrors Transaction::get: the rows found among the requested ids. -/
def dbGet (db : DbState) (t : List Nat) (ids : List Value) : List (List Value) :=
  ids.filterMap fun id => get_row db t id

/-- Mirrors LocalTransaction::lookup_index: the union of the buckets of the
requested values. -/
def lookup_index (db : DbState) (t c : List Nat) (vals : List Value) :
    List Value :=
  vals.foldl (fun acc v => (get_index db t c v).foldl vsInsert acc) []

/-- Mirrors LocalTransaction::table_refs: every table paired with the
indices of its columns whose foreign key references the given table,
keeping only tables with at least one such column. -/
def table_refs (db : DbState) (referenced : List Nat) :
    List (Table × List Nat) :=
  db.catalog.filterMap fun t =>
    let r := (t.columns.enum.filter fun ic =>
      match ic.2.references with
      | some fk => decide (fk.table = referenced)
      | none => false).map fun ic => ic.1
    if r.isEmpty then none else some (t, r)

/-- The local-engine errors these operations produce. -/
inductive DbErr : Type where
  | tableDoesNotExist : List Nat → DbErr
  | referentialIntegrity : List Nat → List Nat → Value → DbErr
  | invalidRowState : DbErr
  | invalidRow : List Nat → DbErr
  deriving DecidableEq

/-- A default column for the (schema-invariant-guarded) direct index of the
primary key column. -/
def defaultColumn : Column := ⟨[], .integer, true, none, false⟩

def colName (t : Table) (i : Nat) : List Nat := (t.columns.getD i defaultColumn).name

/-- The primary keys of the given rows at column i (the source rows'
referencing values in the primary-key case), failing as the code does when
a row is too short. -/
def collectNth (i : Nat) : List (List Value) → Except DbErr (List Value)
  | [] => .ok []
  | r :: rs =>
    match r[i]? with
    | some v => (collectNth i rs).map fun t => v :: t
    | none => .error .invalidRowState

/-- The source_ids of LocalTransaction::delete for one referencing column:
primary keys come from fetching the rows at ids directly, other columns go
through the index. -/
def sourceIdsFor (db : DbState) (ids : List Value) (S : Table) (i : Nat) :
    Except DbErr (List Value) :=
  if i = S.primary_key_index then collectNth i (dbGet db S.name ids)
  else .ok (lookup_index db S.name (colName S i) ids)

/-- The referential-integrity scan of LocalTransaction::delete over the
referencing columns of one source table: compute source_ids, drop the rows
being deleted themselves when the table is self-referencing, and fail with
ReferentialIntegrity on the first remaining primary key. -/
def riCheckCols (db : DbState) (tname : List Nat) (ids : List Value)
    (S : Table) : List Nat → Except DbErr Unit
  | [] => .ok ()
  | i :: irest =>
    (sourceIdsFor db ids S i).bind fun source_ids0 =>
      let source_ids :=
        if S.name = tname then ids.foldl vsRemove source_ids0 else source_ids0
      match vsMin source_ids with
      | some sid =>
        .error (.referentialIntegrity S.name (colName S S.primary_key_index) sid)
      | none => riCheckCols db tname ids S irest

/-- The referential-integrity scan over all referencing tables. -/
def riCheck (db : DbState) (tname : List Nat) (ids : List Value) :
    List (Table × List Nat) → Except DbErr Unit
  | [] => .ok ()
  | (S, refs) :: rest =>
    (riCheckCols db tname ids S refs).bind fun _ => riCheck db tname ids rest

/-- Deleting one row: when secondary indices exist and the row is stored,
remove the id from each indexed column's bucket, then remove the row. -/
def delRowIdx (db : DbState) (t : Table) (indices : List (Nat × Column))
    (id : Value) : DbState :=
  let db2 :=
    if indices.isEmpty then db
    else
      match get_row db t.name id with
      | some row =>
        indices.foldl (fun acc ic =>
          set_index acc t.name ic.2.name (row.getD ic.1 .null)
            (vsRemove (get_index acc t.name ic.2.name (row.getD ic.1 .null)) id))
          db
      | none => db
  { db2 with rows := alDel db2.rows (t.name, id) }

/-- Mirrors LocalTransaction::delete: look up the table, run the
referential-integrity check over every referencing column of every table,
and only if it passes delete the listed rows and their index entries. -/
def localDelete (db : DbState) (tname : List Nat) (ids : List Value) :
    Except DbErr DbState :=
  match getTable db tname with
  | none => .error (.tableDoesNotExist tname)
  | some t =>
    let indices := t.columns.enum.filter fun ic => ic.2.has_secondary_index
    (riCheck db t.name ids (table_refs db t.name)).map fun _ =>
      ids.foldl (fun acc id => delRowIdx acc t indices id) db

/-- Mirrors the per-row body of LocalTransaction::insert: validate the row,
store it under its primary-key value, and add the id to each indexed
column's bucket. -/
def insRows (pI pF pD : List Nat → Bool) (fmt : Nat → List Nat)
    (db : DbState) (t : Table) : List (List Value) → Except DbErr DbState
  | [] => .ok db
  | row :: rest =>
    if validate_row pI pF pD fmt t row then
      let id := row.getD t.primary_key_index .null
      let db2 := { db with rows := alSet db.rows (t.name, id) row }
      let db3 := (t.columns.enum.filter fun ic => ic.2.has_secondary_index).foldl
        (fun acc ic =>
          set_index acc t.name ic.2.name (row.getD ic.1 .null)
            (vsInsert (get_index acc t.name ic.2.name (row.getD ic.1 .null)) id))
        db2
      insRows pI pF pD fmt db3 t rest
    else .error (.invalidRow t.name)

/-- Mirrors LocalTransaction::insert. -/
def localInsert (pI pF pD : List Nat → Bool) (fmt : Nat → List Nat)
    (db : DbState) (tname : List Nat) (rows : List (List Value)) :
    Except DbErr DbState :=
  match getTable db tname with
  | none => .error (.tableDoesNotExist tname)
  | some t => insRows pI pF pD fmt db t rows

/-- Each stored primary-key value identifies at most one row: the row-store
keys are distinct. -/
abbrev RowKeysNodup (db : DbState) : Prop := (db.rows.map Prod.fst).Nodup

theorem alSet_keys_mem {α β : Type} [DecidableEq α] :
    ∀ (m : List (α × β)) (k x : α) (v : β),
    x ∈ (alSet m k v).map Prod.fst → x ∈ m.map Prod.fst ∨ x = k := by
  intro m
  induction m with
  | nil =>
    intro k x v h
    simp [alSet] at h
    exact Or.inr h
  | cons e rest ih =>
    intro k x v h
    unfold alSet at h
    split_ifs at h with he
    · simp only [List.map_cons, List.mem_cons] at h
      rcases h with h | h
      · exact Or.inr h
      · exact Or.inl (by simp [h])
    · simp only [List.map_cons, List.mem_cons] at h
      rcases h with h | h
      · exact Or.inl (by simp [h])
      · rcases ih k x v h with h2 | h2
        · exact Or.inl (by
            simp only [List.map_cons, List.mem_cons]
            exact Or.inr h2)
        · exact Or.inr h2

theorem alSet_keys_nodup {α β : Type} [DecidableEq α] :
    ∀ (m : List (α × β)) (k : α) (v : β),
    (m.map Prod.fst).Nodup → ((alSet m k v).map Prod.fst).Nodup := by
  intro m
  induction m with
  | nil => intro k v _; simp [alSet]
  | cons e rest ih =>
    intro k v hnd
    have hhead : e.1 ∉ rest.map Prod.fst := by
      have := List.pairwise_cons.mp hnd
      intro hx
      exact this.1 e.1 hx rfl
    have hrest : (rest.map Prod.fst).Nodup := (List.pairwise_cons.mp hnd).2
    unfold alSet
    split_ifs with he
    · simp only [List.map_cons]
      refine List.pairwise_cons.mpr ⟨?_, hrest⟩
      intro x hx hkx
      exact hhead (by rw [he, hkx]; exact hx)
    · simp only [List.map_cons]
      refine List.pairwise_cons.mpr ⟨?_, ih k v hrest⟩
      intro x hx he1x
      rcases alSet_keys_mem rest k x v hx with h2 | h2
      · exact hhead (he1x ▸ h2)
      · exact he (by rw [← h2, he1x])

theorem alDel_keys_nodup {α β : Type} [DecidableEq α] (m : List (α × β))
    (k : α) (h : (m.map Prod.fst).Nodup) : ((alDel m k).map Prod.fst).Nodup :=
  h.sublist (List.Sublist.map Prod.fst (List.filter_sublist m))

theorem set_index_rows (db : DbState) (t c : List Nat) (v : Value)
    (ids : List Value) : (set_index db t c v ids).rows = db.rows := by
  unfold set_index
  split_ifs with h
  · rfl
  · rfl

theorem foldl_rows_invariant {γ : Type} (f : DbState → γ → DbState)
    (hf : ∀ acc x, (f acc x).rows = acc.rows) :
    ∀ (l : List γ) (db : DbState), (l.foldl f db).rows = db.rows := by
  intro l
  induction l with
  | nil => intro db; rfl
  | cons x t ih =>
    intro db
    rw [List.foldl_cons, ih, hf]

theorem delRowIdx_rows (db : DbState) (t : Table) (indices : List (Nat × Column))
    (id : Value) : (delRowIdx db t indices id).rows = alDel db.rows (t.name, id) := by
  unfold delRowIdx
  split_ifs with h
  · rfl
  · cases hrow : get_row db t.name id with
    | none => rfl
    | some row =>
      have := foldl_rows_invariant
        (fun acc ic => set_index acc t.name ic.2.name (row.getD ic.1 .null)
          (vsRemove (get_index acc t.name ic.2.name (row.getD ic.1 .null)) id))
        (fun acc x => set_index_rows _ _ _ _ _) indices db
      simp only [this]

theorem insRows_nodup (pI pF pD : List Nat → Bool) (fmt : Nat → List Nat)
    (t : Table) : ∀ (rows : List (List Value)) (db db2 : DbState),
    insRows pI pF pD fmt db t rows = .ok db2 →
    RowKeysNodup db → RowKeysNodup db2 := by
  intro rows
  induction rows with
  | nil =>
    intro db db2 h hnd
    injection h with h2
    rw [← h2]
    exact hnd
  | cons row rest ih =>
    intro db db2 h hnd
    unfold insRows at h
    split_ifs at h with hv
    · refine ih _ db2 h ?_
      have hrows := foldl_rows_invariant
        (fun acc ic => set_index acc t.name ic.2.name (row.getD ic.1 .null)
          (vsInsert (get_index acc t.name ic.2.name (row.getD ic.1 .null))
            (row.getD t.primary_key_index .null)))
        (fun acc x => set_index_rows _ _ _ _ _)
        (t.columns.enum.filter fun ic => ic.2.has_secondary_index)
        { db with rows := alSet db.rows (t.name, row.getD t.primary_key_index .null) row }
      unfold RowKeysNodup
      rw [hrows]
      exact alSet_keys_nodup db.rows _ row hnd

theorem foldl_delRowIdx_nodup (t : Table) (indices : List (Nat × Column)) :
    ∀ (ids : List Value) (db : DbState), RowKeysNodup db →
    RowKeysNodup (ids.foldl (fun acc id => delRowIdx acc t indices id) db) := by
  intro ids
  induction ids with
  | nil => intro db h; exact h
  | cons id rest ih =>
    intro db h
    rw [List.foldl_cons]
    refine ih _ ?_
    unfold RowKeysNodup
    rw [delRowIdx_rows]
    exact alDel_keys_nodup db.rows _ h

/-- C6 (amended): validate_row accepts exactly the rows with one value per
column, each compatible with its column type — and Null is compatible with
every type, so a Null primary key is accepted and stored; uniqueness holds
in the keyed sense: the row store is keyed by (table, primary-key value),
and insert and delete keep those keys distinct, so each stored primary-key
value identifies at most one row. -/
theorem insert_validation_and_keyed_uniqueness :
    (∀ (pI pF pD : List Nat → Bool) (fmt : Nat → List Nat) (t : Table)
       (r : List Value),
       validate_row pI pF pD fmt t r = true ↔
         (r.length = t.columns.length ∧
          ∀ pr ∈ r.zip t.columns,
            is_compatible pI pF pD fmt pr.1 pr.2.data_type = true)) ∧
    (∀ (pI pF pD : List Nat → Bool) (fmt : Nat → List Nat) (dt : DataType),
       is_compatible pI pF pD fmt .null dt = true) ∧
    (∀ (pI pF pD : List Nat → Bool) (fmt : Nat → List Nat) (db : DbState)
       (tname : List Nat) (rows : List (List Value)) (db2 : DbState),
       localInsert pI pF pD fmt db tname rows = .ok db2 →
       RowKeysNodup db → RowKeysNodup db2) ∧
    (∀ (db : DbState) (tname : List Nat) (ids : List Value) (db2 : DbState),
       localDelete db tname ids = .ok db2 → RowKeysNodup db → RowKeysNodup db2) := by
  refine ⟨?_, ?_, ?_, ?_⟩
  · intro pI pF pD fmt t r
    constructor
    · intro h
      unfold validate_row at h
      split_ifs at h with hl
      exact ⟨hl, fun pr hpr => List.all_eq_true.mp h pr hpr⟩
    · rintro ⟨hl, hall⟩
      unfold validate_row
      rw [if_pos hl]
      exact List.all_eq_true.mpr hall
  · intro pI pF pD fmt dt
    cases dt with
    | boolean => rfl
    | integer => rfl
    | float => rfl
    | string l => rfl
    | date => rfl
    | decimal p sc => rfl
  · intro pI pF pD fmt db tname rows db2 h hnd
    unfold localInsert at h
    cases hgt : getTable db tname with
    | none =>
      rw [hgt] at h
      exact Except.noConfusion h
    | some t =>
      rw [hgt] at h
      exact insRows_nodup pI pF pD fmt t rows db db2 h hnd
  · intro db tname ids db2 h hnd
    unfold localDelete at h
    cases hgt : getTable db tname with
    | none =>
      rw [hgt] at h
      exact Except.noConfusion h
    | some t =>
      rw [hgt] at h
      have h2 : (riCheck db t.name ids (table_refs db t.name)).map
          (fun _ => ids.foldl (fun acc id => delRowIdx acc t
            (t.columns.enum.filter fun ic => ic.2.has_secondary_index) id) db) =
          .ok db2 := h
      cases hri : riCheck db t.name ids (table_refs db t.name) with
      | error e =>
        rw [hri] at h2
        exact Except.noConfusion h2
      | ok u =>
        rw [hri] at h2
        injection h2 with h3
        rw [← h3]
        exact foldl_delRowIdx_nodup t _ ids db hnd

/-- The single-column table and state of the Null-primary-key
counterexample. -/
def egTblC6 : Table := ⟨[116], 0, [⟨[105], .integer, true, none, false⟩]⟩

def egDbC6 : DbState := ⟨[egTblC6], [], []⟩

def egDbC6Null : DbState :=
  ⟨[egTblC6], [(([116], Value.null), [Value.null])], []⟩

def egDbC6Int : DbState :=
  ⟨[egTblC6], [(([116], Value.integer 3), [Value.integer 3])], []⟩

def pFalse : List Nat → Bool := fun _ => false

def fmtEmpty : Nat → List Nat := fun _ => []

/-- C6 counterexample: a row whose primary-key value is Null passes
validate_row (only arity and compatibility are checked, and Null is
compatible with everything), and insert accepts and stores it — refuting
the claimed non-null primary-key invariant. -/
theorem insert_null_primary_key :
    validate_row pFalse pFalse pFalse fmtEmpty egTblC6 [Value.null] = true ∧
    localInsert pFalse pFalse pFalse fmtEmpty egDbC6 [116] [[Value.null]] =
      .ok egDbC6Null ∧
    get_row egDbC6Null [116] Value.null = some [Value.null] := by
  refine ⟨rfl, ?_, rfl⟩
  rfl

theorem insert_validation_and_keyed_uniqueness_witness :
    (localInsert pFalse pFalse pFalse fmtEmpty egDbC6 [116]
        [[Value.integer 3]] = .ok egDbC6Int) ∧
    RowKeysNodup egDbC6 ∧ RowKeysNodup egDbC6Int :=
  ⟨rfl, by decide,
    insert_validation_and_keyed_uniqueness.2.2.1 pFalse pFalse pFalse fmtEmpty
      egDbC6 [116] [[Value.integer 3]] egDbC6Int rfl (by decide)⟩

theorem mem_of_getElem? {α : Type} {l : List α} {i : Nat} {a : α}
    (h : l[i]? = some a) : a ∈ l := by
  have hi : i < l.length := by
    by_contra hc
    rw [List.getElem?_eq_none (by omega)] at h
    exact Option.noConfusion h
  rw [List.getElem?_eq_getElem hi] at h
  injection h with h2
  rw [← h2]
  exact List.getElem_mem hi

/-- Schema invariants of a table: the primary-key index is in range and
every foreign-key column carries a secondary index (as Column::try_from
guarantees). -/
def TableWF (t : Table) : Prop :=
  t.primary_key_index < t.columns.length ∧
  ∀ c ∈ t.columns, c.references.isSome = true → c.has_secondary_index = true

/-- State invariants delete relies on: every cataloged table is well formed;
a stored row carries its own key in its primary-key column; an index bucket
holds exactly the primary keys of the rows with the bucket's value in the
indexed column; and the stored primary keys of a table are distinguished by
Ord (as keys of one BTreeSet must be). -/
def DbWF (db : DbState) : Prop :=
  (∀ t ∈ db.catalog, TableWF t) ∧
  (∀ t ∈ db.catalog, ∀ id row, get_row db t.name id = some row →
    row[t.primary_key_index]? = some id) ∧
  (∀ t ∈ db.catalog, ∀ (i : Nat) (c : Column), t.columns[i]? = some c →
    c.has_secondary_index = true →
    ∀ v p, p ∈ get_index db t.name c.name v ↔
      ∃ row, get_row db t.name p = some row ∧ row[i]? = some v) ∧
  (∀ t ∈ db.catalog, ∀ id id2 r r2, get_row db t.name id = some r →
    get_row db t.name id2 = some r2 → vcmp id id2 = .eq → id = id2)

/-- The claim's violation condition: some row of some table holds one of
the deleted ids in a foreign-key column referencing the table, excluding
the rows being deleted themselves (those whose key the check's
BTreeSet::remove drops, i.e. Ord-equal to a deleted id) when the
referencing table is the table itself. -/
def HoldsViolation (db : DbState) (t : Table) (ids : List Value) : Prop :=
  ∃ S ∈ db.catalog, ∃ (i : Nat) (c : Column), S.columns[i]? = some c ∧
    (∃ fk : ForeignKey, c.references = some fk ∧ fk.table = t.name) ∧
    ∃ p row v, get_row db S.name p = some row ∧ row[i]? = some v ∧
      v ∈ ids ∧ ¬(S.name = t.name ∧ ∃ id ∈ ids, vcmp p id = .eq)

theorem vsMin_eq_none : ∀ {s : List Value}, vsMin s = none ↔ s = [] := by
  intro s
  cases s with
  | nil => simp [vsMin]
  | cons v rest =>
    constructor
    · intro h
      unfold vsMin at h
      cases hm : vsMin rest with
      | none => rw [hm] at h; exact Option.noConfusion h
      | some m => rw [hm] at h; exact Option.noConfusion h
    · intro h
      exact List.noConfusion h

theorem alGet_alDel_self {α β : Type} [DecidableEq α] :
    ∀ (m : List (α × β)) (k : α), alGet (alDel m k) k = none := by
  intro m k
  induction m with
  | nil => rfl
  | cons e rest ih =>
    unfold alDel at ih ⊢
    rw [List.filter_cons]
    by_cases he : e.1 = k
    · simp only [he]
      simp
      exact ih
    · rw [if_pos (by simp [he])]
      unfold alGet
      rw [if_neg he]
      exact ih

theorem alGet_alDel_none {α β : Type} [DecidableEq α] :
    ∀ (m : List (α × β)) (k k2 : α), alGet m k = none →
    alGet (alDel m k2) k = none := by
  intro m k k2
  induction m with
  | nil => intro _; rfl
  | cons e rest ih =>
    intro h
    by_cases he : e.1 = k
    · exfalso
      unfold alGet at h
      rw [if_pos he] at h
      exact Option.noConfusion h
    · unfold alGet at h
      rw [if_neg he] at h
      unfold alDel
      rw [List.filter_cons]
      split_ifs with h2
      · unfold alGet
        rw [if_neg he]
        exact ih h
      · exact ih h

theorem foldl_vsRemove_mem : ∀ (ids : List Value) (s : List Value) (x : Value),
    x ∈ s → (∀ id ∈ ids, ¬vcmp x id = .eq) → x ∈ ids.foldl vsRemove s := by
  intro ids
  induction ids with
  | nil => intro s x hx _; exact hx
  | cons id rest ih =>
    intro s x hx hno
    rw [List.foldl_cons]
    refine ih _ x ?_ (fun i hi => hno i (List.mem_cons_of_mem _ hi))
    unfold vsRemove
    rw [List.mem_filter]
    exact ⟨hx, by simp [hno id (by simp)]⟩

theorem collectNth_ok {i : Nat} : ∀ {rows : List (List Value)},
    (∀ r ∈ rows, ∃ v, r[i]? = some v) →
    ∃ l, collectNth i rows = .ok l ∧
      ∀ r ∈ rows, ∀ v, r[i]? = some v → v ∈ l := by
  intro rows
  induction rows with
  | nil => intro _; exact ⟨[], rfl, by simp⟩
  | cons r rs ih =>
    intro h
    rcases h r (by simp) with ⟨v, hv⟩
    rcases ih (fun r2 hr2 => h r2 (List.mem_cons_of_mem _ hr2)) with ⟨l, hl, hmem⟩
    refine ⟨v :: l, ?_, ?_⟩
    · unfold collectNth
      rw [hv, hl]
      rfl
    · intro r2 hr2 v2 hv2
      rcases List.mem_cons.mp hr2 with rfl | hr2
      · rw [hv] at hv2
        injection hv2 with h2
        simp [h2]
      · exact List.mem_cons_of_mem _ (hmem r2 hr2 v2 hv2)

theorem vcmp_self (v : Value) : vcmp v v = .eq := by
  cases v with
  | null => rfl
  | boolean b => cases b <;> rfl
  | integer a => exact intCmp_self a
  | float a => exact intCmp_self _
  | string s => exact lexCmp_self s
  | date y m d =>
    show (intCmp y y).then ((natCmp m m).then (natCmp d d)) = .eq
    rw [intCmp_self, natCmp_self, natCmp_self]
    rfl

theorem foldl_vsInsert_props (stored : Value → Prop)
    (hcoh : ∀ a b, stored a → stored b → vcmp a b = .eq → a = b) :
    ∀ (bs acc : List Value),
    (∀ x ∈ acc, stored x) → (∀ x ∈ bs, stored x) →
    (∀ x ∈ acc, x ∈ bs.foldl vsInsert acc) ∧
    (∀ x ∈ bs, x ∈ bs.foldl vsInsert acc) ∧
    (∀ x ∈ bs.foldl vsInsert acc, stored x) := by
  intro bs
  induction bs with
  | nil =>
    intro acc ha _
    exact ⟨fun x hx => hx, by simp, ha⟩
  | cons v bt ih =>
    intro acc ha hb
    have hv : stored v := hb v (by simp)
    have hacc2 : ∀ x ∈ vsInsert acc v, stored x := by
      intro x hx
      unfold vsInsert at hx
      split_ifs at hx with hm
      · exact ha x hx
      · rcases List.mem_append.mp hx with h | h
        · exact ha x h
        · rw [List.mem_singleton.mp h]
          exact hv
    have hsub : ∀ x ∈ acc, x ∈ vsInsert acc v := by
      intro x hx
      unfold vsInsert
      split_ifs with hm
      · exact hx
      · exact List.mem_append.mpr (Or.inl hx)
    have hvin : v ∈ vsInsert acc v := by
      unfold vsInsert
      split_ifs with hm
      · unfold vsMem at hm
        rcases List.any_eq_true.mp hm with ⟨x, hx, hxe⟩
        have hxv := hcoh x v (ha x hx) hv (of_decide_eq_true hxe)
        rw [← hxv]
        exact hx
      · exact List.mem_append.mpr (Or.inr (by simp))
    rw [List.foldl_cons]
    rcases ih (vsInsert acc v) hacc2
      (fun x hx => hb x (List.mem_cons_of_mem _ hx)) with ⟨ih1, ih2, ih3⟩
    refine ⟨fun x hx => ih1 x (hsub x hx), ?_, ih3⟩
    intro x hx
    rcases List.mem_cons.mp hx with rfl | hx2
    · exact ih1 x hvin
    · exact ih2 x hx2

theorem foldl_vsInsert_preserve : ∀ (bs acc : List Value) (x : Value),
    x ∈ acc → x ∈ bs.foldl vsInsert acc := by
  intro bs
  induction bs with
  | nil => intro acc x hx; exact hx
  | cons v bt ih =>
    intro acc x hx
    rw [List.foldl_cons]
    refine ih _ x ?_
    unfold vsInsert
    split_ifs with hm
    · exact hx
    · exact List.mem_append.mpr (Or.inl hx)

theorem lookup_fold_preserve (db : DbState) (tn cn : List Nat) :
    ∀ (vals acc : List Value) (x : Value), x ∈ acc →
    x ∈ vals.foldl (fun acc2 v2 =>
      (get_index db tn cn v2).foldl vsInsert acc2) acc := by
  intro vals
  induction vals with
  | nil => intro acc x hx; exact hx
  | cons v vt ih =>
    intro acc x hx
    rw [List.foldl_cons]
    exact ih _ x (foldl_vsInsert_preserve _ _ x hx)

theorem lookup_index_aux (db : DbState) (tn cn : List Nat)
    (stored : Value → Prop)
    (hcoh : ∀ a b, stored a → stored b → vcmp a b = .eq → a = b)
    (hbuckets : ∀ v x, x ∈ get_index db tn cn v → stored x) :
    ∀ (vals acc : List Value), (∀ x ∈ acc, stored x) →
    (∀ v ∈ vals, ∀ p ∈ get_index db tn cn v,
      p ∈ vals.foldl (fun acc2 v2 =>
        (get_index db tn cn v2).foldl vsInsert acc2) acc) ∧
    (∀ x ∈ vals.foldl (fun acc2 v2 =>
        (get_index db tn cn v2).foldl vsInsert acc2) acc, stored x) := by
  intro vals
  induction vals with
  | nil =>
    intro acc ha
    exact ⟨by simp, ha⟩
  | cons v vt ih =>
    intro acc ha
    rcases foldl_vsInsert_props stored hcoh (get_index db tn cn v) acc ha
      (fun x hx => hbuckets v x hx) with ⟨hp1, hp2, hp3⟩
    rcases ih ((get_index db tn cn v).foldl vsInsert acc) hp3 with ⟨ih1, ih2⟩
    rw [List.foldl_cons]
    refine ⟨?_, ih2⟩
    intro v2 hv2 p hp
    rcases List.mem_cons.mp hv2 with rfl | hv2t
    · exact lookup_fold_preserve db tn cn vt _ p (hp2 p hp)
    · exact ih1 v2 hv2t p hp

theorem riCheckCols_cons_ok {db : DbState} {tname : List Nat}
    {ids : List Value} {S : Table} {i : Nat} {irest : List Nat}
    {l : List Value} (h : sourceIdsFor db ids S i = .ok l) :
    riCheckCols db tname ids S (i :: irest) =
      match vsMin (if S.name = tname then ids.foldl vsRemove l else l) with
      | some sid => .error (.referentialIntegrity S.name
          (colName S S.primary_key_index) sid)
      | none => riCheckCols db tname ids S irest := by
  conv_lhs => unfold riCheckCols
  rw [h]
  rfl

theorem riCheckCols_shape (db : DbState) (tname : List Nat) (ids : List Value)
    (S : Table) (hok : ∀ i : Nat, ∃ l, sourceIdsFor db ids S i = .ok l) :
    ∀ refs : List Nat, riCheckCols db tname ids S refs = .ok () ∨
      ∃ c sid, riCheckCols db tname ids S refs =
        .error (.referentialIntegrity S.name c sid) := by
  intro refs
  induction refs with
  | nil => exact Or.inl rfl
  | cons i irest ih =>
    rcases hok i with ⟨l, hl⟩
    rw [riCheckCols_cons_ok hl]
    cases hm : vsMin (if S.name = tname then ids.foldl vsRemove l else l) with
    | some sid => exact Or.inr ⟨_, sid, rfl⟩
    | none => exact ih

theorem riCheckCols_ne_ok (db : DbState) (tname : List Nat) (ids : List Value)
    (S : Table) {i : Nat} {l : List Value}
    (hl : sourceIdsFor db ids S i = .ok l)
    (hne : (if S.name = tname then ids.foldl vsRemove l else l) ≠ [])
    (hokall : ∀ j : Nat, ∃ l2, sourceIdsFor db ids S j = .ok l2) :
    ∀ refs : List Nat, i ∈ refs → riCheckCols db tname ids S refs ≠ .ok () := by
  intro refs
  induction refs with
  | nil => intro h; cases h
  | cons j jrest ih =>
    intro hmem
    rcases hokall j with ⟨lj, hlj⟩
    rw [riCheckCols_cons_ok hlj]
    cases hm : vsMin (if S.name = tname then ids.foldl vsRemove lj else lj) with
    | some sid =>
      intro hcon
      exact Except.noConfusion hcon
    | none =>
      rcases List.mem_cons.mp hmem with rfl | hmem2
      · exfalso
        rw [hl] at hlj
        injection hlj with h2
        rw [← h2] at hm
        exact hne (vsMin_eq_none.mp hm)
      · exact ih hmem2

theorem riCheck_cons (db : DbState) (tname : List Nat) (ids : List Value)
    (S : Table) (refs : List Nat) (rest : List (Table × List Nat)) :
    riCheck db tname ids ((S, refs) :: rest) =
      (riCheckCols db tname ids S refs).bind fun _ =>
        riCheck db tname ids rest := rfl

theorem riCheck_shape (db : DbState) (tname : List Nat) (ids : List Value) :
    ∀ lst : List (Table × List Nat),
    (∀ q ∈ lst, ∀ i : Nat, ∃ l, sourceIdsFor db ids q.1 i = .ok l) →
    riCheck db tname ids lst = .ok () ∨
      ∃ Sn c sid, riCheck db tname ids lst =
        .error (.referentialIntegrity Sn c sid) := by
  intro lst
  induction lst with
  | nil => intro _; exact Or.inl rfl
  | cons q rest ih =>
    intro hok
    rcases q with ⟨S, refs⟩
    rcases riCheckCols_shape db tname ids S (hok (S, refs) (by simp)) refs with
      h | ⟨c, sid, h⟩
    · rw [riCheck_cons, h]
      have hb : ((Except.ok () : Except DbErr Unit).bind fun _ =>
          riCheck db tname ids rest) = riCheck db tname ids rest := rfl
      rw [hb]
      exact ih fun q2 hq2 => hok q2 (List.mem_cons_of_mem _ hq2)
    · rw [riCheck_cons, h]
      exact Or.inr ⟨S.name, c, sid, rfl⟩

theorem riCheck_ne_ok (db : DbState) (tname : List Nat) (ids : List Value)
    {S : Table} {refs : List Nat}
    (hcols : riCheckCols db tname ids S refs ≠ .ok ()) :
    ∀ lst : List (Table × List Nat), (S, refs) ∈ lst →
    riCheck db tname ids lst ≠ .ok () := by
  intro lst
  induction lst with
  | nil => intro h; cases h
  | cons q rest ih =>
    intro hmem
    rcases q with ⟨S2, refs2⟩
    cases hc : riCheckCols db tname ids S2 refs2 with
    | error e =>
      rw [riCheck_cons, hc]
      intro hcon
      exact Except.noConfusion hcon
    | ok u =>
      rw [riCheck_cons, hc]
      have hb : ((Except.ok u : Except DbErr Unit).bind fun _ =>
          riCheck db tname ids rest) = riCheck db tname ids rest := rfl
      rw [hb]
      rcases List.mem_cons.mp hmem with heq | hmem2
      · exfalso
        injection heq with hS hr
        cases u
        rw [← hS, ← hr] at hc
        exact hcols hc
      · exact ih hmem2

theorem sourceIdsFor_ok (db : DbState) (ids : List Value) (S : Table)
    (hS : S ∈ db.catalog) (hwf : DbWF db) :
    ∀ i : Nat, ∃ l, sourceIdsFor db ids S i = .ok l := by
  intro i
  unfold sourceIdsFor
  split_ifs with hpk
  · have hall : ∀ r ∈ dbGet db S.name ids, ∃ v, r[i]? = some v := by
      intro r hr
      rcases List.mem_filterMap.mp hr with ⟨id, _, hid⟩
      refine ⟨id, ?_⟩
      rw [hpk]
      exact hwf.2.1 S hS id r hid
    rcases collectNth_ok hall with ⟨l, hl, _⟩
    exact ⟨l, hl⟩
  · exact ⟨_, rfl⟩

theorem table_refs_catalog (db : DbState) (n : List Nat) :
    ∀ q ∈ table_refs db n, q.1 ∈ db.catalog := by
  intro q hq
  unfold table_refs at hq
  rcases List.mem_filterMap.mp hq with ⟨S0, hS0, hf⟩
  have hf2 : (if ((S0.columns.enum.filter fun ic =>
      match ic.2.references with
      | some fk => decide (fk.table = n)
      | none => false).map fun ic => ic.1).isEmpty = true then
        (none : Option (Table × List Nat))
      else some (S0, (S0.columns.enum.filter fun ic =>
        match ic.2.references with
        | some fk => decide (fk.table = n)
        | none => false).map fun ic => ic.1)) = some q := hf
  split_ifs at hf2 with hc
  all_goals first
    | exact Option.noConfusion hf2
    | (injection hf2 with h2
       rw [← h2]
       exact hS0)

theorem riCheck_violation (db : DbState) (t : Table) (ids : List Value)
    (hwf : DbWF db) (hviol : HoldsViolation db t ids) :
    ∃ Sn c sid, riCheck db t.name ids (table_refs db t.name) =
      .error (.referentialIntegrity Sn c sid) := by
  rcases hviol with
    ⟨S, hS, i, c, hci, ⟨fk, hfk, hfkt⟩, p, row, v, hrow, hcell, hvids, hexcl⟩
  have hienum : (i, c) ∈ S.columns.enum := List.mem_enum_iff_getElem?.mpr hci
  have hpred : (match (i, c).2.references with
      | some fk2 => decide (fk2.table = t.name)
      | none => false) = true := by
    rw [show (i, c).2 = c from rfl, hfk]
    simp [hfkt]
  have hifilter : (i, c) ∈ S.columns.enum.filter fun ic =>
      match ic.2.references with
      | some fk2 => decide (fk2.table = t.name)
      | none => false :=
    List.mem_filter.mpr ⟨hienum, hpred⟩
  have hiref : i ∈ (S.columns.enum.filter fun ic =>
      match ic.2.references with
      | some fk2 => decide (fk2.table = t.name)
      | none => false).map fun ic => ic.1 :=
    List.mem_map.mpr ⟨(i, c), hifilter, rfl⟩
  have hrne : ¬((S.columns.enum.filter fun ic =>
      match ic.2.references with
      | some fk2 => decide (fk2.table = t.name)
      | none => false).map fun ic => ic.1).isEmpty = true := by
    intro h0
    rw [List.isEmpty_iff] at h0
    rw [h0] at hiref
    cases hiref
  have hmemtr : (S, (S.columns.enum.filter fun ic =>
      match ic.2.references with
      | some fk2 => decide (fk2.table = t.name)
      | none => false).map fun ic => ic.1) ∈ table_refs db t.name := by
    unfold table_refs
    refine List.mem_filterMap.mpr ⟨S, hS, ?_⟩
    rw [if_neg hrne]
  -- the computed source set for column i contains a surviving key
  have hstep : ∃ l, sourceIdsFor db ids S i = .ok l ∧ ∃ x, x ∈ l ∧
      ¬(S.name = t.name ∧ ∃ id ∈ ids, vcmp x id = .eq) := by
    by_cases hpk : i = S.primary_key_index
    · have hvp : v = p := by
        have hpkrow := hwf.2.1 S hS p row hrow
        rw [← hpk] at hpkrow
        rw [hcell] at hpkrow
        injection hpkrow with h2
      have hall : ∀ r ∈ dbGet db S.name ids, ∃ w, r[i]? = some w := by
        intro r hr
        rcases List.mem_filterMap.mp hr with ⟨id, _, hid⟩
        refine ⟨id, ?_⟩
        rw [hpk]
        exact hwf.2.1 S hS id r hid
      rcases collectNth_ok hall with ⟨l, hl, hmem⟩
      refine ⟨l, ?_, p, ?_, ?_⟩
      · unfold sourceIdsFor
        rw [if_pos hpk]
        exact hl
      · exact hmem row (List.mem_filterMap.mpr ⟨p, hvp ▸ hvids, hrow⟩) p
          (hvp ▸ hcell)
      · intro hcon
        exact hexcl ⟨hcon.1, hcon.2⟩
    · have hcmem : c ∈ S.columns := mem_of_getElem? hci
      have hidx : c.has_secondary_index = true :=
        (hwf.1 S hS).2 c hcmem (by rw [hfk]; rfl)
      have hcn : colName S i = c.name := by
        unfold colName
        rw [List.getD_eq_getElem?_getD, hci]
        rfl
      have hiw := hwf.2.2.1 S hS i c hci hidx
      have hbucket : p ∈ get_index db S.name c.name v :=
        (hiw v p).mpr ⟨row, hrow, hcell⟩
      have hlk : p ∈ lookup_index db S.name c.name ids := by
        have haux := lookup_index_aux db S.name c.name
          (fun x => ∃ r, get_row db S.name x = some r)
          (fun a b ha hb he => by
            rcases ha with ⟨ra, hra⟩
            rcases hb with ⟨rb, hrb⟩
            exact hwf.2.2.2 S hS a b ra rb hra hrb he)
          (fun v2 x hx => by
            rcases (hiw v2 x).mp hx with ⟨r2, hr2, _⟩
            exact ⟨r2, hr2⟩)
          ids [] (by simp)
        exact haux.1 v hvids p hbucket
      refine ⟨lookup_index db S.name c.name ids, ?_, p, hlk, ?_⟩
      · unfold sourceIdsFor
        rw [if_neg hpk, hcn]
      · intro hcon
        exact hexcl ⟨hcon.1, hcon.2⟩
  rcases hstep with ⟨l, hl, x, hxl, hxex⟩
  have hfinne : (if S.name = t.name then ids.foldl vsRemove l else l) ≠ [] := by
    split_ifs with hself
    · intro h0
      have hx2 : x ∈ ids.foldl vsRemove l := by
        refine foldl_vsRemove_mem ids l x hxl ?_
        intro id hid he
        exact hxex ⟨hself, id, hid, he⟩
      rw [h0] at hx2
      cases hx2
    · intro h0
      rw [h0] at hxl
      cases hxl
  have hcolsne := riCheckCols_ne_ok db t.name ids S hl hfinne
    (sourceIdsFor_ok db ids S hS hwf) _ hiref
  have hne := riCheck_ne_ok db t.name ids hcolsne _ hmemtr
  rcases riCheck_shape db t.name ids (table_refs db t.name)
    (fun q hq => sourceIdsFor_ok db ids q.1 (table_refs_catalog db t.name q hq) hwf)
    with h | h
  · exact absurd h hne
  · exact h

theorem foldl_delRowIdx_absent_pres (t : Table) (ind : List (Nat × Column)) :
    ∀ (ids2 : List Value) (db : DbState) (k : List Nat × Value),
    alGet db.rows k = none →
    alGet ((ids2.foldl (fun acc id2 => delRowIdx acc t ind id2) db).rows) k =
      none := by
  intro ids2
  induction ids2 with
  | nil => intro db k h; exact h
  | cons id2 rest ih =>
    intro db k h
    rw [List.foldl_cons]
    refine ih _ k ?_
    rw [delRowIdx_rows]
    exact alGet_alDel_none _ _ _ h

theorem foldl_delRowIdx_absent (t : Table) (ind : List (Nat × Column)) :
    ∀ (ids2 : List Value) (db : DbState) (id : Value), id ∈ ids2 →
    get_row (ids2.foldl (fun acc id2 => delRowIdx acc t ind id2) db) t.name id =
      none := by
  intro ids2
  induction ids2 with
  | nil => intro db id h; cases h
  | cons id2 rest ih =>
    intro db id hmem
    rw [List.foldl_cons]
    rcases List.mem_cons.mp hmem with rfl | h2
    · unfold get_row
      refine foldl_delRowIdx_absent_pres t ind rest _ (t.name, id) ?_
      rw [delRowIdx_rows]
      exact alGet_alDel_self _ _
    · exact ih _ id h2

/-- C5: the referential-integrity check of delete runs in full before any
row or index mutation (the error return precedes the deletion loop), so on
a violation the transaction state is untouched. Under the state invariants:
if any row of any table holds one of the deleted ids in a foreign-key
column referencing the table (excluding the rows being deleted themselves
when the table is self-referencing), delete fails with
ReferentialIntegrity{table, column, source_id}; and when delete succeeds,
every listed row is gone — deletion within the statement is
all-or-nothing. -/
theorem local_delete_referential_integrity (db : DbState) (tname : List Nat)
    (ids : List Value) (t : Table) (hget : getTable db tname = some t)
    (hwf : DbWF db) :
    (HoldsViolation db t ids →
      ∃ Sn c sid, localDelete db tname ids =
        .error (.referentialIntegrity Sn c sid)) ∧
    (∀ db2, localDelete db tname ids = .ok db2 →
      ∀ id ∈ ids, get_row db2 t.name id = none) := by
  constructor
  · intro hv
    rcases riCheck_violation db t ids hwf hv with ⟨Sn, c, sid, herr⟩
    refine ⟨Sn, c, sid, ?_⟩
    unfold localDelete
    rw [hget]
    show (riCheck db t.name ids (table_refs db t.name)).map _ =
      .error (.referentialIntegrity Sn c sid)
    rw [herr]
    rfl
  · intro db2 h id hid
    unfold localDelete at h
    rw [hget] at h
    have h2 : (riCheck db t.name ids (table_refs db t.name)).map
        (fun _ => ids.foldl (fun acc id2 => delRowIdx acc t
          (t.columns.enum.filter fun ic => ic.2.has_secondary_index) id2) db) =
        .ok db2 := h
    cases hri : riCheck db t.name ids (table_refs db t.name) with
    | error e =>
      rw [hri] at h2
      exact Except.noConfusion h2
    | ok u =>
      rw [hri] at h2
      injection h2 with h3
      rw [← h3]
      exact foldl_delRowIdx_absent t _ ids db id hid

theorem local_delete_referential_integrity_witness :
    (getTable egDbC6 [116] = some egTblC6 ∧ DbWF egDbC6) ∧
    ((HoldsViolation egDbC6 egTblC6 [Value.integer 1] →
      ∃ Sn c sid, localDelete egDbC6 [116] [Value.integer 1] =
        .error (.referentialIntegrity Sn c sid)) ∧
    (∀ db2, localDelete egDbC6 [116] [Value.integer 1] = .ok db2 →
      ∀ id ∈ [Value.integer 1], get_row db2 egTblC6.name id = none)) := by
  have hwf : DbWF egDbC6 := by
    refine ⟨?_, ?_, ?_, ?_⟩
    · intro t ht
      rw [show t = egTblC6 from by simpa [egDbC6] using ht]
      unfold TableWF
      constructor
      · decide
      · decide
    · intro t ht id row h
      exact Option.noConfusion h
    · intro t ht i c hci hidx v p
      constructor
      · intro hp
        have hge : get_index egDbC6 t.name c.name v = [] := rfl
        rw [hge] at hp
        cases hp
      · rintro ⟨row, hrow, _⟩
        exact Option.noConfusion hrow
    · intro t ht id id2 r r2 h1 h2 he
      exact Option.noConfusion h1
  exact ⟨⟨rfl, hwf⟩,
    local_delete_referential_integrity egDbC6 [116] [Value.integer 1] egTblC6
      rfl hwf⟩

end Veris
